import Mathlib

/-!
# Unicode iterator adapters (`boost/regex/pending/unicode_iterator.hpp`)

A shallow embedding of the four transcoding iterator adapters

* `u32_to_u16_iterator` (code points to UTF-16 units),
* `u16_to_u32_iterator` (UTF-16 units to code points),
* `u32_to_u8_iterator`  (code points to UTF-8 bytes),
* `u8_to_u32_iterator`  (UTF-8 bytes to code points),

and of the helpers in `boost::detail`.

Conventions of the embedding.

* The caller-owned source sequence is a `List Nat`; a base cursor (`BaseIterator`) is an index
  into it, so `*m_position` is `src[m_position]?`.  Reading outside the sequence, stepping a cursor
  before the first element and indexing outside a fixed table have no defined behaviour in the
  source; the embedding reports them as the separate outcome `Failure.Undefined`.
* Machine integers are `Nat` with explicit reduction modulo `2^8`, `2^16`, `2^32` at the
  conversions the source performs (`static_cast`, assignment to a narrower member, unsigned
  arithmetic on `m_value`).
* An operation that can throw returns `Except (Failure × σ) α`: a thrown exception carries the
  state of the adapter at the moment of the throw, since the source mutates `m_position`,
  `m_values`, `m_current` and `m_value` in place before some of its checks.
* `dereference` is `const` in the source but fills the `mutable` cache, so it returns the updated
  adapter together with the value.
-/

namespace boost

/-- The three kinds of exception raised by the adapters (all are `std::out_of_range` in the
source, told apart by the throwing function), and `Undefined` for the situations in which the
source has no defined behaviour. -/
inductive Failure
  | InvalidCodePoint
  | MisplacedSurrogate
  | InvalidUtf8Sequence
  | Undefined
  deriving DecidableEq, Repr

namespace detail

/-- The constant `high_surrogate_base = 0xD7C0u`. -/
def high_surrogate_base : Nat := 0xD7C0

/-- The constant `low_surrogate_base = 0xDC00u`. -/
def low_surrogate_base : Nat := 0xDC00

/-- The constant `ten_bit_mask = 0x3FFu`. -/
def ten_bit_mask : Nat := 0x3FF

/-- Source: `is_high_surrogate(uint16_t v)` is `(v & 0xFC00u) == 0xd800u`; the parameter is a
16-bit value, so the argument is reduced modulo `2^16`. -/
def is_high_surrogate (v : Nat) : Bool :=
  ((v % 65536) &&& 0xFC00) == 0xD800

/-- Source: `is_low_surrogate(uint16_t v)` is `(v & 0xFC00u) == 0xdc00u`. -/
def is_low_surrogate (v : Nat) : Bool :=
  ((v % 65536) &&& 0xFC00) == 0xDC00

/-- Source: `template <class T> is_surrogate(T v)` is `(v & 0xF800u) == 0xd800`.  The argument
keeps the width of `T` (16 bits in the UTF-16 encoder, 32 bits in the UTF-16 decoder); only bits
11 to 15 are inspected. -/
def is_surrogate (v : Nat) : Bool :=
  (v &&& 0xF800) == 0xD800

/-- The `while(c & mask)` loop of `utf8_byte_count`: `mask` is a `uint8_t` shifted right once per
round, `result` counts the rounds.  The first argument bounds the number of rounds; nine rounds
are never needed because `mask` is zero after eight shifts. -/
def utf8_byte_count_loop (c : Nat) : Nat → Nat → Nat → Nat
  | 0, _, result => result
  | fuel + 1, mask, result =>
    if (c &&& mask) ≠ 0 then utf8_byte_count_loop c fuel ((mask >>> 1) % 256) (result + 1)
    else result

/-- Source: `utf8_byte_count(uint8_t c)`: the number of leading one bits of `c`, or 1 when there
is none. -/
def utf8_byte_count (c : Nat) : Nat :=
  let result := utf8_byte_count_loop (c % 256) 9 0x80 0
  if result = 0 then 1 else result

/-- Source: `utf8_trailing_byte_count(uint8_t c)` is `utf8_byte_count(c) - 1`. -/
def utf8_trailing_byte_count (c : Nat) : Nat :=
  utf8_byte_count c - 1

end detail

/-! ## `u32_to_u16_iterator` -/

/-- The members of `u32_to_u16_iterator`: the base cursor, the three-slot buffer `m_values` and
the index `m_current` (0, 1, or 2 for a pending read). -/
structure u32_to_u16_iterator where
  m_position : Nat
  m_values : List Nat
  m_current : Nat
  deriving DecidableEq, Repr

namespace u32_to_u16_iterator

/-- Source: the constructor `u32_to_u16_iterator(BaseIterator b)`: `m_position(b)`,
`m_current(2)`, `m_values[2] = 0`.  Slots 0 and 1 are not initialised by the source; their
contents are the arbitrary values `u0`, `u1`. -/
def construct (b : Nat) (u0 u1 : Nat) : u32_to_u16_iterator :=
  { m_position := b, m_values := [u0, u1, 0], m_current := 2 }

/-- Source: `base()`. -/
def base (it : u32_to_u16_iterator) : Nat := it.m_position

/-- Source: `u32_to_u16_iterator::extract_current`. -/
def extract_current (src : List Nat) (it : u32_to_u16_iterator) :
    Except (Failure × u32_to_u16_iterator) u32_to_u16_iterator :=
  match src[it.m_position]? with
  | none => .error (Failure.Undefined, it)
  | some x =>
    let v := x % 4294967296
    if v ≥ 0x10000 then
      if v > 0x10FFFF then .error (Failure.InvalidCodePoint, it)
      else
        let hi := ((v >>> 10) % 65536 + detail.high_surrogate_base) % 65536
        let lo := ((v &&& detail.ten_bit_mask) % 65536 + detail.low_surrogate_base) % 65536
        .ok { it with m_values := (it.m_values.set 0 hi).set 1 lo, m_current := 0 }
    else
      let it1 : u32_to_u16_iterator :=
        { it with m_values := (it.m_values.set 0 (v % 65536)).set 1 0, m_current := 0 }
      if detail.is_surrogate (v % 65536) then .error (Failure.InvalidCodePoint, it1)
      else .ok it1

/-- Source: `u32_to_u16_iterator::dereference`. -/
def dereference (src : List Nat) (it : u32_to_u16_iterator) :
    Except (Failure × u32_to_u16_iterator) (Nat × u32_to_u16_iterator) :=
  match (if it.m_current = 2 then extract_current src it else .ok it) with
  | .error e => .error e
  | .ok it1 =>
    match it1.m_values[it1.m_current]? with
    | none => .error (Failure.Undefined, it1)
    | some u => .ok (u, it1)

/-- Source: `u32_to_u16_iterator::equal`. -/
def equal (a b : u32_to_u16_iterator) : Bool :=
  if a.m_position = b.m_position then
    if ((a.m_current + b.m_current) &&& 1) ≠ 0 then false else true
  else false

/-- Source: `u32_to_u16_iterator::increment`. -/
def increment (src : List Nat) (it : u32_to_u16_iterator) :
    Except (Failure × u32_to_u16_iterator) u32_to_u16_iterator :=
  match (if it.m_current = 2 then extract_current src it else .ok it) with
  | .error e => .error e
  | .ok it1 =>
    let it2 : u32_to_u16_iterator := { it1 with m_current := it1.m_current + 1 }
    match it2.m_values[it2.m_current]? with
    | none => .error (Failure.Undefined, it2)
    | some u =>
      if u = 0 then .ok { it2 with m_current := 2, m_position := it2.m_position + 1 }
      else .ok it2

/-- Source: `u32_to_u16_iterator::decrement`. -/
def decrement (src : List Nat) (it : u32_to_u16_iterator) :
    Except (Failure × u32_to_u16_iterator) u32_to_u16_iterator :=
  if it.m_current ≠ 1 then
    match it.m_position with
    | 0 => .error (Failure.Undefined, it)
    | p + 1 =>
      match extract_current src { it with m_position := p } with
      | .error e => .error e
      | .ok it1 =>
        match it1.m_values[1]? with
        | none => .error (Failure.Undefined, it1)
        | some u => .ok { it1 with m_current := if u ≠ 0 then 1 else 0 }
  else .ok { it with m_current := 0 }

end u32_to_u16_iterator

/-! ## `u16_to_u32_iterator` -/

/-- The members of `u16_to_u32_iterator`: the base cursor and the cached value `m_value`. -/
structure u16_to_u32_iterator where
  m_position : Nat
  m_value : Nat
  deriving DecidableEq, Repr

namespace u16_to_u32_iterator

/-- The constant `pending_read = 0xffffffffu`. -/
def pending_read : Nat := 0xffffffff

/-- Source: the constructor `u16_to_u32_iterator(BaseIterator b)`. -/
def construct (b : Nat) : u16_to_u32_iterator :=
  { m_position := b, m_value := pending_read }

/-- Source: `base()`. -/
def base (it : u16_to_u32_iterator) : Nat := it.m_position

/-- The body of the `if(is_high_surrogate(*m_position))` block of `extract_current`, entered
with `m_value` already holding the unit at the base position. -/
def combine_pair (src : List Nat) (it : u16_to_u32_iterator) :
    Except (Failure × u16_to_u32_iterator) u16_to_u32_iterator :=
  match src[it.m_position + 1]? with
  | none => .error (Failure.Undefined, it)
  | some y =>
    let t := y % 65536
    if (t &&& 0xFC00) ≠ 0xDC00 then .error (Failure.MisplacedSurrogate, it)
    else
      let shifted :=
        (((it.m_value + 4294967296 - detail.high_surrogate_base) % 4294967296) <<< 10)
          % 4294967296
      .ok { it with m_value := shifted ||| ((t % 4294967296) &&& detail.ten_bit_mask) }

/-- Source: `u16_to_u32_iterator::extract_current`. -/
def extract_current (src : List Nat) (it : u16_to_u32_iterator) :
    Except (Failure × u16_to_u32_iterator) u16_to_u32_iterator :=
  match src[it.m_position]? with
  | none => .error (Failure.Undefined, it)
  | some x =>
    let it1 : u16_to_u32_iterator := { it with m_value := (x % 65536) % 4294967296 }
    match (if detail.is_high_surrogate x then combine_pair src it1 else .ok it1) with
    | .error e => .error e
    | .ok it2 =>
      if detail.is_surrogate it2.m_value then .error (Failure.MisplacedSurrogate, it2)
      else .ok it2

/-- Source: `u16_to_u32_iterator::dereference`. -/
def dereference (src : List Nat) (it : u16_to_u32_iterator) :
    Except (Failure × u16_to_u32_iterator) (Nat × u16_to_u32_iterator) :=
  match (if it.m_value = pending_read then extract_current src it else .ok it) with
  | .error e => .error e
  | .ok it1 => .ok (it1.m_value, it1)

/-- Source: `u16_to_u32_iterator::equal`. -/
def equal (a b : u16_to_u32_iterator) : Bool :=
  a.m_position == b.m_position

/-- Source: `u16_to_u32_iterator::increment`.  Only the read of `*m_position` is checked
against the sequence; the cursor reached is not. -/
def increment (src : List Nat) (it : u16_to_u32_iterator) :
    Except (Failure × u16_to_u32_iterator) u16_to_u32_iterator :=
  match src[it.m_position]? with
  | none => .error (Failure.Undefined, it)
  | some x =>
    let p := if detail.is_high_surrogate x then it.m_position + 1 else it.m_position
    .ok { m_position := p + 1, m_value := pending_read }

/-- Source: `u16_to_u32_iterator::decrement`. -/
def decrement (src : List Nat) (it : u16_to_u32_iterator) :
    Except (Failure × u16_to_u32_iterator) u16_to_u32_iterator :=
  match it.m_position with
  | 0 => .error (Failure.Undefined, it)
  | p + 1 =>
    match src[p]? with
    | none => .error (Failure.Undefined, { it with m_position := p })
    | some x =>
      if detail.is_low_surrogate x then
        match p with
        | 0 => .error (Failure.Undefined, { it with m_position := p })
        | q + 1 => .ok { m_position := q, m_value := pending_read }
      else .ok { m_position := p, m_value := pending_read }

end u16_to_u32_iterator

/-! ## `u32_to_u8_iterator` -/

/-- The members of `u32_to_u8_iterator`: the base cursor, the five-slot buffer `m_values` and
the index `m_current` (0 to 3, or 4 for a pending read). -/
structure u32_to_u8_iterator where
  m_position : Nat
  m_values : List Nat
  m_current : Nat
  deriving DecidableEq, Repr

namespace u32_to_u8_iterator

/-- Source: the constructor `u32_to_u8_iterator(BaseIterator b)`: `m_position(b)`,
`m_current(4)`, `m_values[4] = 0`.  Slots 0 to 3 are not initialised by the source; their
contents are the arbitrary values `u0`, `u1`, `u2`, `u3`. -/
def construct (b : Nat) (u0 u1 u2 u3 : Nat) : u32_to_u8_iterator :=
  { m_position := b, m_values := [u0, u1, u2, u3, 0], m_current := 4 }

/-- Source: `base()`. -/
def base (it : u32_to_u8_iterator) : Nat := it.m_position

/-- The four assignments `m_values[0] = ..., ..., m_values[3] = ...` of one branch of
`extract_current`. -/
def store4 (vals : List Nat) (b0 b1 b2 b3 : Nat) : List Nat :=
  (((vals.set 0 b0).set 1 b1).set 2 b2).set 3 b3

/-- Source: `u32_to_u8_iterator::extract_current`. -/
def extract_current (src : List Nat) (it : u32_to_u8_iterator) :
    Except (Failure × u32_to_u8_iterator) u32_to_u8_iterator :=
  match src[it.m_position]? with
  | none => .error (Failure.Undefined, it)
  | some x =>
    let c := x % 4294967296
    if c > 0x10FFFF then .error (Failure.InvalidCodePoint, it)
    else if c < 0x80 then
      .ok { it with m_values := store4 it.m_values (c % 256) 0 0 0, m_current := 0 }
    else if c < 0x800 then
      .ok { it with
            m_values := store4 it.m_values ((0xC0 + (c >>> 6)) % 256)
              ((0x80 + (c &&& 0x3F)) % 256) 0 0,
            m_current := 0 }
    else if c < 0x10000 then
      .ok { it with
            m_values := store4 it.m_values ((0xE0 + (c >>> 12)) % 256)
              ((0x80 + ((c >>> 6) &&& 0x3F)) % 256) ((0x80 + (c &&& 0x3F)) % 256) 0,
            m_current := 0 }
    else
      .ok { it with
            m_values := store4 it.m_values ((0xF0 + (c >>> 18)) % 256)
              ((0x80 + ((c >>> 12) &&& 0x3F)) % 256) ((0x80 + ((c >>> 6) &&& 0x3F)) % 256)
              ((0x80 + (c &&& 0x3F)) % 256),
            m_current := 0 }

/-- Source: `u32_to_u8_iterator::dereference`. -/
def dereference (src : List Nat) (it : u32_to_u8_iterator) :
    Except (Failure × u32_to_u8_iterator) (Nat × u32_to_u8_iterator) :=
  match (if it.m_current = 4 then extract_current src it else .ok it) with
  | .error e => .error e
  | .ok it1 =>
    match it1.m_values[it1.m_current]? with
    | none => .error (Failure.Undefined, it1)
    | some u => .ok (u, it1)

/-- Source: `u32_to_u8_iterator::equal`. -/
def equal (a b : u32_to_u8_iterator) : Bool :=
  if a.m_position = b.m_position then
    (a.m_current == b.m_current) || (((a.m_current ||| b.m_current) &&& 3) == 0)
  else false

/-- Source: `u32_to_u8_iterator::increment`. -/
def increment (src : List Nat) (it : u32_to_u8_iterator) :
    Except (Failure × u32_to_u8_iterator) u32_to_u8_iterator :=
  match (if it.m_current = 4 then extract_current src it else .ok it) with
  | .error e => .error e
  | .ok it1 =>
    let it2 : u32_to_u8_iterator := { it1 with m_current := it1.m_current + 1 }
    match it2.m_values[it2.m_current]? with
    | none => .error (Failure.Undefined, it2)
    | some u =>
      if u = 0 then .ok { it2 with m_current := 4, m_position := it2.m_position + 1 }
      else .ok it2

/-- The loop `while(m_current && (m_values[m_current] == 0)) --m_current;` of `decrement`,
by recursion on `m_current`. -/
def skip_empty (vals : List Nat) : Nat → Option Nat
  | 0 => some 0
  | k + 1 =>
    match vals[k + 1]? with
    | none => none
    | some u => if u = 0 then skip_empty vals k else some (k + 1)

/-- Source: `u32_to_u8_iterator::decrement`. -/
def decrement (src : List Nat) (it : u32_to_u8_iterator) :
    Except (Failure × u32_to_u8_iterator) u32_to_u8_iterator :=
  if (it.m_current &&& 3) = 0 then
    match it.m_position with
    | 0 => .error (Failure.Undefined, it)
    | p + 1 =>
      match extract_current src { it with m_position := p } with
      | .error e => .error e
      | .ok it1 =>
        match skip_empty it1.m_values 3 with
        | none => .error (Failure.Undefined, { it1 with m_current := 3 })
        | some k => .ok { it1 with m_current := k }
  else .ok { it with m_current := it.m_current - 1 }

end u32_to_u8_iterator

/-! ## `u8_to_u32_iterator` -/

/-- The members of `u8_to_u32_iterator`: the base cursor and the cached value `m_value`. -/
structure u8_to_u32_iterator where
  m_position : Nat
  m_value : Nat
  deriving DecidableEq, Repr

namespace u8_to_u32_iterator

/-- The constant `pending_read = 0xffffffffu`. -/
def pending_read : Nat := 0xffffffff

/-- The table `masks` of `extract_current`. -/
def masks : List Nat := [0x7F, 0x7FF, 0xFFFF, 0x1FFFFF]

/-- Source: the constructor `u8_to_u32_iterator(BaseIterator b)`. -/
def construct (b : Nat) : u8_to_u32_iterator :=
  { m_position := b, m_value := pending_read }

/-- Source: `base()`. -/
def base (it : u8_to_u32_iterator) : Nat := it.m_position

/-- The loop `for(c = 0; c < extra; ++c) { ++next; m_value <<= 6; m_value += *next & 0x3Fu; }`
of `extract_current`: the first argument is the number of rounds left, `next` the local cursor,
and the adapter carries `m_value` (32-bit arithmetic). -/
def extract_loop (src : List Nat) : Nat → Nat → u8_to_u32_iterator →
    Except (Failure × u8_to_u32_iterator) u8_to_u32_iterator
  | 0, _, it => .ok it
  | n + 1, next, it =>
    let it1 : u8_to_u32_iterator := { it with m_value := (it.m_value <<< 6) % 4294967296 }
    match src[next + 1]? with
    | none => .error (Failure.Undefined, it1)
    | some y =>
      extract_loop src n (next + 1)
        { it1 with m_value := (it1.m_value + ((y % 256) &&& 0x3F)) % 4294967296 }

/-- Source: `u8_to_u32_iterator::extract_current`. -/
def extract_current (src : List Nat) (it : u8_to_u32_iterator) :
    Except (Failure × u8_to_u32_iterator) u8_to_u32_iterator :=
  match src[it.m_position]? with
  | none => .error (Failure.Undefined, it)
  | some x =>
    let it1 : u8_to_u32_iterator := { it with m_value := (x % 256) % 4294967296 }
    if (it1.m_value &&& 0xC0) = 0x80 then .error (Failure.InvalidUtf8Sequence, it1)
    else
      let extra := detail.utf8_trailing_byte_count x
      match extract_loop src extra it.m_position it1 with
      | .error e => .error e
      | .ok it2 =>
        match masks[extra]? with
        | none => .error (Failure.Undefined, it2)
        | some m =>
          let it3 : u8_to_u32_iterator := { it2 with m_value := it2.m_value &&& m }
          if it3.m_value > 0x10FFFF then .error (Failure.InvalidUtf8Sequence, it3)
          else .ok it3

/-- Source: `u8_to_u32_iterator::dereference`. -/
def dereference (src : List Nat) (it : u8_to_u32_iterator) :
    Except (Failure × u8_to_u32_iterator) (Nat × u8_to_u32_iterator) :=
  match (if it.m_value = pending_read then extract_current src it else .ok it) with
  | .error e => .error e
  | .ok it1 => .ok (it1.m_value, it1)

/-- Source: `u8_to_u32_iterator::equal`. -/
def equal (a b : u8_to_u32_iterator) : Bool :=
  a.m_position == b.m_position

/-- Source: `u8_to_u32_iterator::increment`.  Only the read of `*m_position` is checked
against the sequence; the cursor reached by `std::advance` is not. -/
def increment (src : List Nat) (it : u8_to_u32_iterator) :
    Except (Failure × u8_to_u32_iterator) u8_to_u32_iterator :=
  match src[it.m_position]? with
  | none => .error (Failure.Undefined, it)
  | some x =>
    .ok { m_position := it.m_position + detail.utf8_byte_count x, m_value := pending_read }

/-- The loop `while((*--m_position & 0xC0u) == 0x80u) ++count;` of `decrement`, by recursion on
the cursor: returns the cursor reached and the number of continuation bytes skipped. -/
def backtrack (src : List Nat) : Nat → Nat → Except (Failure × Nat) (Nat × Nat)
  | 0, _ => .error (Failure.Undefined, 0)
  | p + 1, count =>
    match src[p]? with
    | none => .error (Failure.Undefined, p)
    | some x =>
      if ((x % 256) &&& 0xC0) = 0x80 then backtrack src p (count + 1)
      else .ok (p, count)

/-- Source: `u8_to_u32_iterator::decrement`. -/
def decrement (src : List Nat) (it : u8_to_u32_iterator) :
    Except (Failure × u8_to_u32_iterator) u8_to_u32_iterator :=
  match backtrack src it.m_position 0 with
  | .error (f, p) => .error (f, { it with m_position := p })
  | .ok (p, count) =>
    match src[p]? with
    | none => .error (Failure.Undefined, { it with m_position := p })
    | some x =>
      if count ≠ detail.utf8_trailing_byte_count x then
        .error (Failure.InvalidUtf8Sequence, { it with m_position := p })
      else .ok { m_position := p, m_value := pending_read }

end u8_to_u32_iterator

/-! ## Reference definitions taken from the specification -/

namespace spec

/-- A valid code point: in `[0, 0x10FFFF]` and outside the surrogate range `[0xD800, 0xDFFF]`. -/
def valid_code_point (v : Nat) : Prop :=
  v ≤ 0x10FFFF ∧ ¬ (0xD800 ≤ v ∧ v ≤ 0xDFFF)

instance (v : Nat) : Decidable (valid_code_point v) := by
  unfold valid_code_point; infer_instance

/-- The UTF-16 encoding of a code point as the specification words it: one unit equal to `v`
below `0x10000`, otherwise `high = (v >> 10) + 0xD7C0` and `low = (v & 0x3FF) + 0xDC00`. -/
def utf16_units (v : Nat) : List Nat :=
  if v < 0x10000 then [v] else [(v >>> 10) + 0xD7C0, (v &&& 0x3FF) + 0xDC00]

/-- The UTF-8 encoding of a code point as the table of the specification words it. -/
def utf8_bytes (v : Nat) : List Nat :=
  if v < 0x80 then [v]
  else if v < 0x800 then [0xC0 + (v >>> 6), 0x80 + (v &&& 0x3F)]
  else if v < 0x10000 then [0xE0 + (v >>> 12), 0x80 + ((v >>> 6) &&& 0x3F), 0x80 + (v &&& 0x3F)]
  else [0xF0 + (v >>> 18), 0x80 + ((v >>> 12) &&& 0x3F), 0x80 + ((v >>> 6) &&& 0x3F),
        0x80 + (v &&& 0x3F)]

/-- The accumulation step of the UTF-8 decoder as the specification words it: each further byte
contributes its six low bits via `value = (value << 6) | (byte & 0x3F)`. -/
def utf8_accumulate (value : Nat) : List Nat → Nat
  | [] => value
  | y :: ys => utf8_accumulate ((value <<< 6) ||| (y &&& 0x3F)) ys

/-- The mask of the specification for `extra` further bytes: `0x7F`, `0x7FF`, `0xFFFF`,
`0x1FFFFF` for `extra = 0..3`; the specification names none for a larger count. -/
def utf8_mask : Nat → Option Nat
  | 0 => some 0x7F
  | 1 => some 0x7FF
  | 2 => some 0xFFFF
  | 3 => some 0x1FFFFF
  | _ => none

/-- The value that the leading byte `b` followed by the further bytes `ys` decodes to according
to the specification: the accumulated value masked by the mask of the number of further bytes.
No range test is applied here. -/
def utf8_decoded (b : Nat) (ys : List Nat) : Option Nat :=
  (utf8_mask ys.length).map (fun m => utf8_accumulate b ys &&& m)

end spec

/-! ## Forward traversal -/

/-- The caller's loop `for(; !equal(it, last); increment(it)) out.push_back(dereference(it));`
over any of the adapters, given by its three operations.  The first argument bounds the number
of rounds; `none` is returned when the bound is reached before `it` compares equal to `last`. -/
def traverse {σ : Type} (deref : σ → Except (Failure × σ) (Nat × σ))
    (incr : σ → Except (Failure × σ) σ) (eq : σ → σ → Bool) (last : σ) :
    Nat → σ → Except (Failure × σ) (Option (List Nat))
  | fuel, it =>
    if eq it last then .ok (some [])
    else
      match fuel with
      | 0 => .ok none
      | fuel + 1 =>
        match deref it with
        | .error e => .error e
        | .ok (u, it1) =>
          match incr it1 with
          | .error e => .error e
          | .ok it2 =>
            match traverse deref incr eq last fuel it2 with
            | .error e => .error e
            | .ok none => .ok none
            | .ok (some us) => .ok (some (u :: us))

/-- The relation `rounds deref incr eq last it us it1`: started at `it`, the loop of `traverse`
performs `us.length` rounds, each of which finds the adapter different from `last`,
dereferences the values `us` in this order, and leaves the adapter `it1`. -/
def rounds {σ : Type} (deref : σ → Except (Failure × σ) (Nat × σ))
    (incr : σ → Except (Failure × σ) σ) (eq : σ → σ → Bool) (last : σ) :
    σ → List Nat → σ → Prop
  | it, [], it1 => it = it1
  | it, u :: us, it1 =>
    eq it last = false ∧
      ∃ a b, deref it = .ok (u, a) ∧ incr a = .ok b ∧ rounds deref incr eq last b us it1

/-- An outcome is the raising of the failure `f` (whatever state is left behind). -/
def raises {σ α : Type} (r : Except (Failure × σ) α) (f : Failure) : Bool :=
  match r with
  | .error (g, _) => g == f
  | .ok _ => false

/-- An outcome is a normal return. -/
def succeeds {σ α : Type} (r : Except (Failure × σ) α) : Bool :=
  match r with
  | .error _ => false
  | .ok _ => true

/-! ## Repeated steps and backward traversal -/

/-- The operation `op` applied `n` times in a row, stopping at the first failure: `n` calls of
`increment` or of `decrement` by the caller. -/
def repeat_op {σ : Type} (op : σ → Except (Failure × σ) σ) :
    Nat → σ → Except (Failure × σ) σ
  | 0, it => .ok it
  | n + 1, it =>
    match op it with
    | .error e => .error e
    | .ok it1 => repeat_op op n it1

/-- The caller's loop `for(i = 0; i < n; ++i) { decrement(it); out.push_back(dereference(it)); }`:
the values dereferenced, in the order in which they are read, and the adapter left behind. -/
def traverse_backward {σ : Type} (decr : σ → Except (Failure × σ) σ)
    (deref : σ → Except (Failure × σ) (Nat × σ)) :
    Nat → σ → Except (Failure × σ) (List Nat × σ)
  | 0, it => .ok ([], it)
  | n + 1, it =>
    match decr it with
    | .error e => .error e
    | .ok it1 =>
      match deref it1 with
      | .error e => .error e
      | .ok (u, it2) =>
        match traverse_backward decr deref n it2 with
        | .error e => .error e
        | .ok (us, it3) => .ok (u :: us, it3)

namespace spec

/-- The unit at offset `p` starts a well-formed UTF-16 element: it is not a low surrogate, and
when it is a high surrogate the next unit is a low surrogate. -/
def well_paired (src : List Nat) (p : Nat) : Bool :=
  match src[p]? with
  | none => false
  | some u =>
    !detail.is_low_surrogate u &&
      (!detail.is_high_surrogate u ||
        match src[p + 1]? with
        | none => false
        | some t => detail.is_low_surrogate t)

/-- The offset after the UTF-16 element that starts at `p`. -/
def next_unit_offset (src : List Nat) (p : Nat) : Nat :=
  match src[p]? with
  | none => p + 1
  | some u => if detail.is_high_surrogate u then p + 2 else p + 1

/-- The `n` UTF-16 elements met by `n` forward steps from offset `p` are well formed. -/
def well_paired_steps (src : List Nat) : Nat → Nat → Bool
  | 0, _ => true
  | n + 1, p => well_paired src p && well_paired_steps src n (next_unit_offset src p)

/-- The `k` bytes from offset `q` on exist and are continuation bytes (top two bits `10`). -/
def continuation_run (src : List Nat) : Nat → Nat → Bool
  | 0, _ => true
  | k + 1, q =>
    match src[q]? with
    | none => false
    | some y => (((y % 256) &&& 0xC0) == 0x80) && continuation_run src k (q + 1)

/-- The byte at offset `p` starts a well-formed UTF-8 element: it is not a continuation byte and
it is followed by as many continuation bytes as its high-bit run announces. -/
def well_led (src : List Nat) (p : Nat) : Bool :=
  match src[p]? with
  | none => false
  | some b =>
    (((b % 256) &&& 0xC0) != 0x80) &&
      continuation_run src (detail.utf8_trailing_byte_count b) (p + 1)

/-- The offset after the UTF-8 element that starts at `p`. -/
def next_byte_offset (src : List Nat) (p : Nat) : Nat :=
  match src[p]? with
  | none => p + 1
  | some b => p + detail.utf8_byte_count b

/-- The `n` UTF-8 elements met by `n` forward steps from offset `p` are well formed. -/
def well_led_steps (src : List Nat) : Nat → Nat → Bool
  | 0, _ => true
  | n + 1, p => well_led src p && well_led_steps src n (next_byte_offset src p)

end spec

namespace spec

/-- The offset, in the concatenated UTF-16 encodings of `cps`, at which the units of the `i`-th
code point start (the end offset for `i = cps.length`). -/
def utf16_offset (cps : List Nat) (i : Nat) : Nat :=
  ((cps.take i).flatMap utf16_units).length

/-- The offset, in the concatenated UTF-8 encodings of `cps`, at which the bytes of the `i`-th
code point start (the end offset for `i = cps.length`). -/
def utf8_offset (cps : List Nat) (i : Nat) : Nat :=
  ((cps.take i).flatMap utf8_bytes).length

end spec

/-- The invariant of the UTF-16 encoder between calls: slot 2 of the buffer is 0, and either a
read is pending or the buffer is what `extract_current` computes at the base position and the
index points at a used slot. -/
def u32_to_u16_iterator.settled (src : List Nat) (it : u32_to_u16_iterator) : Prop :=
  ∃ x y, it.m_values = [x, y, 0] ∧
    (it.m_current = 2 ∨
      (it.m_current ≤ 1 ∧ (it.m_current = 1 → y ≠ 0) ∧
        ∀ a b m, u32_to_u16_iterator.extract_current src ⟨it.m_position, [a, b, 0], m⟩ =
          .ok ⟨it.m_position, [x, y, 0], 0⟩))

/-- The invariant of the UTF-8 encoder between calls: slot 4 of the buffer is 0, and either a
read is pending or the buffer is what `extract_current` computes at the base position (its
empty slots are the trailing ones) and the index points at a used slot. -/
def u32_to_u8_iterator.settled (src : List Nat) (it : u32_to_u8_iterator) : Prop :=
  ∃ x0 x1 x2 x3, it.m_values = [x0, x1, x2, x3, 0] ∧
    (it.m_current = 4 ∨
      (it.m_current ≤ 3 ∧ (x1 = 0 → x2 = 0) ∧ (x2 = 0 → x3 = 0) ∧
        (1 ≤ it.m_current → x1 ≠ 0) ∧ (2 ≤ it.m_current → x2 ≠ 0) ∧
        (3 ≤ it.m_current → x3 ≠ 0) ∧
        ∀ a b c d m,
          u32_to_u8_iterator.extract_current src ⟨it.m_position, [a, b, c, d, 0], m⟩ =
            .ok ⟨it.m_position, [x0, x1, x2, x3, 0], 0⟩))

namespace bits

theorem land_shifted_mask (v j k : Nat) :
    v &&& ((2 ^ j - 1) <<< k) = (v / 2 ^ k % 2 ^ j) * 2 ^ k := by
  apply Nat.eq_of_testBit_eq
  intro i
  rw [← Nat.shiftLeft_eq, ← Nat.shiftRight_eq_div_pow, ← Nat.and_pow_two_sub_one_eq_mod]
  simp only [Nat.testBit_and, Nat.testBit_shiftLeft, Nat.testBit_shiftRight,
    Nat.testBit_two_pow_sub_one]
  by_cases h : k ≤ i
  · have hk : k + (i - k) = i := by omega
    simp [h, hk]
  · simp [h]

theorem land_FC00 (v : Nat) : v &&& 0xFC00 = (v / 1024 % 64) * 1024 := by
  have h := land_shifted_mask v 6 10
  norm_num at h
  exact h

theorem land_F800 (v : Nat) : v &&& 0xF800 = (v / 2048 % 32) * 2048 := by
  have h := land_shifted_mask v 5 11
  norm_num at h
  exact h

theorem land_C0 (v : Nat) : v &&& 0xC0 = (v / 64 % 4) * 64 := by
  have h := land_shifted_mask v 2 6
  norm_num at h
  exact h

theorem land_1 (v : Nat) : v &&& 1 = v % 2 := by
  exact Nat.and_one_is_mod v

theorem land_3 (v : Nat) : v &&& 3 = v % 4 := by
  have h := Nat.and_pow_two_sub_one_eq_mod v 2
  norm_num at h
  exact h

theorem land_3F (v : Nat) : v &&& 0x3F = v % 64 := by
  have h := Nat.and_pow_two_sub_one_eq_mod v 6
  norm_num at h
  exact h

theorem land_7F (v : Nat) : v &&& 0x7F = v % 128 := by
  have h := Nat.and_pow_two_sub_one_eq_mod v 7
  norm_num at h
  exact h

theorem land_3FF (v : Nat) : v &&& 0x3FF = v % 1024 := by
  have h := Nat.and_pow_two_sub_one_eq_mod v 10
  norm_num at h
  exact h

theorem land_7FF (v : Nat) : v &&& 0x7FF = v % 2048 := by
  have h := Nat.and_pow_two_sub_one_eq_mod v 11
  norm_num at h
  exact h

theorem land_FFFF (v : Nat) : v &&& 0xFFFF = v % 65536 := by
  have h := Nat.and_pow_two_sub_one_eq_mod v 16
  norm_num at h
  exact h

theorem land_1FFFFF (v : Nat) : v &&& 0x1FFFFF = v % 2097152 := by
  have h := Nat.and_pow_two_sub_one_eq_mod v 21
  norm_num at h
  exact h

theorem shr_6 (v : Nat) : v >>> 6 = v / 64 := by
  rw [Nat.shiftRight_eq_div_pow]

theorem shr_10 (v : Nat) : v >>> 10 = v / 1024 := by
  rw [Nat.shiftRight_eq_div_pow]

theorem shr_12 (v : Nat) : v >>> 12 = v / 4096 := by
  rw [Nat.shiftRight_eq_div_pow]

theorem shr_18 (v : Nat) : v >>> 18 = v / 262144 := by
  rw [Nat.shiftRight_eq_div_pow]

theorem shl_6 (v : Nat) : v <<< 6 = v * 64 := by
  rw [Nat.shiftLeft_eq]

theorem shl_10 (v : Nat) : v <<< 10 = v * 1024 := by
  rw [Nat.shiftLeft_eq]

/-- Or-ing ten low bits into a value whose ten low bits are clear is an addition. -/
theorem lor_low10 (m b : Nat) (hm : m % 1024 = 0) (hb : b < 1024) : m ||| b = m + b := by
  have h := Nat.mul_add_lt_is_or (i := 10) (b := b) (by norm_num; exact hb) (m / 1024)
  norm_num at h
  have hm2 : 1024 * (m / 1024) = m := by omega
  rw [hm2] at h
  exact h.symm

/-- Or-ing six low bits into a value whose six low bits are clear is an addition. -/
theorem lor_low6 (m b : Nat) (hm : m % 64 = 0) (hb : b < 64) : m ||| b = m + b := by
  have h := Nat.mul_add_lt_is_or (i := 6) (b := b) (by norm_num; exact hb) (m / 64)
  norm_num at h
  have hm2 : 64 * (m / 64) = m := by omega
  rw [hm2] at h
  exact h.symm

end bits

/-! ## The helpers of `boost::detail` -/

namespace detail

theorem is_high_surrogate_iff (v : Nat) :
    is_high_surrogate v = true ↔ 0xD800 ≤ v % 65536 ∧ v % 65536 ≤ 0xDBFF := by
  unfold is_high_surrogate
  rw [beq_iff_eq, bits.land_FC00]
  omega

theorem is_low_surrogate_iff (v : Nat) :
    is_low_surrogate v = true ↔ 0xDC00 ≤ v % 65536 ∧ v % 65536 ≤ 0xDFFF := by
  unfold is_low_surrogate
  rw [beq_iff_eq, bits.land_FC00]
  omega

/-- The template `is_surrogate` looks at bits 11 to 15 only. -/
theorem is_surrogate_iff (v : Nat) :
    is_surrogate v = true ↔ 0xD800 ≤ v % 65536 ∧ v % 65536 ≤ 0xDFFF := by
  unfold is_surrogate
  rw [beq_iff_eq, bits.land_F800]
  omega

set_option maxRecDepth 100000 in
theorem utf8_byte_count_byte :
    ∀ b < 256, utf8_byte_count b =
      if b < 0xC0 then 1 else if b < 0xE0 then 2 else if b < 0xF0 then 3
      else if b < 0xF8 then 4 else if b < 0xFC then 5 else if b < 0xFE then 6
      else if b < 0xFF then 7 else 8 := by
  decide

end detail

/-! ## Closed forms of the four `extract_current` -/

namespace u32_to_u16_iterator

/-- The outcome of `extract_current` on a 32-bit value `v`, by ranges of `v`. -/
theorem encode16_extract_current_eq (src : List Nat) (p v u0 u1 u2 m : Nat)
    (hread : src[p]? = some v) (h32 : v < 4294967296) :
    extract_current src ⟨p, [u0, u1, u2], m⟩ =
      if 0x10FFFF < v then .error (Failure.InvalidCodePoint, ⟨p, [u0, u1, u2], m⟩)
      else if 0x10000 ≤ v then .ok ⟨p, [v / 1024 + 0xD7C0, v % 1024 + 0xDC00, u2], 0⟩
      else if 0xD800 ≤ v ∧ v ≤ 0xDFFF then .error (Failure.InvalidCodePoint, ⟨p, [v, 0, u2], 0⟩)
      else .ok ⟨p, [v, 0, u2], 0⟩ := by
  have e1 : v % 4294967296 = v := by omega
  by_cases h1 : 0x10FFFF < v
  · have h0 : 65536 ≤ v := by omega
    simp [extract_current, hread, e1, h1, h0]
  · by_cases h2 : 0x10000 ≤ v
    · have a1 : (v / 1024 % 65536 + 55232) % 65536 = v / 1024 + 55232 := by omega
      have a2 : (v % 1024 % 65536 + 56320) % 65536 = v % 1024 + 56320 := by omega
      simp [extract_current, hread, e1, h1, h2, detail.high_surrogate_base,
        detail.low_surrogate_base, detail.ten_bit_mask, bits.shr_10, bits.land_3FF, a1, a2]
    · have e2 : v % 65536 = v := by omega
      have hs : detail.is_surrogate v = true ↔ 0xD800 ≤ v ∧ v ≤ 0xDFFF := by
        rw [detail.is_surrogate_iff, e2]
      by_cases h3 : 0xD800 ≤ v ∧ v ≤ 0xDFFF
      · have hs1 : detail.is_surrogate v = true := hs.mpr h3
        simp [extract_current, hread, e1, e2, h1, h2, h3, hs1]
      · have hs1 : detail.is_surrogate v = false := by
          rw [Bool.eq_false_iff, Ne, hs]; exact h3
        simp [extract_current, hread, e1, e2, h1, h2, h3, hs1]

end u32_to_u16_iterator

namespace u16_to_u32_iterator

/-- The outcome of `extract_current` when the unit at the base position is `u`. -/
theorem decode16_extract_current_eq (src : List Nat) (p u m : Nat)
    (hread : src[p]? = some u) (h16 : u < 65536) :
    extract_current src ⟨p, m⟩ =
      if 0xD800 ≤ u ∧ u ≤ 0xDBFF then
        match src[p + 1]? with
        | none => .error (Failure.Undefined, ⟨p, u⟩)
        | some t =>
          if 0xDC00 ≤ t % 65536 ∧ t % 65536 ≤ 0xDFFF then
            if 0xD800 ≤ ((u - 0xD7C0) * 1024 + t % 1024) % 65536 ∧
                ((u - 0xD7C0) * 1024 + t % 1024) % 65536 ≤ 0xDFFF then
              .error (Failure.MisplacedSurrogate, ⟨p, (u - 0xD7C0) * 1024 + t % 1024⟩)
            else .ok ⟨p, (u - 0xD7C0) * 1024 + t % 1024⟩
          else .error (Failure.MisplacedSurrogate, ⟨p, u⟩)
      else if 0xDC00 ≤ u ∧ u ≤ 0xDFFF then .error (Failure.MisplacedSurrogate, ⟨p, u⟩)
      else .ok ⟨p, u⟩ := by
  have e1 : u % 65536 % 4294967296 = u := by omega
  have hh : detail.is_high_surrogate u = true ↔ 0xD800 ≤ u ∧ u ≤ 0xDBFF := by
    rw [detail.is_high_surrogate_iff]; omega
  have hsu : detail.is_surrogate u = true ↔ 0xD800 ≤ u ∧ u ≤ 0xDFFF := by
    rw [detail.is_surrogate_iff]; omega
  by_cases h1 : 0xD800 ≤ u ∧ u ≤ 0xDBFF
  · have hh1 : detail.is_high_surrogate u = true := hh.mpr h1
    rw [if_pos h1]
    cases hnext : src[p + 1]? with
    | none => simp [extract_current, combine_pair, hread, e1, hh1, hnext]
    | some t =>
      have hl : (t % 65536) &&& 0xFC00 = 0xDC00 ↔ 0xDC00 ≤ t % 65536 ∧ t % 65536 ≤ 0xDFFF := by
        rw [bits.land_FC00]; omega
      by_cases h2 : 0xDC00 ≤ t % 65536 ∧ t % 65536 ≤ 0xDFFF
      · have hl1 : (t % 65536) &&& 0xFC00 = 0xDC00 := hl.mpr h2
        have hval : ((((u + 4294912064) % 4294967296) <<< 10) % 4294967296)
            ||| ((t % 65536 % 4294967296) &&& 0x3FF) = (u - 0xD7C0) * 1024 + t % 1024 := by
          rw [bits.shl_10, bits.land_3FF, bits.lor_low10 _ _ (by omega) (by omega)]
          omega
        have hsc := detail.is_surrogate_iff ((u - 0xD7C0) * 1024 + t % 1024)
        by_cases h3 : 0xD800 ≤ ((u - 0xD7C0) * 1024 + t % 1024) % 65536 ∧
            ((u - 0xD7C0) * 1024 + t % 1024) % 65536 ≤ 0xDFFF
        · have hs1 := hsc.mpr h3
          simp only [extract_current, combine_pair, hread, e1, hh1, hnext, if_true,
            detail.high_surrogate_base, detail.ten_bit_mask]
          simp [hl1, hval, hs1, h2, h3]
        · have hs1 : detail.is_surrogate ((u - 0xD7C0) * 1024 + t % 1024) = false := by
            rw [Bool.eq_false_iff, Ne, hsc]; exact h3
          simp only [extract_current, combine_pair, hread, e1, hh1, hnext, if_true,
            detail.high_surrogate_base, detail.ten_bit_mask]
          simp [hl1, hval, hs1, h2, h3]
      · have hl1 : ¬ ((t % 65536) &&& 0xFC00 = 0xDC00) := fun h => h2 (hl.mp h)
        simp only [extract_current, combine_pair, hread, e1, hh1, hnext, if_true]
        simp [hl1, h2]
  · have hh1 : detail.is_high_surrogate u = false := by
      rw [Bool.eq_false_iff, Ne, hh]; exact h1
    rw [if_neg h1]
    by_cases h2 : 0xDC00 ≤ u ∧ u ≤ 0xDFFF
    · have hs1 : detail.is_surrogate u = true := hsu.mpr (by omega)
      simp [extract_current, hread, e1, hh1, hs1, h2]
    · have hs1 : detail.is_surrogate u = false := by
        rw [Bool.eq_false_iff, Ne, hsu]; omega
      simp [extract_current, hread, e1, hh1, hs1, h2]

end u16_to_u32_iterator

namespace spec

theorem utf16_units_eq (v : Nat) :
    utf16_units v = if v < 0x10000 then [v] else [v / 1024 + 0xD7C0, v % 1024 + 0xDC00] := by
  simp [utf16_units, bits.shr_10, bits.land_3FF]

theorem utf8_bytes_eq (v : Nat) :
    utf8_bytes v =
      if v < 0x80 then [v]
      else if v < 0x800 then [0xC0 + v / 64, 0x80 + v % 64]
      else if v < 0x10000 then [0xE0 + v / 4096, 0x80 + v / 64 % 64, 0x80 + v % 64]
      else [0xF0 + v / 262144, 0x80 + v / 4096 % 64, 0x80 + v / 64 % 64, 0x80 + v % 64] := by
  simp [utf8_bytes, bits.shr_6, bits.shr_12, bits.shr_18, bits.land_3F]

end spec

namespace detail

theorem utf8_byte_count_mod (c : Nat) : utf8_byte_count (c % 256) = utf8_byte_count c := by
  simp [utf8_byte_count]

theorem utf8_byte_count_one (b : Nat) (h : b < 0xC0) : utf8_byte_count b = 1 := by
  rw [utf8_byte_count_byte b (by omega), if_pos h]

theorem utf8_byte_count_two (b : Nat) (h1 : 0xC0 ≤ b) (h2 : b < 0xE0) :
    utf8_byte_count b = 2 := by
  rw [utf8_byte_count_byte b (by omega), if_neg (by omega), if_pos h2]

theorem utf8_byte_count_three (b : Nat) (h1 : 0xE0 ≤ b) (h2 : b < 0xF0) :
    utf8_byte_count b = 3 := by
  rw [utf8_byte_count_byte b (by omega), if_neg (by omega), if_neg (by omega), if_pos h2]

theorem utf8_byte_count_four (b : Nat) (h1 : 0xF0 ≤ b) (h2 : b < 0xF8) :
    utf8_byte_count b = 4 := by
  rw [utf8_byte_count_byte b (by omega), if_neg (by omega), if_neg (by omega),
    if_neg (by omega), if_pos h2]

end detail

namespace u32_to_u8_iterator

/-- The outcome of `extract_current` on a 32-bit value `v`, by ranges of `v`. -/
theorem encode8_extract_current_eq (src : List Nat) (p v u0 u1 u2 u3 u4 m : Nat)
    (hread : src[p]? = some v) (h32 : v < 4294967296) :
    extract_current src ⟨p, [u0, u1, u2, u3, u4], m⟩ =
      if 0x10FFFF < v then
        .error (Failure.InvalidCodePoint, ⟨p, [u0, u1, u2, u3, u4], m⟩)
      else if v < 0x80 then .ok ⟨p, [v, 0, 0, 0, u4], 0⟩
      else if v < 0x800 then .ok ⟨p, [0xC0 + v / 64, 0x80 + v % 64, 0, 0, u4], 0⟩
      else if v < 0x10000 then
        .ok ⟨p, [0xE0 + v / 4096, 0x80 + v / 64 % 64, 0x80 + v % 64, 0, u4], 0⟩
      else
        .ok ⟨p, [0xF0 + v / 262144, 0x80 + v / 4096 % 64, 0x80 + v / 64 % 64, 0x80 + v % 64,
          u4], 0⟩ := by
  have e1 : v % 4294967296 = v := by omega
  have c0 : (128 + v % 64) % 256 = 128 + v % 64 := by omega
  have c1 : (128 + v / 64 % 64) % 256 = 128 + v / 64 % 64 := by omega
  have c2 : (128 + v / 4096 % 64) % 256 = 128 + v / 4096 % 64 := by omega
  by_cases h1 : 0x10FFFF < v
  · simp [extract_current, hread, e1, h1]
  · by_cases h2 : v < 0x80
    · have a : v % 256 = v := by omega
      simp [extract_current, store4, hread, e1, h1, h2, a]
    · by_cases h3 : v < 0x800
      · have a : (192 + v / 64) % 256 = 192 + v / 64 := by omega
        simp [extract_current, store4, hread, e1, h1, h2, h3, bits.shr_6, bits.land_3F, a, c0]
      · by_cases h4 : v < 0x10000
        · have a : (224 + v / 4096) % 256 = 224 + v / 4096 := by omega
          simp [extract_current, store4, hread, e1, h1, h2, h3, h4, bits.shr_6, bits.shr_12,
            bits.land_3F, a, c0, c1]
        · have a : (240 + v / 262144) % 256 = 240 + v / 262144 := by omega
          simp [extract_current, store4, hread, e1, h1, h2, h3, h4, bits.shr_6, bits.shr_12,
            bits.shr_18, bits.land_3F, a, c0, c1, c2]

end u32_to_u8_iterator

namespace u8_to_u32_iterator

/-- A byte with top two bits `10` at the base position is rejected before anything else is
read. -/
theorem decode8_extract_current_continuation (src : List Nat) (p b m : Nat)
    (hread : src[p]? = some b) (hb : 0x80 ≤ b % 256 ∧ b % 256 ≤ 0xBF) :
    extract_current src ⟨p, m⟩ = .error (Failure.InvalidUtf8Sequence, ⟨p, b % 256⟩) := by
  have e1 : b % 256 % 4294967296 = b % 256 := by omega
  have hc : (b % 256) &&& 0xC0 = 0x80 := by
    rw [bits.land_C0]; omega
  simp [extract_current, hread, e1, hc]

/-- Decoding at the first byte of the encoding of `v` yields `v`, whatever follows. -/
theorem decode8_extract_current_encoded (src : List Nat) (p v m : Nat) (rest : List Nat)
    (hv : v ≤ 0x10FFFF) (hsrc : src.drop p = spec.utf8_bytes v ++ rest) :
    extract_current src ⟨p, m⟩ = .ok ⟨p, v⟩ := by
  have hget : ∀ i, src[p + i]? = (spec.utf8_bytes v ++ rest)[i]? := by
    intro i; rw [← hsrc, List.getElem?_drop]
  rw [spec.utf8_bytes_eq] at hget
  by_cases h2 : v < 0x80
  · have r0 := hget 0
    simp [h2] at r0
    have e1 : v % 256 % 4294967296 = v := by omega
    have hc : ¬ (v &&& 0xC0 = 0x80) := by
      rw [bits.land_C0]; omega
    have ht : detail.utf8_trailing_byte_count v = 0 := by
      simp [detail.utf8_trailing_byte_count, detail.utf8_byte_count_one v (by omega)]
    simp [extract_current, extract_loop, masks, r0, e1, hc, ht, bits.land_7F]
    split
    · omega
    · simp; omega
  · by_cases h3 : v < 0x800
    · have r0 := hget 0
      have r1 := hget 1
      simp [h2, h3] at r0 r1
      have e1 : (192 + v / 64) % 256 % 4294967296 = 192 + v / 64 := by omega
      have hc : ¬ ((192 + v / 64) &&& 0xC0 = 0x80) := by
        rw [bits.land_C0]; omega
      have ht : detail.utf8_trailing_byte_count (192 + v / 64) = 1 := by
        simp [detail.utf8_trailing_byte_count,
          detail.utf8_byte_count_two (192 + v / 64) (by omega) (by omega)]
      simp [extract_current, extract_loop, masks, r0, r1, e1, hc, ht, bits.land_7FF,
        bits.land_3F, bits.shl_6]
      split
      · omega
      · simp; omega
    · by_cases h4 : v < 0x10000
      · have r0 := hget 0
        have r1 := hget 1
        have r2 := hget 2
        simp [h2, h3, h4] at r0 r1 r2
        have e1 : (224 + v / 4096) % 256 % 4294967296 = 224 + v / 4096 := by omega
        have hc : ¬ ((224 + v / 4096) &&& 0xC0 = 0x80) := by
          rw [bits.land_C0]; omega
        have ht : detail.utf8_trailing_byte_count (224 + v / 4096) = 2 := by
          simp [detail.utf8_trailing_byte_count,
            detail.utf8_byte_count_three (224 + v / 4096) (by omega) (by omega)]
        simp [extract_current, extract_loop, masks, r0, r1, r2, e1, hc, ht, bits.land_FFFF,
          bits.land_3F, bits.shl_6]
        split
        · omega
        · simp; omega
      · have r0 := hget 0
        have r1 := hget 1
        have r2 := hget 2
        have r3 := hget 3
        simp [h2, h3, h4] at r0 r1 r2 r3
        have e1 : (240 + v / 262144) % 256 % 4294967296 = 240 + v / 262144 := by omega
        have hc : ¬ ((240 + v / 262144) &&& 0xC0 = 0x80) := by
          rw [bits.land_C0]; omega
        have ht : detail.utf8_trailing_byte_count (240 + v / 262144) = 3 := by
          simp [detail.utf8_trailing_byte_count,
            detail.utf8_byte_count_four (240 + v / 262144) (by omega) (by omega)]
        simp [extract_current, extract_loop, masks, r0, r1, r2, r3, e1, hc, ht,
          bits.land_1FFFFF, bits.land_3F, bits.shl_6]
        split
        · omega
        · simp; omega

end u8_to_u32_iterator

/-! ## Forward traversal -/

section traversal

variable {σ : Type} {deref : σ → Except (Failure × σ) (Nat × σ)}
  {incr : σ → Except (Failure × σ) σ} {eq : σ → σ → Bool} {last : σ}

theorem rounds_append {it it1 it2 : σ} {us vs : List Nat}
    (h1 : rounds deref incr eq last it us it1) (h2 : rounds deref incr eq last it1 vs it2) :
    rounds deref incr eq last it (us ++ vs) it2 := by
  induction us generalizing it with
  | nil =>
    simp only [rounds] at h1
    subst h1
    simpa using h2
  | cons u us ih =>
    obtain ⟨hne, a, b, hd, hi, hr⟩ := h1
    exact ⟨hne, a, b, hd, hi, ih hr⟩

/-- A run of rounds that ends on an adapter equal to `last` is what `traverse` computes, and
`traverse` needs exactly as many rounds as values are produced. -/
theorem traverse_of_rounds {it it1 : σ} {us : List Nat}
    (h : rounds deref incr eq last it us it1) (hlast : eq it1 last = true) (fuel : Nat) :
    traverse deref incr eq last fuel it =
      if us.length ≤ fuel then .ok (some us) else .ok none := by
  induction us generalizing it fuel with
  | nil =>
    simp only [rounds] at h
    subst h
    unfold traverse
    simp [hlast]
  | cons u us ih =>
    obtain ⟨hne, a, b, hd, hi, hr⟩ := h
    cases fuel with
    | zero =>
      unfold traverse
      simp [hne]
    | succ fuel =>
      unfold traverse
      simp only [hne, hd, hi, ih hr fuel]
      by_cases hle : us.length ≤ fuel
      · simp [hle]
      · simp [hle]

end traversal

/-- What a cursor reads when the rest of the sequence from it on is known. -/
theorem drop_cons_facts {src : List Nat} {p v : Nat} {cps : List Nat}
    (h : src.drop p = v :: cps) :
    src[p]? = some v ∧ src.drop (p + 1) = cps ∧ p < src.length := by
  have h0 : (src.drop p)[0]? = some v := by rw [h]; simp
  rw [List.getElem?_drop] at h0
  have h1 : (src.drop p).drop 1 = cps := by rw [h]; rfl
  rw [List.drop_drop] at h1
  have h2 : (src.drop p).length = cps.length + 1 := by rw [h]; rfl
  rw [List.length_drop] at h2
  exact ⟨by simpa using h0, h1, by omega⟩

namespace u32_to_u16_iterator

theorem encode16_equal_of_position_ne (a b : u32_to_u16_iterator) (h : a.m_position ≠ b.m_position) :
    equal a b = false := by
  simp [equal, h]

/-- The rounds spent on one valid code point by the UTF-16 encoder. -/
theorem encode16_rounds_one (src : List Nat) (last : u32_to_u16_iterator) (p v a b : Nat)
    (hread : src[p]? = some v) (hv : spec.valid_code_point v) (hlast : p ≠ last.m_position) :
    ∃ a1 b1, rounds (dereference src) (increment src) equal last
      ⟨p, [a, b, 0], 2⟩ (spec.utf16_units v) ⟨p + 1, [a1, b1, 0], 2⟩ := by
  obtain ⟨hv1, hv2⟩ := hv
  have h32 : v < 4294967296 := by omega
  have hx := fun m => encode16_extract_current_eq src p v a b 0 m hread h32
  rw [spec.utf16_units_eq]
  by_cases h1 : v < 0x10000
  · refine ⟨v, 0, ?_⟩
    rw [if_pos h1]
    refine ⟨encode16_equal_of_position_ne _ _ hlast, ⟨p, [v, 0, 0], 0⟩, ⟨p + 1, [v, 0, 0], 2⟩, ?_, ?_, rfl⟩
    · have c1 : ¬ (1114111 < v) := by omega
      have c2 : ¬ (65536 ≤ v) := by omega
      simp [dereference, hx, c1, c2, hv2]
    · simp [increment]
  · refine ⟨v / 1024 + 0xD7C0, v % 1024 + 0xDC00, ?_⟩
    rw [if_neg h1]
    have c1 : ¬ (1114111 < v) := by omega
    have c2 : 65536 ≤ v := by omega
    refine ⟨encode16_equal_of_position_ne _ _ hlast, ⟨p, [v / 1024 + 0xD7C0, v % 1024 + 0xDC00, 0], 0⟩,
      ⟨p, [v / 1024 + 0xD7C0, v % 1024 + 0xDC00, 0], 1⟩, ?_, ?_, ?_⟩
    · simp [dereference, hx, c1, c2]
    · simp [increment]
    · refine ⟨encode16_equal_of_position_ne _ _ hlast,
        ⟨p, [v / 1024 + 0xD7C0, v % 1024 + 0xDC00, 0], 1⟩,
        ⟨p + 1, [v / 1024 + 0xD7C0, v % 1024 + 0xDC00, 0], 2⟩, ?_, ?_, rfl⟩
      · simp [dereference]
      · simp [increment]

/-- The rounds spent by the UTF-16 encoder on the rest of a sequence of valid code points. -/
theorem encode16_rounds_all (src : List Nat) (last : u32_to_u16_iterator)
    (hlast : last.m_position = src.length) (cps : List Nat) :
    ∀ (p a b : Nat), p ≤ src.length → src.drop p = cps →
      (∀ v ∈ cps, spec.valid_code_point v) →
      ∃ a1 b1, rounds (dereference src) (increment src) equal last
        ⟨p, [a, b, 0], 2⟩ (cps.flatMap spec.utf16_units) ⟨src.length, [a1, b1, 0], 2⟩ := by
  induction cps with
  | nil =>
    intro p a b hp hdrop _
    have hlen : src.length ≤ p := List.drop_eq_nil_iff.mp hdrop
    have hpe : p = src.length := by omega
    subst hpe
    exact ⟨a, b, rfl⟩
  | cons v cps ih =>
    intro p a b hp hdrop hvalid
    obtain ⟨hread, hrest, hlt⟩ := drop_cons_facts hdrop
    obtain ⟨a1, b1, h1⟩ := encode16_rounds_one src last p v a b hread
      (hvalid v (List.mem_cons_self _ _)) (by omega)
    obtain ⟨a2, b2, h2⟩ := ih (p + 1) a1 b1 (by omega) hrest
      (fun w hw => hvalid w (List.mem_cons_of_mem _ hw))
    refine ⟨a2, b2, ?_⟩
    rw [List.flatMap_cons]
    exact rounds_append h1 h2

end u32_to_u16_iterator

namespace u32_to_u8_iterator

theorem encode8_equal_of_position_ne (a b : u32_to_u8_iterator) (h : a.m_position ≠ b.m_position) :
    equal a b = false := by
  simp [equal, h]

/-- A round from an adapter that is not pending and whose next slot is used. -/
theorem encode8_rounds_mid (src : List Nat) (last it1 : u32_to_u8_iterator) (p k u w : Nat)
    (vals us : List Nat) (hlast : p ≠ last.m_position) (hk : k ≠ 4)
    (hu : vals[k]? = some u) (hw : vals[k + 1]? = some w) (hw0 : w ≠ 0)
    (h : rounds (dereference src) (increment src) equal last ⟨p, vals, k + 1⟩ us it1) :
    rounds (dereference src) (increment src) equal last ⟨p, vals, k⟩ (u :: us) it1 := by
  refine ⟨encode8_equal_of_position_ne _ _ hlast, ⟨p, vals, k⟩, ⟨p, vals, k + 1⟩, ?_, ?_, h⟩
  · simp [dereference, hk, hu]
  · simp [increment, hk, hw, hw0]

/-- The last round spent on a code point: the next slot is empty. -/
theorem encode8_rounds_end (src : List Nat) (last : u32_to_u8_iterator) (p k u : Nat)
    (vals : List Nat) (hlast : p ≠ last.m_position) (hk : k ≠ 4)
    (hu : vals[k]? = some u) (hw : vals[k + 1]? = some 0) :
    rounds (dereference src) (increment src) equal last ⟨p, vals, k⟩ [u] ⟨p + 1, vals, 4⟩ := by
  refine ⟨encode8_equal_of_position_ne _ _ hlast, ⟨p, vals, k⟩, ⟨p + 1, vals, 4⟩, ?_, ?_, rfl⟩
  · simp [dereference, hk, hu]
  · simp [increment, hk, hw]

/-- A pending adapter performs the rounds of the adapter it becomes by `extract_current`. -/
theorem encode8_rounds_pending (src : List Nat) (last it1 : u32_to_u8_iterator) (p u : Nat)
    (vals vals1 us : List Nat) (hlast : p ≠ last.m_position)
    (hx : extract_current src ⟨p, vals, 4⟩ = .ok ⟨p, vals1, 0⟩)
    (h : rounds (dereference src) (increment src) equal last ⟨p, vals1, 0⟩ (u :: us) it1) :
    rounds (dereference src) (increment src) equal last ⟨p, vals, 4⟩ (u :: us) it1 := by
  obtain ⟨hne, a, b, hd, hi, hr⟩ := h
  refine ⟨?_, a, b, ?_, hi, hr⟩
  · exact encode8_equal_of_position_ne _ _ hlast
  · simpa [dereference, hx] using hd

/-- The rounds spent on one code point up to `0x10FFFF` by the UTF-8 encoder. -/
theorem encode8_rounds_one (src : List Nat) (last : u32_to_u8_iterator) (p v a b c d : Nat)
    (hread : src[p]? = some v) (hv : v ≤ 0x10FFFF) (hlast : p ≠ last.m_position) :
    ∃ a1 b1 c1 d1, rounds (dereference src) (increment src) equal last
      ⟨p, [a, b, c, d, 0], 4⟩ (spec.utf8_bytes v) ⟨p + 1, [a1, b1, c1, d1, 0], 4⟩ := by
  have h32 : v < 4294967296 := by omega
  have hx := encode8_extract_current_eq src p v a b c d 0 4 hread h32
  have c1 : ¬ (1114111 < v) := by omega
  rw [if_neg c1] at hx
  rw [spec.utf8_bytes_eq]
  by_cases h1 : v < 0x80
  · rw [if_pos h1] at hx ⊢
    have r0 := encode8_rounds_end src last p 0 v [v, 0, 0, 0, 0] hlast (by decide) (by simp) (by simp)
    exact ⟨v, 0, 0, 0,
      encode8_rounds_pending src last _ p v [a, b, c, d, 0] [v, 0, 0, 0, 0] [] hlast hx r0⟩
  · rw [if_neg h1] at hx ⊢
    by_cases h2 : v < 0x800
    · rw [if_pos h2] at hx ⊢
      have r1 := encode8_rounds_end src last p 1 (0x80 + v % 64) [0xC0 + v / 64, 0x80 + v % 64, 0, 0, 0]
        hlast (by decide) (by simp) (by simp)
      have r0 := encode8_rounds_mid src last _ p 0 (0xC0 + v / 64) (0x80 + v % 64)
        [0xC0 + v / 64, 0x80 + v % 64, 0, 0, 0] [0x80 + v % 64]
        hlast (by decide) (by simp) (by simp) (by omega) r1
      exact ⟨0xC0 + v / 64, 0x80 + v % 64, 0, 0,
        encode8_rounds_pending src last _ p _ [a, b, c, d, 0] _ _ hlast hx r0⟩
    · rw [if_neg h2] at hx ⊢
      by_cases h3 : v < 0x10000
      · rw [if_pos h3] at hx ⊢
        have r2 := encode8_rounds_end src last p 2 (0x80 + v % 64)
          [0xE0 + v / 4096, 0x80 + v / 64 % 64, 0x80 + v % 64, 0, 0]
          hlast (by decide) (by simp) (by simp)
        have r1 := encode8_rounds_mid src last _ p 1 (0x80 + v / 64 % 64) (0x80 + v % 64)
          [0xE0 + v / 4096, 0x80 + v / 64 % 64, 0x80 + v % 64, 0, 0] [0x80 + v % 64]
          hlast (by decide) (by simp) (by simp) (by omega) r2
        have r0 := encode8_rounds_mid src last _ p 0 (0xE0 + v / 4096) (0x80 + v / 64 % 64)
          [0xE0 + v / 4096, 0x80 + v / 64 % 64, 0x80 + v % 64, 0, 0]
          [0x80 + v / 64 % 64, 0x80 + v % 64]
          hlast (by decide) (by simp) (by simp) (by omega) r1
        exact ⟨0xE0 + v / 4096, 0x80 + v / 64 % 64, 0x80 + v % 64, 0,
          encode8_rounds_pending src last _ p _ [a, b, c, d, 0] _ _ hlast hx r0⟩
      · rw [if_neg h3] at hx ⊢
        have r3 := encode8_rounds_end src last p 3 (0x80 + v % 64)
          [0xF0 + v / 262144, 0x80 + v / 4096 % 64, 0x80 + v / 64 % 64, 0x80 + v % 64, 0]
          hlast (by decide) (by simp) (by simp)
        have r2 := encode8_rounds_mid src last _ p 2 (0x80 + v / 64 % 64) (0x80 + v % 64)
          [0xF0 + v / 262144, 0x80 + v / 4096 % 64, 0x80 + v / 64 % 64, 0x80 + v % 64, 0]
          [0x80 + v % 64]
          hlast (by decide) (by simp) (by simp) (by omega) r3
        have r1 := encode8_rounds_mid src last _ p 1 (0x80 + v / 4096 % 64) (0x80 + v / 64 % 64)
          [0xF0 + v / 262144, 0x80 + v / 4096 % 64, 0x80 + v / 64 % 64, 0x80 + v % 64, 0]
          [0x80 + v / 64 % 64, 0x80 + v % 64]
          hlast (by decide) (by simp) (by simp) (by omega) r2
        have r0 := encode8_rounds_mid src last _ p 0 (0xF0 + v / 262144) (0x80 + v / 4096 % 64)
          [0xF0 + v / 262144, 0x80 + v / 4096 % 64, 0x80 + v / 64 % 64, 0x80 + v % 64, 0]
          [0x80 + v / 4096 % 64, 0x80 + v / 64 % 64, 0x80 + v % 64]
          hlast (by decide) (by simp) (by simp) (by omega) r1
        exact ⟨0xF0 + v / 262144, 0x80 + v / 4096 % 64, 0x80 + v / 64 % 64, 0x80 + v % 64,
          encode8_rounds_pending src last _ p _ [a, b, c, d, 0] _ _ hlast hx r0⟩

/-- The rounds spent by the UTF-8 encoder on the rest of a sequence of code points. -/
theorem encode8_rounds_all (src : List Nat) (last : u32_to_u8_iterator)
    (hlast : last.m_position = src.length) (cps : List Nat) :
    ∀ (p a b c d : Nat), p ≤ src.length → src.drop p = cps →
      (∀ v ∈ cps, v ≤ 0x10FFFF) →
      ∃ a1 b1 c1 d1, rounds (dereference src) (increment src) equal last
        ⟨p, [a, b, c, d, 0], 4⟩ (cps.flatMap spec.utf8_bytes)
        ⟨src.length, [a1, b1, c1, d1, 0], 4⟩ := by
  induction cps with
  | nil =>
    intro p a b c d hp hdrop _
    have hlen : src.length ≤ p := List.drop_eq_nil_iff.mp hdrop
    have hpe : p = src.length := by omega
    subst hpe
    exact ⟨a, b, c, d, rfl⟩
  | cons v cps ih =>
    intro p a b c d hp hdrop hvalid
    obtain ⟨hread, hrest, hlt⟩ := drop_cons_facts hdrop
    obtain ⟨a1, b1, c1, d1, h1⟩ := encode8_rounds_one src last p v a b c d hread
      (hvalid v (List.mem_cons_self _ _)) (by omega)
    obtain ⟨a2, b2, c2, d2, h2⟩ := ih (p + 1) a1 b1 c1 d1 (by omega) hrest
      (fun w hw => hvalid w (List.mem_cons_of_mem _ hw))
    refine ⟨a2, b2, c2, d2, ?_⟩
    rw [List.flatMap_cons]
    exact rounds_append h1 h2

end u32_to_u8_iterator

namespace spec

/-- The leading byte of an encoding announces the length of the encoding. -/
theorem utf8_bytes_lead (v : Nat) (hv : v ≤ 0x10FFFF) :
    ∃ b0 tail, utf8_bytes v = b0 :: tail ∧
      detail.utf8_byte_count b0 = (utf8_bytes v).length := by
  rw [utf8_bytes_eq]
  by_cases h1 : v < 0x80
  · exact ⟨v, [], by simp [h1], by simp [h1, detail.utf8_byte_count_one v (by omega)]⟩
  · by_cases h2 : v < 0x800
    · exact ⟨0xC0 + v / 64, [0x80 + v % 64], by simp [h1, h2],
        by simp [h1, h2, detail.utf8_byte_count_two (192 + v / 64) (by omega) (by omega)]⟩
    · by_cases h3 : v < 0x10000
      · exact ⟨0xE0 + v / 4096, [0x80 + v / 64 % 64, 0x80 + v % 64], by simp [h1, h2, h3],
          by simp [h1, h2, h3,
            detail.utf8_byte_count_three (224 + v / 4096) (by omega) (by omega)]⟩
      · exact ⟨0xF0 + v / 262144, [0x80 + v / 4096 % 64, 0x80 + v / 64 % 64, 0x80 + v % 64],
          by simp [h1, h2, h3],
          by simp [h1, h2, h3,
            detail.utf8_byte_count_four (240 + v / 262144) (by omega) (by omega)]⟩

end spec

namespace u8_to_u32_iterator

/-- Dereferencing a pending adapter runs `extract_current`. -/
theorem decode8_dereference_of_pending (src : List Nat) (it : u8_to_u32_iterator)
    (h : it.m_value = pending_read) :
    dereference src it =
      match extract_current src it with
      | .error e => .error e
      | .ok it1 => .ok (it1.m_value, it1) := by
  unfold dereference
  rw [if_pos h]

/-- The single round spent by the UTF-8 decoder on the encoding of one code point. -/
theorem decode8_rounds_one (src : List Nat) (last : u8_to_u32_iterator) (p v : Nat) (rest : List Nat)
    (hv : v ≤ 0x10FFFF) (hsrc : src.drop p = spec.utf8_bytes v ++ rest)
    (hlast : p ≠ last.m_position) :
    rounds (dereference src) (increment src) equal last
      ⟨p, pending_read⟩ [v] ⟨p + (spec.utf8_bytes v).length, pending_read⟩ := by
  obtain ⟨b0, tail, hb, hcount⟩ := spec.utf8_bytes_lead v hv
  have hread : src[p]? = some b0 := by
    have h0 : (src.drop p)[0]? = some b0 := by rw [hsrc, hb]; simp
    rw [List.getElem?_drop] at h0
    simpa using h0
  have hx := decode8_extract_current_encoded src p v pending_read rest hv hsrc
  refine ⟨by simp [equal, hlast], ⟨p, v⟩, ⟨p + (spec.utf8_bytes v).length, pending_read⟩,
    ?_, ?_, rfl⟩
  · rw [decode8_dereference_of_pending _ _ rfl, hx]
  · simp only [increment, hread, hcount]

/-- The rounds spent by the UTF-8 decoder on the encodings of a sequence of code points. -/
theorem decode8_rounds_all (src : List Nat) (last : u8_to_u32_iterator)
    (hlast : last = ⟨src.length, pending_read⟩) (cps : List Nat) :
    ∀ (p : Nat), p ≤ src.length → src.drop p = cps.flatMap spec.utf8_bytes →
      (∀ v ∈ cps, v ≤ 0x10FFFF) →
      rounds (dereference src) (increment src) equal last ⟨p, pending_read⟩ cps last := by
  induction cps with
  | nil =>
    intro p hp hdrop _
    have hlen : src.length ≤ p := List.drop_eq_nil_iff.mp (by simpa using hdrop)
    have hpe : p = src.length := by omega
    subst hpe
    exact hlast.symm
  | cons v cps ih =>
    intro p hp hdrop hvalid
    rw [List.flatMap_cons] at hdrop
    have hv := hvalid v (List.mem_cons_self _ _)
    obtain ⟨b0, tail, hb, _⟩ := spec.utf8_bytes_lead v hv
    have hlen : (src.drop p).length =
        (spec.utf8_bytes v).length + (cps.flatMap spec.utf8_bytes).length := by
      rw [hdrop, List.length_append]
    rw [List.length_drop] at hlen
    have hpos : 0 < (spec.utf8_bytes v).length := by rw [hb]; simp
    have hrest : src.drop (p + (spec.utf8_bytes v).length) = cps.flatMap spec.utf8_bytes := by
      rw [← List.drop_drop, hdrop, List.drop_left]
    have h1 := decode8_rounds_one src last p v _ hv hdrop (by rw [hlast]; simp; omega)
    have h2 := ih (p + (spec.utf8_bytes v).length) (by omega) hrest
      (fun w hw => hvalid w (List.mem_cons_of_mem _ hw))
    exact rounds_append h1 h2

end u8_to_u32_iterator

namespace u16_to_u32_iterator

/-- Dereferencing a pending adapter runs `extract_current`. -/
theorem decode16_dereference_of_pending (src : List Nat) (it : u16_to_u32_iterator)
    (h : it.m_value = pending_read) :
    dereference src it =
      match extract_current src it with
      | .error e => .error e
      | .ok it1 => .ok (it1.m_value, it1) := by
  unfold dereference
  rw [if_pos h]

end u16_to_u32_iterator

namespace detail

theorem utf8_byte_count_loop_mask_zero (c fuel result : Nat) :
    utf8_byte_count_loop c fuel 0 result = result := by
  cases fuel <;> simp [utf8_byte_count_loop]

/-- Nine rounds are enough for `utf8_byte_count`: any larger bound gives the same count. -/
theorem utf8_byte_count_loop_fuel (c k : Nat) :
    utf8_byte_count_loop c (9 + k) 0x80 0 = utf8_byte_count_loop c 9 0x80 0 := by
  have e : 9 + k = k + 1 + 1 + 1 + 1 + 1 + 1 + 1 + 1 + 1 := by omega
  rw [e]
  simp only [utf8_byte_count_loop, utf8_byte_count_loop_mask_zero]
  simp

end detail

namespace u16_to_u32_iterator

/-- Where the UTF-16 round trip does hold: decoding the units of a valid code point `v` returns
`v` unless bits 11 to 15 of `v` look like a surrogate (`v % 0x10000` in `[0xD800, 0xDFFF]`). -/
theorem decode16_dereference_encoded (v : Nat) (hv : spec.valid_code_point v)
    (hm : ¬ (0xD800 ≤ v % 65536 ∧ v % 65536 ≤ 0xDFFF)) (pre rest : List Nat) :
    dereference (pre ++ spec.utf16_units v ++ rest) (construct pre.length) =
      .ok (v, ⟨pre.length, v⟩) := by
  obtain ⟨hv1, hv2⟩ := hv
  have hget : ∀ (us : List Nat) (i : Nat), (pre ++ us ++ rest)[pre.length + i]? =
      (us ++ rest)[i]? := by
    intro us i
    rw [List.append_assoc, List.getElem?_append_right (by omega)]
    congr 1
    omega
  rw [spec.utf16_units_eq, decode16_dereference_of_pending _ _ rfl]
  by_cases h1 : v < 0x10000
  · simp only [if_pos h1]
    have r0 : (pre ++ [v] ++ rest)[pre.length]? = some v := by
      have h := hget [v] 0
      simpa using h
    have hx := decode16_extract_current_eq _ pre.length v pending_read r0 (by omega)
    rw [if_neg (by omega), if_neg (by omega)] at hx
    simp only [construct, hx]
  · simp only [if_neg h1]
    have r0 : (pre ++ [v / 1024 + 0xD7C0, v % 1024 + 0xDC00] ++ rest)[pre.length]? =
        some (v / 1024 + 0xD7C0) := by
      have h := hget [v / 1024 + 0xD7C0, v % 1024 + 0xDC00] 0
      simpa using h
    have r1 : (pre ++ [v / 1024 + 0xD7C0, v % 1024 + 0xDC00] ++ rest)[pre.length + 1]? =
        some (v % 1024 + 0xDC00) := by
      have h := hget [v / 1024 + 0xD7C0, v % 1024 + 0xDC00] 1
      rw [h]
      simp
    have hx := decode16_extract_current_eq _ pre.length (v / 1024 + 0xD7C0) pending_read r0 (by omega)
    rw [if_pos (by omega), r1] at hx
    have hc : (v / 1024 + 0xD7C0 - 0xD7C0) * 1024 + (v % 1024 + 0xDC00) % 1024 = v := by omega
    simp only [hc] at hx
    rw [if_pos (by omega), if_neg hm] at hx
    simp only [construct, hx]

end u16_to_u32_iterator

namespace u8_to_u32_iterator

/-- The loop of `extract_current` never touches the base position, whether it returns or
fails. -/
theorem decode8_extract_loop_position (src : List Nat) (n : Nat) :
    ∀ (next : Nat) (it : u8_to_u32_iterator),
      (∀ r, extract_loop src n next it = .ok r → r.m_position = it.m_position) ∧
      (∀ f s, extract_loop src n next it = .error (f, s) → s.m_position = it.m_position) := by
  induction n with
  | zero =>
    intro next it
    constructor
    · intro r h
      simp only [extract_loop] at h
      cases h
      rfl
    · intro f s h
      simp only [extract_loop] at h
      cases h
  | succ n ih =>
    intro next it
    constructor
    · intro r h
      simp only [extract_loop] at h
      split at h
      · cases h
      · have hq := (ih _ _).1 r h
        exact hq
    · intro f s h
      simp only [extract_loop] at h
      split at h
      · cases h
        rfl
      · have hq := (ih _ _).2 f s h
        exact hq

/-- What `extract_current` leaves behind when it returns normally: the base position is
untouched and the cached value is at most `0x10FFFF`. -/
theorem decode8_extract_current_ok (src : List Nat) (it r : u8_to_u32_iterator)
    (h : extract_current src it = .ok r) :
    r.m_position = it.m_position ∧ r.m_value ≤ 0x10FFFF := by
  unfold extract_current at h
  split at h
  · cases h
  · dsimp only at h
    split at h
    · cases h
    · split at h
      · cases h
      · rename_i it2 hloop
        have hp := (decode8_extract_loop_position src _ _ _).1 it2 hloop
        split at h
        · cases h
        · split at h
          · cases h
          · cases h
            exact ⟨hp, by simp only; omega⟩

end u8_to_u32_iterator

namespace u32_to_u16_iterator

end u32_to_u16_iterator

namespace u32_to_u8_iterator

end u32_to_u8_iterator

namespace u16_to_u32_iterator

end u16_to_u32_iterator

namespace u8_to_u32_iterator

end u8_to_u32_iterator

/-- Reading inside the middle part of a three-part sequence. -/
theorem getElem?_middle (pre us rest : List Nat) (i : Nat) :
    (pre ++ us ++ rest)[pre.length + i]? = (us ++ rest)[i]? := by
  rw [List.append_assoc, List.getElem?_append_right (by omega)]
  congr 1
  omega

/-- A sequence splits around its `i`-th element. -/
theorem split_at_index {cps : List Nat} {i v : Nat} (h : cps[i]? = some v) :
    cps = cps.take i ++ v :: cps.drop (i + 1) ∧ cps.take (i + 1) = cps.take i ++ [v] ∧
      i < cps.length := by
  obtain ⟨hlt, hv⟩ := List.getElem?_eq_some.mp h
  refine ⟨?_, ?_, hlt⟩
  · conv_lhs => rw [← List.take_append_drop i cps]
    rw [List.drop_eq_getElem_cons hlt, hv]
  · rw [List.take_succ, h]
    rfl

theorem repeat_op_succ_last {σ : Type} (op : σ → Except (Failure × σ) σ) (n : Nat) :
    ∀ (it a b : σ), repeat_op op n it = .ok a → op a = .ok b →
      repeat_op op (n + 1) it = .ok b := by
  induction n with
  | zero =>
    intro it a b h1 h2
    simp only [repeat_op] at h1
    cases h1
    simp only [repeat_op, h2]
  | succ n ih =>
    intro it a b h1 h2
    rw [repeat_op] at h1
    split at h1
    · cases h1
    · rename_i it1 hop
      have := ih it1 a b h1 h2
      rw [repeat_op, hop]
      exact this

namespace u16_to_u32_iterator

/-- One forward and one backward step of the UTF-16 decoder over the units of a valid code
point. -/
theorem decode16_step_encoded (pre rest : List Nat) (v m : Nat)
    (hv : spec.valid_code_point v) :
    increment (pre ++ spec.utf16_units v ++ rest) ⟨pre.length, m⟩ =
      .ok ⟨pre.length + (spec.utf16_units v).length, pending_read⟩ ∧
    decrement (pre ++ spec.utf16_units v ++ rest)
        ⟨pre.length + (spec.utf16_units v).length, m⟩ = .ok ⟨pre.length, pending_read⟩ ∧
    (spec.utf16_units v).length = (if 0x10000 ≤ v then 2 else 1) ∧
    ∃ u, (pre ++ spec.utf16_units v ++ rest)[pre.length]? = some u ∧
      detail.is_low_surrogate u = false := by
  obtain ⟨hv1, hv2⟩ := hv
  rw [spec.utf16_units_eq]
  by_cases h1 : v < 0x10000
  · simp only [if_pos h1]
    have r0 : (pre ++ [v] ++ rest)[pre.length]? = some v := by
      have h := getElem?_middle pre [v] rest 0
      simpa using h
    have hh : detail.is_high_surrogate v = false := by
      rw [Bool.eq_false_iff, Ne, detail.is_high_surrogate_iff]; omega
    have hl : detail.is_low_surrogate v = false := by
      rw [Bool.eq_false_iff, Ne, detail.is_low_surrogate_iff]; omega
    refine ⟨?_, ?_, ?_, v, r0, hl⟩
    · simp only [increment, r0, hh]
      rfl
    · simp only [decrement, List.length_singleton, r0, hl]
      rfl
    · simp only [List.length_singleton]
      rw [if_neg (by omega)]
  · simp only [if_neg h1]
    have r0 : (pre ++ [v / 1024 + 0xD7C0, v % 1024 + 0xDC00] ++ rest)[pre.length]? =
        some (v / 1024 + 0xD7C0) := by
      have h := getElem?_middle pre [v / 1024 + 0xD7C0, v % 1024 + 0xDC00] rest 0
      simpa using h
    have r1 : (pre ++ [v / 1024 + 0xD7C0, v % 1024 + 0xDC00] ++ rest)[pre.length + 1]? =
        some (v % 1024 + 0xDC00) := by
      have h := getElem?_middle pre [v / 1024 + 0xD7C0, v % 1024 + 0xDC00] rest 1
      rw [h]
      simp
    have hh : detail.is_high_surrogate (v / 1024 + 0xD7C0) = true := by
      rw [detail.is_high_surrogate_iff]; omega
    have hl0 : detail.is_low_surrogate (v / 1024 + 0xD7C0) = false := by
      rw [Bool.eq_false_iff, Ne, detail.is_low_surrogate_iff]; omega
    have hl : detail.is_low_surrogate (v % 1024 + 0xDC00) = true := by
      rw [detail.is_low_surrogate_iff]; omega
    refine ⟨?_, ?_, ?_, _, r0, hl0⟩
    · simp only [increment, r0, hh]
      rfl
    · have e : pre.length + [v / 1024 + 0xD7C0, v % 1024 + 0xDC00].length =
          pre.length + 1 + 1 := rfl
      rw [e]
      simp only [decrement, r1, hl]
      rfl
    · rw [if_pos (by omega)]
      rfl

end u16_to_u32_iterator

namespace spec

/-- The shape of an encoding: a leading byte that is not a continuation byte and announces the
number of bytes that follow, all of which are continuation bytes. -/
theorem utf8_bytes_shape (v : Nat) (hv : v ≤ 0x10FFFF) :
    ∃ b0 tail, utf8_bytes v = b0 :: tail ∧ (b0 % 256) &&& 0xC0 ≠ 0x80 ∧
      detail.utf8_trailing_byte_count b0 = tail.length ∧
      (∀ y ∈ tail, (y % 256) &&& 0xC0 = 0x80) := by
  have c0 : ((128 + v % 64) % 256) &&& 0xC0 = 0x80 := by rw [bits.land_C0]; omega
  have c1 : ((128 + v / 64 % 64) % 256) &&& 0xC0 = 0x80 := by rw [bits.land_C0]; omega
  have c2 : ((128 + v / 4096 % 64) % 256) &&& 0xC0 = 0x80 := by rw [bits.land_C0]; omega
  rw [utf8_bytes_eq]
  by_cases h1 : v < 0x80
  · refine ⟨v, [], by simp [h1], by rw [bits.land_C0]; omega, ?_, by simp⟩
    simp [detail.utf8_trailing_byte_count, detail.utf8_byte_count_one v (by omega)]
  · by_cases h2 : v < 0x800
    · refine ⟨0xC0 + v / 64, [0x80 + v % 64], by simp [h1, h2],
        by rw [bits.land_C0]; omega, ?_, ?_⟩
      · simp [detail.utf8_trailing_byte_count,
          detail.utf8_byte_count_two (192 + v / 64) (by omega) (by omega)]
      · intro y hy
        simp only [List.mem_singleton] at hy
        subst hy
        exact c0
    · by_cases h3 : v < 0x10000
      · refine ⟨0xE0 + v / 4096, [0x80 + v / 64 % 64, 0x80 + v % 64], by simp [h1, h2, h3],
          by rw [bits.land_C0]; omega, ?_, ?_⟩
        · simp [detail.utf8_trailing_byte_count,
            detail.utf8_byte_count_three (224 + v / 4096) (by omega) (by omega)]
        · intro y hy
          simp only [List.mem_cons, List.mem_singleton, List.not_mem_nil, or_false] at hy
          rcases hy with hy | hy
          · subst hy; exact c1
          · subst hy; exact c0
      · refine ⟨0xF0 + v / 262144, [0x80 + v / 4096 % 64, 0x80 + v / 64 % 64, 0x80 + v % 64],
          by simp [h1, h2, h3], by rw [bits.land_C0]; omega, ?_, ?_⟩
        · simp [detail.utf8_trailing_byte_count,
            detail.utf8_byte_count_four (240 + v / 262144) (by omega) (by omega)]
        · intro y hy
          simp only [List.mem_cons, List.mem_singleton, List.not_mem_nil, or_false] at hy
          rcases hy with hy | hy | hy
          · subst hy; exact c2
          · subst hy; exact c1
          · subst hy; exact c0

end spec

namespace u8_to_u32_iterator

/-- One backward step of the UTF-8 decoder over the bytes of a code point: the walk skips the
continuation bytes, stops on the leading byte, and the number of bytes skipped is the
trailing-byte count of the leading byte. -/
theorem decode8_decrement_encoded (pre rest : List Nat) (v m : Nat) (hv : v ≤ 0x10FFFF) :
    backtrack (pre ++ spec.utf8_bytes v ++ rest) (pre.length + (spec.utf8_bytes v).length) 0 =
      .ok (pre.length, (spec.utf8_bytes v).length - 1) ∧
    decrement (pre ++ spec.utf8_bytes v ++ rest)
        ⟨pre.length + (spec.utf8_bytes v).length, m⟩ = .ok ⟨pre.length, pending_read⟩ ∧
    ∃ b, (pre ++ spec.utf8_bytes v ++ rest)[pre.length]? = some b ∧
      detail.utf8_trailing_byte_count b = (spec.utf8_bytes v).length - 1 := by
  have key : ∀ b0 tail,
      spec.utf8_bytes v = b0 :: tail → (b0 % 256) &&& 0xC0 ≠ 0x80 →
      detail.utf8_trailing_byte_count b0 = tail.length →
      (∀ y ∈ tail, (y % 256) &&& 0xC0 = 0x80) →
      backtrack (pre ++ spec.utf8_bytes v ++ rest)
          (pre.length + (spec.utf8_bytes v).length) 0 =
        .ok (pre.length, (spec.utf8_bytes v).length - 1) := by
    intro b0 tail hb hlead _ htail
    rw [hb]
    have hrun : ∀ (k c : Nat), k ≤ tail.length →
        backtrack (pre ++ b0 :: tail ++ rest) (pre.length + 1 + k) c =
          backtrack (pre ++ b0 :: tail ++ rest) (pre.length + 1) (c + k) := by
      intro k
      induction k with
      | zero => intro c _; rfl
      | succ k ih =>
        intro c hk
        have hr : (pre ++ b0 :: tail ++ rest)[pre.length + 1 + k]? = some (tail[k]) := by
          have h := getElem?_middle pre (b0 :: tail) rest (1 + k)
          rw [Nat.add_assoc, h, List.getElem?_append_left (by simp; omega)]
          rw [List.getElem?_eq_getElem (by simp; omega)]
          simp [Nat.add_comm 1 k]
        have hc := htail (tail[k]) (List.getElem_mem _)
        have e : pre.length + 1 + (k + 1) = (pre.length + 1 + k) + 1 := by omega
        rw [e, backtrack]
        simp only [hr, hc, if_true]
        rw [ih (c + 1) (by omega)]
        congr 1
        omega
    have hr0 : (pre ++ b0 :: tail ++ rest)[pre.length]? = some b0 := by
      have h := getElem?_middle pre (b0 :: tail) rest 0
      simpa using h
    have e : pre.length + (b0 :: tail).length = pre.length + 1 + tail.length := by
      simp only [List.length_cons]; omega
    rw [e, hrun tail.length 0 (Nat.le_refl _), backtrack]
    simp only [hr0, hlead, if_false, List.length_cons]
    simp
  obtain ⟨b0, tail, hb, hlead, hcount, htail⟩ := spec.utf8_bytes_shape v hv
  have hk := key b0 tail hb hlead hcount htail
  have hr0 : (pre ++ spec.utf8_bytes v ++ rest)[pre.length]? = some b0 := by
    have h := getElem?_middle pre (spec.utf8_bytes v) rest 0
    rw [hb] at h ⊢
    simpa using h
  have hlen : (spec.utf8_bytes v).length - 1 = tail.length := by
    rw [hb]; simp
  refine ⟨hk, ?_, b0, hr0, by rw [hcount, hlen]⟩
  unfold decrement
  simp only [hk, hr0]
  rw [if_neg (by rw [hcount, hlen]; simp)]

end u8_to_u32_iterator

namespace bits

/-- The low two bits of an or are clear exactly when they are clear in both operands. -/
theorem lor_land_3_eq_zero (a b : Nat) :
    (a ||| b) &&& 3 = 0 ↔ a % 4 = 0 ∧ b % 4 = 0 := by
  rw [Nat.and_comm, Nat.and_or_distrib_left, Nat.and_comm 3 a, Nat.and_comm 3 b, land_3, land_3]
  have ha : a % 4 < 4 := Nat.mod_lt _ (by decide)
  have hb : b % 4 < 4 := Nat.mod_lt _ (by decide)
  generalize a % 4 = x at ha
  generalize b % 4 = y at hb
  interval_cases x <;> interval_cases y <;> decide

end bits

namespace spec

/-- The concatenated UTF-16 encodings split around the units of the `i`-th code point. -/
theorem utf16_split {cps : List Nat} {i v : Nat} (h : cps[i]? = some v) :
    cps.flatMap utf16_units =
      (cps.take i).flatMap utf16_units ++ utf16_units v ++
        (cps.drop (i + 1)).flatMap utf16_units ∧
    utf16_offset cps (i + 1) = utf16_offset cps i + (utf16_units v).length := by
  obtain ⟨h1, h2, _⟩ := split_at_index h
  constructor
  · conv_lhs => rw [h1]
    rw [List.flatMap_append, List.flatMap_cons, List.append_assoc]
  · simp only [utf16_offset, h2, List.flatMap_append, List.flatMap_cons, List.flatMap_nil,
      List.append_nil, List.length_append]

theorem utf16_offset_zero (cps : List Nat) : utf16_offset cps 0 = 0 := by
  simp [utf16_offset]

theorem utf16_offset_length (cps : List Nat) :
    utf16_offset cps cps.length = (cps.flatMap utf16_units).length := by
  simp [utf16_offset]

theorem utf16_units_length_pos (v : Nat) : 0 < (utf16_units v).length := by
  rw [utf16_units_eq]
  split <;> simp

end spec

namespace spec

/-- The concatenated UTF-8 encodings split around the bytes of the `i`-th code point. -/
theorem utf8_split {cps : List Nat} {i v : Nat} (h : cps[i]? = some v) :
    cps.flatMap utf8_bytes =
      (cps.take i).flatMap utf8_bytes ++ utf8_bytes v ++
        (cps.drop (i + 1)).flatMap utf8_bytes ∧
    utf8_offset cps (i + 1) = utf8_offset cps i + (utf8_bytes v).length := by
  obtain ⟨h1, h2, _⟩ := split_at_index h
  constructor
  · conv_lhs => rw [h1]
    rw [List.flatMap_append, List.flatMap_cons, List.append_assoc]
  · simp only [utf8_offset, h2, List.flatMap_append, List.flatMap_cons, List.flatMap_nil,
      List.append_nil, List.length_append]

end spec

/-- One round of `traverse_backward`. -/
theorem traverse_backward_succ {σ : Type} (decr : σ → Except (Failure × σ) σ)
    (deref : σ → Except (Failure × σ) (Nat × σ)) (n u : Nat) (it it1 it2 it3 : σ)
    (us : List Nat) (h1 : decr it = .ok it1) (h2 : deref it1 = .ok (u, it2))
    (h3 : traverse_backward decr deref n it2 = .ok (us, it3)) :
    traverse_backward decr deref (n + 1) it = .ok (u :: us, it3) := by
  rw [traverse_backward, h1]
  simp only [h2, h3]

namespace u8_to_u32_iterator

/-- Backward traversal of the UTF-8 decoder from the end of the encodings of `xs`. -/
theorem decode8_traverse_backward (xs : List Nat) :
    ∀ (rest : List Nat) (m : Nat), (∀ v ∈ xs, v ≤ 0x10FFFF) →
      ∃ it3, traverse_backward (decrement (xs.flatMap spec.utf8_bytes ++ rest))
          (dereference (xs.flatMap spec.utf8_bytes ++ rest)) xs.length
          ⟨(xs.flatMap spec.utf8_bytes).length, m⟩ = .ok (xs.reverse, it3) ∧
        it3.m_position = 0 := by
  induction xs using List.reverseRecOn with
  | nil =>
    intro rest m _
    exact ⟨⟨0, m⟩, rfl, rfl⟩
  | append_singleton ys v ih =>
    intro rest m hvalid
    have hv : v ≤ 0x10FFFF := hvalid v (by simp)
    have hys : ∀ w ∈ ys, w ≤ 0x10FFFF := fun w hw => hvalid w (by simp [hw])
    obtain ⟨it3, h3, hp⟩ := ih (spec.utf8_bytes v ++ rest) v hys
    have hsrc : (ys ++ [v]).flatMap spec.utf8_bytes ++ rest =
        ys.flatMap spec.utf8_bytes ++ spec.utf8_bytes v ++ rest := by
      simp [List.flatMap_append]
    have hsrc2 : ys.flatMap spec.utf8_bytes ++ (spec.utf8_bytes v ++ rest) =
        ys.flatMap spec.utf8_bytes ++ spec.utf8_bytes v ++ rest := by
      rw [List.append_assoc]
    have hlen : ((ys ++ [v]).flatMap spec.utf8_bytes).length =
        (ys.flatMap spec.utf8_bytes).length + (spec.utf8_bytes v).length := by
      simp [List.flatMap_append]
    obtain ⟨_, hdec, _⟩ := decode8_decrement_encoded (ys.flatMap spec.utf8_bytes) rest v m hv
    have hdrop : (ys.flatMap spec.utf8_bytes ++ spec.utf8_bytes v ++ rest).drop
        (ys.flatMap spec.utf8_bytes).length = spec.utf8_bytes v ++ rest := by
      rw [List.append_assoc, List.drop_left]
    have hx := decode8_extract_current_encoded _ _ v pending_read rest hv hdrop
    have hderef : dereference (ys.flatMap spec.utf8_bytes ++ spec.utf8_bytes v ++ rest)
        ⟨(ys.flatMap spec.utf8_bytes).length, pending_read⟩ =
        .ok (v, ⟨(ys.flatMap spec.utf8_bytes).length, v⟩) := by
      rw [decode8_dereference_of_pending _ _ rfl, hx]
    rw [hsrc2] at h3
    refine ⟨it3, ?_, hp⟩
    have hgoal := traverse_backward_succ _ _ ys.length v _ _ _ it3 ys.reverse hdec hderef h3
    rewrite [hsrc, hlen, List.length_append, List.length_singleton, List.reverse_append,
      List.reverse_singleton, List.singleton_append]
    exact hgoal

end u8_to_u32_iterator

namespace u16_to_u32_iterator

/-- One forward and one backward step of the UTF-16 decoder over a well-formed element. -/
theorem decode16_step_well_paired (src : List Nat) (p : Nat)
    (h : spec.well_paired src p = true) (m m1 : Nat) :
    increment src ⟨p, m⟩ = .ok ⟨spec.next_unit_offset src p, pending_read⟩ ∧
    decrement src ⟨spec.next_unit_offset src p, m1⟩ = .ok ⟨p, pending_read⟩ := by
  unfold spec.well_paired at h
  unfold spec.next_unit_offset
  cases hr : src[p]? with
  | none => simp [hr] at h
  | some u =>
    simp only [hr] at h ⊢
    cases hh : detail.is_high_surrogate u with
    | false =>
      simp only [hh, Bool.not_false, Bool.true_or, Bool.and_true, Bool.not_eq_true',
        Bool.false_eq_true, if_false] at h ⊢
      constructor
      · simp only [increment, hr, hh]
        rfl
      · simp only [decrement, hr, h]
        rfl
    | true =>
      simp only [hh, Bool.not_true, Bool.false_or, Bool.and_eq_true, Bool.not_eq_true',
        if_true] at h ⊢
      obtain ⟨_, h2⟩ := h
      cases hn : src[p + 1]? with
      | none => simp [hn] at h2
      | some t =>
        simp only [hn] at h2
        constructor
        · simp only [increment, hr, hh]
          rfl
        · simp only [decrement, hn, h2]
          rfl

/-- `n` forward steps over well-formed elements followed by `n` backward steps come back to
the start. -/
theorem decode16_symmetry (src : List Nat) (n : Nat) :
    ∀ p, spec.well_paired_steps src n p = true →
      ∃ q, repeat_op (increment src) n ⟨p, pending_read⟩ = .ok ⟨q, pending_read⟩ ∧
        repeat_op (decrement src) n ⟨q, pending_read⟩ = .ok ⟨p, pending_read⟩ := by
  induction n with
  | zero =>
    intro p _
    exact ⟨p, rfl, rfl⟩
  | succ n ih =>
    intro p h
    simp only [spec.well_paired_steps, Bool.and_eq_true] at h
    obtain ⟨h1, h2⟩ := h
    obtain ⟨q, hq1, hq2⟩ := ih _ h2
    obtain ⟨hi, hd⟩ := decode16_step_well_paired src p h1 pending_read pending_read
    refine ⟨q, ?_, repeat_op_succ_last _ n _ _ _ hq2 hd⟩
    rw [repeat_op, hi]
    exact hq1

end u16_to_u32_iterator

namespace u8_to_u32_iterator

/-- The bytes of a continuation run, one by one. -/
theorem continuation_run_get (src : List Nat) (k : Nat) :
    ∀ q, spec.continuation_run src k q = true →
      ∀ j, j < k → ∃ y, src[q + j]? = some y ∧ (y % 256) &&& 0xC0 = 0x80 := by
  induction k with
  | zero => intro q _ j hj; omega
  | succ k ih =>
    intro q h j hj
    simp only [spec.continuation_run] at h
    cases hr : src[q]? with
    | none => simp [hr] at h
    | some y =>
      simp only [hr, Bool.and_eq_true, beq_iff_eq] at h
      cases j with
      | zero => exact ⟨y, hr, h.1⟩
      | succ j =>
        obtain ⟨z, hz, hc⟩ := ih (q + 1) h.2 j (by omega)
        refine ⟨z, ?_, hc⟩
        rw [← hz]
        congr 1
        omega

/-- The walk of `decrement` over `k` continuation bytes. -/
theorem decode8_backtrack_run (src : List Nat) (q k : Nat) :
    (∀ j, j < k → ∃ y, src[q + j]? = some y ∧ (y % 256) &&& 0xC0 = 0x80) →
      ∀ c, backtrack src (q + k) c = backtrack src q (c + k) := by
  induction k with
  | zero => intro _ c; rfl
  | succ k ih =>
    intro h c
    obtain ⟨y, hy, hc⟩ := h k (by omega)
    have e : q + (k + 1) = (q + k) + 1 := by omega
    rw [e, backtrack]
    simp only [hy, hc, if_true]
    rw [ih (fun j hj => h j (by omega)) (c + 1)]
    congr 1
    omega

theorem utf8_byte_count_pos (b : Nat) : 1 ≤ detail.utf8_byte_count b := by
  unfold detail.utf8_byte_count
  dsimp only
  split <;> omega

/-- One forward and one backward step of the UTF-8 decoder over a well-formed element. -/
theorem decode8_step_well_led (src : List Nat) (p : Nat)
    (h : spec.well_led src p = true) (m m1 : Nat) :
    increment src ⟨p, m⟩ = .ok ⟨spec.next_byte_offset src p, pending_read⟩ ∧
    decrement src ⟨spec.next_byte_offset src p, m1⟩ = .ok ⟨p, pending_read⟩ := by
  unfold spec.well_led at h
  unfold spec.next_byte_offset
  cases hr : src[p]? with
  | none => simp [hr] at h
  | some b =>
    simp only [hr, Bool.and_eq_true, bne_iff_ne, ne_eq] at h ⊢
    obtain ⟨hlead, hrun⟩ := h
    constructor
    · simp only [increment, hr]
    · have hpos := utf8_byte_count_pos b
      have e : p + detail.utf8_byte_count b = (p + 1) + detail.utf8_trailing_byte_count b := by
        simp only [detail.utf8_trailing_byte_count]
        omega
      have hb := decode8_backtrack_run src (p + 1) (detail.utf8_trailing_byte_count b)
        (continuation_run_get src _ (p + 1) hrun) 0
      rw [backtrack] at hb
      simp only [hr, hlead, if_false, Nat.zero_add] at hb
      unfold decrement
      simp only [e, hb, hr]
      rw [if_neg (by simp)]

/-- `n` forward steps over well-formed elements followed by `n` backward steps come back to
the start. -/
theorem decode8_symmetry (src : List Nat) (n : Nat) :
    ∀ p, spec.well_led_steps src n p = true →
      ∃ q, repeat_op (increment src) n ⟨p, pending_read⟩ = .ok ⟨q, pending_read⟩ ∧
        repeat_op (decrement src) n ⟨q, pending_read⟩ = .ok ⟨p, pending_read⟩ := by
  induction n with
  | zero =>
    intro p _
    exact ⟨p, rfl, rfl⟩
  | succ n ih =>
    intro p h
    simp only [spec.well_led_steps, Bool.and_eq_true] at h
    obtain ⟨h1, h2⟩ := h
    obtain ⟨q, hq1, hq2⟩ := ih _ h2
    obtain ⟨hi, hd⟩ := decode8_step_well_led src p h1 pending_read pending_read
    refine ⟨q, ?_, repeat_op_succ_last _ n _ _ _ hq2 hd⟩
    rw [repeat_op, hi]
    exact hq1

end u8_to_u32_iterator

namespace u32_to_u16_iterator

/-- What `extract_current` returns does not depend on the previous contents of slots 0 and 1
nor on the index. -/
theorem encode16_extract_current_form (src : List Nat) (p a b c m : Nat)
    (r : u32_to_u16_iterator) (h : extract_current src ⟨p, [a, b, c], m⟩ = .ok r) :
    ∃ x y, r = ⟨p, [x, y, c], 0⟩ ∧
      ∀ a1 b1 m1, extract_current src ⟨p, [a1, b1, c], m1⟩ = .ok ⟨p, [x, y, c], 0⟩ := by
  unfold extract_current at h ⊢
  cases hr : src[p]? with
  | none => simp [hr] at h
  | some v =>
    simp only [hr] at h ⊢
    by_cases h1 : v % 4294967296 ≥ 0x10000
    · simp only [h1, if_true] at h ⊢
      by_cases h2 : v % 4294967296 > 0x10FFFF
      · simp [h2] at h
      · simp only [h2, if_false] at h ⊢
        cases h
        exact ⟨_, _, rfl, fun _ _ _ => rfl⟩
    · simp only [h1, if_false] at h ⊢
      by_cases h3 : detail.is_surrogate (v % 4294967296 % 65536) = true
      · simp [h3] at h
      · simp only [h3, if_false] at h ⊢
        cases h
        exact ⟨_, _, rfl, fun _ _ _ => rfl⟩

/-- From a resolved adapter, `decrement` undoes `increment` exactly. -/
theorem encode16_inc_dec_resolved (src : List Nat) (p x y k : Nat) (it1 : u32_to_u16_iterator)
    (hk : k ≤ 1) (hk1 : k = 1 → y ≠ 0)
    (hc : ∀ a b m, extract_current src ⟨p, [a, b, 0], m⟩ = .ok ⟨p, [x, y, 0], 0⟩)
    (hinc : increment src ⟨p, [x, y, 0], k⟩ = .ok it1) :
    decrement src it1 = .ok ⟨p, [x, y, 0], k⟩ ∧ settled src it1 := by
  have hk2 : k = 0 ∨ k = 1 := by omega
  rcases hk2 with hk0 | hk0
  · subst hk0
    by_cases hy : y = 0
    · subst hy
      simp [increment] at hinc
      subst hinc
      refine ⟨?_, x, 0, rfl, Or.inl rfl⟩
      simp [decrement, hc]
    · simp [increment, hy] at hinc
      subst hinc
      refine ⟨?_, x, y, rfl, Or.inr ⟨by simp, fun _ => hy, hc⟩⟩
      simp [decrement]
  · subst hk0
    have hy := hk1 rfl
    simp [increment] at hinc
    subst hinc
    refine ⟨?_, x, y, rfl, Or.inl rfl⟩
    simp [decrement, hc, hy]

/-- `increment` of a pending adapter is `increment` of the adapter that `extract_current`
returns. -/
theorem encode16_increment_pending (src : List Nat) (p a b : Nat) (it1 : u32_to_u16_iterator)
    (hinc : increment src ⟨p, [a, b, 0], 2⟩ = .ok it1) :
    ∃ x y, (∀ a1 b1 m1, extract_current src ⟨p, [a1, b1, 0], m1⟩ = .ok ⟨p, [x, y, 0], 0⟩) ∧
      increment src ⟨p, [x, y, 0], 0⟩ = .ok it1 := by
  cases hx : extract_current src ⟨p, [a, b, 0], 2⟩ with
  | error e =>
    simp [increment, hx] at hinc
  | ok r =>
    obtain ⟨x, y, hr, hc⟩ := encode16_extract_current_form src p a b 0 2 r hx
    subst hr
    refine ⟨x, y, hc, ?_⟩
    simp only [increment, hx, if_true] at hinc
    simp only [increment]
    exact hinc

/-- From a pending adapter, `decrement` after `increment` returns the resolved adapter at the
same position. -/
theorem encode16_inc_dec_pending (src : List Nat) (p a b : Nat) (it1 : u32_to_u16_iterator)
    (hinc : increment src ⟨p, [a, b, 0], 2⟩ = .ok it1) :
    ∃ x y, extract_current src ⟨p, [a, b, 0], 2⟩ = .ok ⟨p, [x, y, 0], 0⟩ ∧
      decrement src it1 = .ok ⟨p, [x, y, 0], 0⟩ ∧ settled src it1 := by
  obtain ⟨x, y, hc, hi⟩ := encode16_increment_pending src p a b it1 hinc
  obtain ⟨hd, hs⟩ := encode16_inc_dec_resolved src p x y 0 it1 (by omega) (by omega) hc hi
  exact ⟨x, y, hc a b 2, hd, hs⟩

/-- `decrement` does not tell a pending adapter from the resolved adapter at the same
position. -/
theorem encode16_decrement_resolved (src : List Nat) (p a b x y : Nat)
    (z : u32_to_u16_iterator) (hd : decrement src ⟨p, [a, b, 0], 2⟩ = .ok z) :
    decrement src ⟨p, [x, y, 0], 0⟩ = .ok z := by
  cases p with
  | zero => simp [decrement] at hd
  | succ q =>
    cases hx : extract_current src ⟨q, [a, b, 0], 2⟩ with
    | error e => simp [decrement, hx] at hd
    | ok r =>
      obtain ⟨x1, y1, hr, hc⟩ := encode16_extract_current_form src q a b 0 2 r hx
      subst hr
      simp only [decrement, hx] at hd
      simp only [decrement, hc x y 0]
      exact hd

/-- `n` increments from a settled adapter followed by `n` decrements return to it, or to its
resolved form when it was pending. -/
theorem encode16_symmetry (src : List Nat) (n : Nat) :
    ∀ (st a : u32_to_u16_iterator), settled src st →
      repeat_op (increment src) n st = .ok a →
      ∃ b, repeat_op (decrement src) n a = .ok b ∧
        (b = st ∨ (st.m_current = 2 ∧ extract_current src st = .ok b)) := by
  induction n with
  | zero =>
    intro st a _ h
    simp only [repeat_op] at h
    cases h
    exact ⟨st, rfl, Or.inl rfl⟩
  | succ n ih =>
    intro st a hst h
    rw [repeat_op] at h
    cases hinc : increment src st with
    | error e => simp [hinc] at h
    | ok it1 =>
      simp only [hinc] at h
      obtain ⟨p, vals, k⟩ := st
      obtain ⟨x, y, hvals, hcase⟩ := hst
      simp only at hvals hcase
      subst hvals
      -- what one decrement of `it1` gives
      have hA : ∃ s0, decrement src it1 = .ok s0 ∧ settled src it1 ∧
          (s0 = ⟨p, [x, y, 0], k⟩ ∨
            (k = 2 ∧ extract_current src ⟨p, [x, y, 0], k⟩ = .ok s0)) := by
        rcases hcase with hk | ⟨hk, hk1, hc⟩
        · subst hk
          obtain ⟨x1, y1, hx, hd, hs⟩ := encode16_inc_dec_pending src p x y it1 hinc
          exact ⟨_, hd, hs, Or.inr ⟨rfl, hx⟩⟩
        · obtain ⟨hd, hs⟩ := encode16_inc_dec_resolved src p x y k it1 hk hk1 hc hinc
          exact ⟨_, hd, hs, Or.inl rfl⟩
      obtain ⟨s0, hd, hs1, hs0⟩ := hA
      obtain ⟨b1, hb1, hb⟩ := ih it1 a hs1 h
      have hd1 : decrement src b1 = .ok s0 := by
        rcases hb with hb | ⟨hpend, hx⟩
        · rw [hb]; exact hd
        · obtain ⟨p1, vals1, k1⟩ := it1
          obtain ⟨x1, y1, hv1, _⟩ := hs1
          simp only at hv1 hpend
          subst hv1
          subst hpend
          obtain ⟨x2, y2, hr, _⟩ := encode16_extract_current_form src p1 x1 y1 0 2 b1 hx
          subst hr
          exact encode16_decrement_resolved src p1 x1 y1 x2 y2 s0 hd
      exact ⟨s0, repeat_op_succ_last _ n _ _ _ hb1 hd1, hs0⟩

end u32_to_u16_iterator

namespace u32_to_u8_iterator

/-- What `extract_current` returns does not depend on the previous contents of slots 0 to 3 nor
on the index, and its empty slots are the trailing ones. -/
theorem encode8_extract_current_form (src : List Nat) (p a b c d e m : Nat)
    (r : u32_to_u8_iterator) (h : extract_current src ⟨p, [a, b, c, d, e], m⟩ = .ok r) :
    ∃ x0 x1 x2 x3, r = ⟨p, [x0, x1, x2, x3, e], 0⟩ ∧ (x1 = 0 → x2 = 0) ∧ (x2 = 0 → x3 = 0) ∧
      ∀ a1 b1 c1 d1 m1, extract_current src ⟨p, [a1, b1, c1, d1, e], m1⟩ =
        .ok ⟨p, [x0, x1, x2, x3, e], 0⟩ := by
  unfold extract_current at h ⊢
  cases hr : src[p]? with
  | none => simp [hr] at h
  | some v =>
    simp only [hr] at h ⊢
    generalize v % 4294967296 = w at h ⊢
    have n0 : (128 + w % 64) % 256 ≠ 0 := by omega
    have n1 : (128 + w / 64 % 64) % 256 ≠ 0 := by omega
    have n2 : (128 + w / 4096 % 64) % 256 ≠ 0 := by omega
    by_cases h1 : w > 0x10FFFF
    · simp [h1] at h
    · simp only [h1, if_false] at h ⊢
      by_cases h2 : w < 0x80
      · simp only [h2, if_true, store4, List.set_cons_zero, List.set_cons_succ] at h ⊢
        cases h
        exact ⟨_, _, _, _, rfl, fun _ => rfl, fun _ => rfl, fun _ _ _ _ _ => rfl⟩
      · simp only [h2, if_false] at h ⊢
        by_cases h3 : w < 0x800
        · simp only [h3, if_true, store4, List.set_cons_zero, List.set_cons_succ] at h ⊢
          cases h
          exact ⟨_, _, _, _, rfl, fun _ => rfl, fun _ => rfl, fun _ _ _ _ _ => rfl⟩
        · simp only [h3, if_false] at h ⊢
          by_cases h4 : w < 0x10000
          · simp only [h4, if_true, store4, List.set_cons_zero, List.set_cons_succ,
              bits.shr_6, bits.land_3F] at h ⊢
            cases h
            exact ⟨_, _, _, _, rfl, fun hx => absurd hx n1, fun _ => rfl,
              fun _ _ _ _ _ => rfl⟩
          · simp only [h4, if_false, store4, List.set_cons_zero, List.set_cons_succ,
              bits.shr_6, bits.shr_12, bits.land_3F] at h ⊢
            cases h
            exact ⟨_, _, _, _, rfl, fun hx => absurd hx n2, fun hx => absurd hx n1,
              fun _ _ _ _ _ => rfl⟩

/-- From a resolved adapter, `decrement` undoes `increment` exactly. -/
theorem encode8_inc_dec_resolved (src : List Nat) (p x0 x1 x2 x3 k : Nat)
    (it1 : u32_to_u8_iterator) (hk : k ≤ 3) (s1 : x1 = 0 → x2 = 0) (s2 : x2 = 0 → x3 = 0)
    (v1 : 1 ≤ k → x1 ≠ 0) (v2 : 2 ≤ k → x2 ≠ 0) (v3 : 3 ≤ k → x3 ≠ 0)
    (hc : ∀ a b c d m, extract_current src ⟨p, [a, b, c, d, 0], m⟩ =
      .ok ⟨p, [x0, x1, x2, x3, 0], 0⟩)
    (hinc : increment src ⟨p, [x0, x1, x2, x3, 0], k⟩ = .ok it1) :
    decrement src it1 = .ok ⟨p, [x0, x1, x2, x3, 0], k⟩ ∧ settled src it1 := by
  have moved : ∀ j, j ≤ 3 → skip_empty [x0, x1, x2, x3, 0] 3 = some j →
      decrement src ⟨p + 1, [x0, x1, x2, x3, 0], 4⟩ = .ok ⟨p, [x0, x1, x2, x3, 0], j⟩ ∧
      settled src ⟨p + 1, [x0, x1, x2, x3, 0], 4⟩ := by
    intro j _ hj
    refine ⟨?_, x0, x1, x2, x3, rfl, Or.inl rfl⟩
    simp [decrement, bits.land_3, hc, hj]
  have stay : ∀ j, j ≤ 2 → (1 ≤ j + 1 → x1 ≠ 0) → (2 ≤ j + 1 → x2 ≠ 0) →
      (3 ≤ j + 1 → x3 ≠ 0) →
      decrement src ⟨p, [x0, x1, x2, x3, 0], j + 1⟩ = .ok ⟨p, [x0, x1, x2, x3, 0], j⟩ ∧
      settled src ⟨p, [x0, x1, x2, x3, 0], j + 1⟩ := by
    intro j hj w1 w2 w3
    refine ⟨?_, x0, x1, x2, x3, rfl, Or.inr ⟨by simp; omega, s1, s2, w1, w2, w3, hc⟩⟩
    have hne : (j + 1) % 4 ≠ 0 := by omega
    simp [decrement, bits.land_3, hne]
  have hk4 : k = 0 ∨ k = 1 ∨ k = 2 ∨ k = 3 := by omega
  rcases hk4 with h | h | h | h <;> subst h
  · by_cases hz : x1 = 0
    · have hz2 := s1 hz
      have hz3 := s2 hz2
      subst hz hz2 hz3
      simp [increment] at hinc
      subst hinc
      exact moved 0 (by omega) (by simp [skip_empty])
    · simp [increment, hz] at hinc
      subst hinc
      exact stay 0 (by omega) (fun _ => hz) (by omega) (by omega)
  · have w1 := v1 (by omega)
    by_cases hz : x2 = 0
    · have hz3 := s2 hz
      subst hz hz3
      simp [increment] at hinc
      subst hinc
      exact moved 1 (by omega) (by simp [skip_empty, w1])
    · simp [increment, hz] at hinc
      subst hinc
      exact stay 1 (by omega) (fun _ => w1) (fun _ => hz) (by omega)
  · have w1 := v1 (by omega)
    have w2 := v2 (by omega)
    by_cases hz : x3 = 0
    · subst hz
      simp [increment] at hinc
      subst hinc
      exact moved 2 (by omega) (by simp [skip_empty, w2])
    · simp [increment, hz] at hinc
      subst hinc
      exact stay 2 (by omega) (fun _ => w1) (fun _ => w2) (fun _ => hz)
  · have w3 := v3 (by omega)
    simp [increment] at hinc
    subst hinc
    exact moved 3 (by omega) (by simp [skip_empty, w3])

/-- `increment` of a pending adapter is `increment` of the adapter that `extract_current`
returns. -/
theorem encode8_increment_pending (src : List Nat) (p a b c d : Nat)
    (it1 : u32_to_u8_iterator) (hinc : increment src ⟨p, [a, b, c, d, 0], 4⟩ = .ok it1) :
    ∃ x0 x1 x2 x3, (x1 = 0 → x2 = 0) ∧ (x2 = 0 → x3 = 0) ∧
      (∀ a1 b1 c1 d1 m1, extract_current src ⟨p, [a1, b1, c1, d1, 0], m1⟩ =
        .ok ⟨p, [x0, x1, x2, x3, 0], 0⟩) ∧
      increment src ⟨p, [x0, x1, x2, x3, 0], 0⟩ = .ok it1 := by
  cases hx : extract_current src ⟨p, [a, b, c, d, 0], 4⟩ with
  | error e =>
    simp [increment, hx] at hinc
  | ok r =>
    obtain ⟨x0, x1, x2, x3, hr, s1, s2, hc⟩ :=
      encode8_extract_current_form src p a b c d 0 4 r hx
    subst hr
    refine ⟨x0, x1, x2, x3, s1, s2, hc, ?_⟩
    simp only [increment, hx, if_true] at hinc
    simp only [increment]
    exact hinc

/-- From a pending adapter, `decrement` after `increment` returns the resolved adapter at the
same position. -/
theorem encode8_inc_dec_pending (src : List Nat) (p a b c d : Nat) (it1 : u32_to_u8_iterator)
    (hinc : increment src ⟨p, [a, b, c, d, 0], 4⟩ = .ok it1) :
    ∃ x0 x1 x2 x3, extract_current src ⟨p, [a, b, c, d, 0], 4⟩ =
        .ok ⟨p, [x0, x1, x2, x3, 0], 0⟩ ∧
      decrement src it1 = .ok ⟨p, [x0, x1, x2, x3, 0], 0⟩ ∧ settled src it1 := by
  obtain ⟨x0, x1, x2, x3, s1, s2, hc, hi⟩ := encode8_increment_pending src p a b c d it1 hinc
  obtain ⟨hd, hs⟩ := encode8_inc_dec_resolved src p x0 x1 x2 x3 0 it1 (by omega) s1 s2
    (by omega) (by omega) (by omega) hc hi
  exact ⟨x0, x1, x2, x3, hc a b c d 4, hd, hs⟩

/-- `decrement` does not tell a pending adapter from the resolved adapter at the same
position. -/
theorem encode8_decrement_resolved (src : List Nat) (p a b c d x0 x1 x2 x3 : Nat)
    (z : u32_to_u8_iterator) (hd : decrement src ⟨p, [a, b, c, d, 0], 4⟩ = .ok z) :
    decrement src ⟨p, [x0, x1, x2, x3, 0], 0⟩ = .ok z := by
  cases p with
  | zero => simp [decrement, bits.land_3] at hd
  | succ q =>
    cases hx : extract_current src ⟨q, [a, b, c, d, 0], 4⟩ with
    | error e => simp [decrement, bits.land_3, hx] at hd
    | ok r =>
      obtain ⟨y0, y1, y2, y3, hr, _, _, hc⟩ :=
        encode8_extract_current_form src q a b c d 0 4 r hx
      subst hr
      simp only [decrement, bits.land_3, hx] at hd
      simp only [decrement, bits.land_3, hc x0 x1 x2 x3 0]
      exact hd

/-- `n` increments from a settled adapter followed by `n` decrements return to it, or to its
resolved form when it was pending. -/
theorem encode8_symmetry (src : List Nat) (n : Nat) :
    ∀ (st a : u32_to_u8_iterator), settled src st →
      repeat_op (increment src) n st = .ok a →
      ∃ b, repeat_op (decrement src) n a = .ok b ∧
        (b = st ∨ (st.m_current = 4 ∧ extract_current src st = .ok b)) := by
  induction n with
  | zero =>
    intro st a _ h
    simp only [repeat_op] at h
    cases h
    exact ⟨st, rfl, Or.inl rfl⟩
  | succ n ih =>
    intro st a hst h
    rw [repeat_op] at h
    cases hinc : increment src st with
    | error e => simp [hinc] at h
    | ok it1 =>
      simp only [hinc] at h
      obtain ⟨p, vals, k⟩ := st
      obtain ⟨x0, x1, x2, x3, hvals, hcase⟩ := hst
      simp only at hvals hcase
      subst hvals
      have hA : ∃ s0, decrement src it1 = .ok s0 ∧ settled src it1 ∧
          (s0 = ⟨p, [x0, x1, x2, x3, 0], k⟩ ∨
            (k = 4 ∧ extract_current src ⟨p, [x0, x1, x2, x3, 0], k⟩ = .ok s0)) := by
        rcases hcase with hk | ⟨hk, s1, s2, v1, v2, v3, hc⟩
        · subst hk
          obtain ⟨y0, y1, y2, y3, hx, hd, hs⟩ :=
            encode8_inc_dec_pending src p x0 x1 x2 x3 it1 hinc
          exact ⟨_, hd, hs, Or.inr ⟨rfl, hx⟩⟩
        · obtain ⟨hd, hs⟩ := encode8_inc_dec_resolved src p x0 x1 x2 x3 k it1 hk s1 s2
            v1 v2 v3 hc hinc
          exact ⟨_, hd, hs, Or.inl rfl⟩
      obtain ⟨s0, hd, hs1, hs0⟩ := hA
      obtain ⟨b1, hb1, hb⟩ := ih it1 a hs1 h
      have hd1 : decrement src b1 = .ok s0 := by
        rcases hb with hb | ⟨hpend, hx⟩
        · rw [hb]; exact hd
        · obtain ⟨p1, vals1, k1⟩ := it1
          obtain ⟨y0, y1, y2, y3, hv1, _⟩ := hs1
          simp only at hv1 hpend
          subst hv1
          subst hpend
          obtain ⟨z0, z1, z2, z3, hr, _, _, _⟩ :=
            encode8_extract_current_form src p1 y0 y1 y2 y3 0 4 b1 hx
          subst hr
          exact encode8_decrement_resolved src p1 y0 y1 y2 y3 z0 z1 z2 z3 s0 hd
      exact ⟨s0, repeat_op_succ_last _ n _ _ _ hb1 hd1, hs0⟩

end u32_to_u8_iterator

namespace spec

/-- The units of a valid code point form a well-formed UTF-16 element. -/
theorem well_paired_encoded (pre rest : List Nat) (v : Nat) (hv : valid_code_point v) :
    well_paired (pre ++ utf16_units v ++ rest) pre.length = true ∧
    next_unit_offset (pre ++ utf16_units v ++ rest) pre.length =
      pre.length + (utf16_units v).length := by
  obtain ⟨hv1, hv2⟩ := hv
  rw [utf16_units_eq]
  by_cases h1 : v < 0x10000
  · simp only [if_pos h1]
    have r0 : (pre ++ [v] ++ rest)[pre.length]? = some v := by
      have h := getElem?_middle pre [v] rest 0
      simpa using h
    have hh : detail.is_high_surrogate v = false := by
      rw [Bool.eq_false_iff, Ne, detail.is_high_surrogate_iff]; omega
    have hl : detail.is_low_surrogate v = false := by
      rw [Bool.eq_false_iff, Ne, detail.is_low_surrogate_iff]; omega
    simp only [well_paired, next_unit_offset, r0, hh, hl]
    simp
  · simp only [if_neg h1]
    have r0 : (pre ++ [v / 1024 + 0xD7C0, v % 1024 + 0xDC00] ++ rest)[pre.length]? =
        some (v / 1024 + 0xD7C0) := by
      have h := getElem?_middle pre [v / 1024 + 0xD7C0, v % 1024 + 0xDC00] rest 0
      simpa using h
    have r1 : (pre ++ [v / 1024 + 0xD7C0, v % 1024 + 0xDC00] ++ rest)[pre.length + 1]? =
        some (v % 1024 + 0xDC00) := by
      have h := getElem?_middle pre [v / 1024 + 0xD7C0, v % 1024 + 0xDC00] rest 1
      rw [h]
      simp
    have hh : detail.is_high_surrogate (v / 1024 + 0xD7C0) = true := by
      rw [detail.is_high_surrogate_iff]; omega
    have hl0 : detail.is_low_surrogate (v / 1024 + 0xD7C0) = false := by
      rw [Bool.eq_false_iff, Ne, detail.is_low_surrogate_iff]; omega
    have hl : detail.is_low_surrogate (v % 1024 + 0xDC00) = true := by
      rw [detail.is_low_surrogate_iff]; omega
    simp only [well_paired, next_unit_offset, r0, r1, hh, hl0, hl, Bool.not_false,
      Bool.not_true, Bool.or_true, Bool.and_self, if_true, List.length_cons,
      List.length_nil, true_and]

/-- Over the concatenated UTF-16 encodings of valid code points, every run of steps from the
start of a code point meets well-formed elements only. -/
theorem well_paired_steps_encoded (cps : List Nat)
    (hvalid : ∀ v ∈ cps, valid_code_point v) (n : Nat) :
    ∀ i, i + n ≤ cps.length →
      well_paired_steps (cps.flatMap utf16_units) n (utf16_offset cps i) = true := by
  induction n with
  | zero => intro i _; rfl
  | succ n ih =>
    intro i hi
    obtain ⟨v, hv⟩ : ∃ v, cps[i]? = some v := ⟨cps[i], List.getElem?_eq_getElem (by omega)⟩
    obtain ⟨hs, ho⟩ := utf16_split hv
    obtain ⟨h1, h2⟩ := well_paired_encoded ((cps.take i).flatMap utf16_units)
      ((cps.drop (i + 1)).flatMap utf16_units) v (hvalid v (List.getElem?_mem hv))
    rw [← hs] at h1 h2
    have h3 : next_unit_offset (cps.flatMap utf16_units) (utf16_offset cps i) =
        utf16_offset cps (i + 1) := by
      rw [ho]
      exact h2
    simp only [well_paired_steps, Bool.and_eq_true]
    refine ⟨h1, ?_⟩
    rw [h3]
    exact ih (i + 1) (by omega)

/-- A run of continuation bytes, from its bytes one by one. -/
theorem continuation_run_of_get (src : List Nat) (k : Nat) :
    ∀ q, (∀ j, j < k → ∃ y, src[q + j]? = some y ∧ (y % 256) &&& 0xC0 = 0x80) →
      continuation_run src k q = true := by
  induction k with
  | zero => intro q _; rfl
  | succ k ih =>
    intro q h
    obtain ⟨y, hy, hc⟩ := h 0 (by omega)
    simp only [Nat.add_zero] at hy
    simp only [continuation_run, hy, hc, beq_self_eq_true, Bool.true_and]
    apply ih
    intro j hj
    obtain ⟨z, hz, hzc⟩ := h (j + 1) (by omega)
    refine ⟨z, ?_, hzc⟩
    rw [← hz]
    congr 1
    omega

/-- The bytes of a code point up to `0x10FFFF` form a well-formed UTF-8 element. -/
theorem well_led_encoded (pre rest : List Nat) (v : Nat) (hv : v ≤ 0x10FFFF) :
    well_led (pre ++ utf8_bytes v ++ rest) pre.length = true ∧
    next_byte_offset (pre ++ utf8_bytes v ++ rest) pre.length =
      pre.length + (utf8_bytes v).length := by
  obtain ⟨b0, tail, hb, hlead, hcount, htail⟩ := utf8_bytes_shape v hv
  obtain ⟨c0, tail0, hb0, hbc⟩ := utf8_bytes_lead v hv
  have hr0 : (pre ++ utf8_bytes v ++ rest)[pre.length]? = some b0 := by
    have h := getElem?_middle pre (utf8_bytes v) rest 0
    rw [hb] at h ⊢
    simpa using h
  have hc0 : c0 = b0 := by
    rw [hb] at hb0
    injection hb0 with h _
    exact h.symm
  subst hc0
  constructor
  · simp only [well_led, hr0, Bool.and_eq_true, bne_iff_ne, ne_eq]
    refine ⟨hlead, ?_⟩
    apply continuation_run_of_get
    intro j hj
    rw [hcount] at hj
    refine ⟨tail[j], ?_, htail _ (List.getElem_mem _)⟩
    have h := getElem?_middle pre (utf8_bytes v) rest (1 + j)
    rw [hb] at h ⊢
    rw [Nat.add_assoc, h, List.getElem?_append_left (by simp; omega),
      List.getElem?_eq_getElem (by simp; omega)]
    simp [Nat.add_comm 1 j]
  · simp only [next_byte_offset, hr0, hbc]

/-- Over the concatenated UTF-8 encodings of code points up to `0x10FFFF`, every run of steps
from the start of a code point meets well-formed elements only. -/
theorem well_led_steps_encoded (cps : List Nat) (hvalid : ∀ v ∈ cps, v ≤ 0x10FFFF) (n : Nat) :
    ∀ i, i + n ≤ cps.length →
      well_led_steps (cps.flatMap utf8_bytes) n (utf8_offset cps i) = true := by
  induction n with
  | zero => intro i _; rfl
  | succ n ih =>
    intro i hi
    obtain ⟨v, hv⟩ : ∃ v, cps[i]? = some v := ⟨cps[i], List.getElem?_eq_getElem (by omega)⟩
    obtain ⟨hs, ho⟩ := utf8_split hv
    obtain ⟨h1, h2⟩ := well_led_encoded ((cps.take i).flatMap utf8_bytes)
      ((cps.drop (i + 1)).flatMap utf8_bytes) v (hvalid v (List.getElem?_mem hv))
    rw [← hs] at h1 h2
    have h3 : next_byte_offset (cps.flatMap utf8_bytes) (utf8_offset cps i) =
        utf8_offset cps (i + 1) := by
      rw [ho]
      exact h2
    simp only [well_led_steps, Bool.and_eq_true]
    refine ⟨h1, ?_⟩
    rw [h3]
    exact ih (i + 1) (by omega)

end spec

/-! ## The value decoded by `u8_to_u32_iterator` -/

namespace spec

theorem utf8_accumulate_step (value y : Nat) (ys : List Nat) :
    utf8_accumulate value (y :: ys) = utf8_accumulate (value * 64 + y % 64) ys := by
  rw [utf8_accumulate, bits.shl_6, bits.land_3F,
    bits.lor_low6 _ _ (by omega) (Nat.mod_lt _ (by norm_num))]

theorem utf8_accumulate_nil (value : Nat) : utf8_accumulate value [] = value := rfl

/-- The decoded value of the specification in arithmetic form, for each number of further
bytes that has a mask. -/
theorem utf8_decoded_eq (b : Nat) (ys : List Nat) :
    utf8_decoded b ys =
      match ys with
      | [] => some (b % 128)
      | [y1] => some ((b * 64 + y1 % 64) % 2048)
      | [y1, y2] => some (((b * 64 + y1 % 64) * 64 + y2 % 64) % 65536)
      | [y1, y2, y3] => some ((((b * 64 + y1 % 64) * 64 + y2 % 64) * 64 + y3 % 64) % 2097152)
      | _ => none := by
  rcases ys with _ | ⟨y1, _ | ⟨y2, _ | ⟨y3, _ | ⟨y4, t⟩⟩⟩⟩
  · simp only [utf8_decoded, utf8_mask, utf8_accumulate, List.length, Option.map, bits.land_7F]
  · simp only [utf8_decoded, utf8_mask, utf8_accumulate_step, utf8_accumulate_nil, List.length,
      Option.map, bits.land_7FF]
  · simp only [utf8_decoded, utf8_mask, utf8_accumulate_step, utf8_accumulate_nil, List.length,
      Option.map, bits.land_FFFF]
  · simp only [utf8_decoded, utf8_mask, utf8_accumulate_step, utf8_accumulate_nil, List.length,
      Option.map, bits.land_1FFFFF]
  · simp only [utf8_decoded, utf8_mask, List.length, Option.map]

end spec

namespace u8_to_u32_iterator

/-- The exact outcome of `extract_current` at a leading byte `b` followed by the `extra` bytes
`ys` it announces, in terms of the value `d` the specification decodes them to: `d` is cached
and returned when it is at most `0x10FFFF`, and `InvalidUtf8Sequence` is raised otherwise. -/
theorem decode8_extract_current_decoded (src : List Nat) (p m b d : Nat) (ys rest : List Nat)
    (hsrc : src.drop p = b :: (ys ++ rest)) (hb : b < 256) (hlead : b &&& 0xC0 ≠ 0x80)
    (hex : detail.utf8_trailing_byte_count b = ys.length)
    (hd : spec.utf8_decoded b ys = some d) :
    extract_current src ⟨p, m⟩ =
      if 0x10FFFF < d then .error (Failure.InvalidUtf8Sequence, ⟨p, d⟩) else .ok ⟨p, d⟩ := by
  have hget : ∀ i, src[p + i]? = (b :: (ys ++ rest))[i]? := by
    intro i; rw [← hsrc, List.getElem?_drop]
  have e1 : b % 256 % 4294967296 = b := by omega
  rw [spec.utf8_decoded_eq] at hd
  rcases ys with _ | ⟨y1, _ | ⟨y2, _ | ⟨y3, _ | ⟨y4, t⟩⟩⟩⟩
  · have r0 := hget 0
    simp at r0
    simp at hd hex
    subst hd
    simp [extract_current, extract_loop, masks, r0, e1, hlead, hex, bits.land_7F]
  · have r0 := hget 0
    have r1 := hget 1
    simp at r0 r1
    simp at hd hex
    subst hd
    have hv : (b * 64 + y1 % 256 % 64) % 4294967296 % 2048 = (b * 64 + y1 % 64) % 2048 := by
      omega
    simp [extract_current, extract_loop, masks, r0, r1, e1, hlead, hex, bits.land_7FF,
      bits.land_3F, bits.shl_6, hv]
  · have r0 := hget 0
    have r1 := hget 1
    have r2 := hget 2
    simp at r0 r1 r2
    simp at hd hex
    subst hd
    have hv : ((b * 64 + y1 % 256 % 64) * 64 + y2 % 256 % 64) %
        4294967296 % 65536 = ((b * 64 + y1 % 64) * 64 + y2 % 64) % 65536 := by
      omega
    simp [extract_current, extract_loop, masks, r0, r1, r2, e1, hlead, hex, bits.land_FFFF,
      bits.land_3F, bits.shl_6, hv]
  · have r0 := hget 0
    have r1 := hget 1
    have r2 := hget 2
    have r3 := hget 3
    simp at r0 r1 r2 r3
    simp at hd hex
    subst hd
    have hv : (((b * 64 + y1 % 256 % 64) * 64 + y2 % 256 % 64) * 64 + y3 % 256 % 64) %
        4294967296 % 2097152 =
        (((b * 64 + y1 % 64) * 64 + y2 % 64) * 64 + y3 % 64) % 2097152 := by
      omega
    simp [extract_current, extract_loop, masks, r0, r1, r2, r3, e1, hlead, hex,
      bits.land_1FFFFF, bits.land_3F, bits.shl_6, hv]
  · simp at hd

end u8_to_u32_iterator

/-! ## The claims -/

/-- C1, evaluated at the failing input: U+1D800 is a valid code point, the UTF-16 encoder
produces the two units `0xD836 0xDC00` for it, and dereferencing the UTF-16 decoder at the first
of these units raises `MisplacedSurrogate` instead of returning `0x1D800`, because
`is_surrogate` masks the 32-bit result with `0xF800` only. -/
theorem utf16_round_trip_fails_at_1D800 :
    spec.valid_code_point 0x1D800 ∧
    traverse (u32_to_u16_iterator.dereference [0x1D800])
        (u32_to_u16_iterator.increment [0x1D800]) u32_to_u16_iterator.equal
        (u32_to_u16_iterator.construct 1 0 0) 2 (u32_to_u16_iterator.construct 0 0 0) =
      .ok (some [0xD836, 0xDC00]) ∧
    u16_to_u32_iterator.dereference [0xD836, 0xDC00] (u16_to_u32_iterator.construct 0) =
      .error (Failure.MisplacedSurrogate, ⟨0, 0x1D800⟩) :=
  ⟨by decide, rfl, rfl⟩

/-- C2: UTF-8 round trip.  For a valid code point `v` the UTF-8 encoder, traversed over the
one-element sequence `[v]`, produces between one and four bytes, and dereferencing the UTF-8
decoder at the first of these bytes (whatever precedes and follows them) succeeds and returns
`v`. -/
theorem utf8_round_trip (v : Nat) (hv : spec.valid_code_point v)
    (u0 u1 u2 u3 e0 e1 e2 e3 : Nat) :
    ∃ bytes,
      traverse (u32_to_u8_iterator.dereference [v]) (u32_to_u8_iterator.increment [v])
          u32_to_u8_iterator.equal (u32_to_u8_iterator.construct 1 e0 e1 e2 e3) 4
          (u32_to_u8_iterator.construct 0 u0 u1 u2 u3) = .ok (some bytes) ∧
      1 ≤ bytes.length ∧ bytes.length ≤ 4 ∧
      ∀ pre rest : List Nat,
        u8_to_u32_iterator.dereference (pre ++ bytes ++ rest)
            (u8_to_u32_iterator.construct pre.length) = .ok (v, ⟨pre.length, v⟩) := by
  have hle : v ≤ 0x10FFFF := hv.1
  obtain ⟨a1, b1, c1, d1, hr⟩ := u32_to_u8_iterator.encode8_rounds_all [v]
    (u32_to_u8_iterator.construct 1 e0 e1 e2 e3) rfl [v] 0 u0 u1 u2 u3 (by simp) rfl
    (by intro w hw; rw [List.mem_singleton] at hw; omega)
  have hlen : 1 ≤ (spec.utf8_bytes v).length ∧ (spec.utf8_bytes v).length ≤ 4 := by
    rw [spec.utf8_bytes_eq]
    split_ifs <;> simp
  have ht := traverse_of_rounds hr (by rfl) 4
  simp only [List.flatMap_cons, List.flatMap_nil, List.append_nil] at ht
  rw [if_pos hlen.2] at ht
  refine ⟨spec.utf8_bytes v, ht, hlen.1, hlen.2, ?_⟩
  intro pre rest
  have hdrop : (pre ++ spec.utf8_bytes v ++ rest).drop pre.length = spec.utf8_bytes v ++ rest := by
    rw [List.append_assoc, List.drop_left]
  rw [u8_to_u32_iterator.decode8_dereference_of_pending _ _ rfl]
  have hx := u8_to_u32_iterator.decode8_extract_current_encoded (pre ++ spec.utf8_bytes v ++ rest)
    pre.length v u8_to_u32_iterator.pending_read rest hle hdrop
  simp only [u8_to_u32_iterator.construct, hx]

/-- Witness of C2 at U+1F600. -/
theorem utf8_round_trip_witness :
    ∃ bytes,
      traverse (u32_to_u8_iterator.dereference [0x1F600]) (u32_to_u8_iterator.increment [0x1F600])
          u32_to_u8_iterator.equal (u32_to_u8_iterator.construct 1 0 0 0 0) 4
          (u32_to_u8_iterator.construct 0 0 0 0 0) = .ok (some bytes) ∧
      1 ≤ bytes.length ∧ bytes.length ≤ 4 ∧
      ∀ pre rest : List Nat,
        u8_to_u32_iterator.dereference (pre ++ bytes ++ rest)
            (u8_to_u32_iterator.construct pre.length) = .ok (0x1F600, ⟨pre.length, 0x1F600⟩) :=
  utf8_round_trip 0x1F600 (by decide) 0 0 0 0 0 0 0 0

/-- C3: the UTF-16 encoding computed by `u32_to_u16_iterator::extract_current`.  For a
non-surrogate `v ≤ 0xFFFF` the buffer holds the single unit `v` and slot 1 is 0 (unused); for
`v` in `[0x10000, 0x10FFFF]` it holds `high = (v >> 10) + 0xD7C0` and
`low = (v & 0x3FF) + 0xDC00`, with `high` in `[0xD800, 0xDBFF]`, `low` in `[0xDC00, 0xDFFF]` and
`((high - 0xD7C0) << 10) | (low & 0x3FF) = v`. -/
theorem utf16_encoding_shape (src : List Nat) (p v u0 u1 u2 m : Nat)
    (hread : src[p]? = some v) :
    (v ≤ 0xFFFF → ¬ (0xD800 ≤ v ∧ v ≤ 0xDFFF) →
      u32_to_u16_iterator.extract_current src ⟨p, [u0, u1, u2], m⟩ = .ok ⟨p, [v, 0, u2], 0⟩) ∧
    (0x10000 ≤ v → v ≤ 0x10FFFF →
      ∃ high low,
        u32_to_u16_iterator.extract_current src ⟨p, [u0, u1, u2], m⟩ =
          .ok ⟨p, [high, low, u2], 0⟩ ∧
        high = (v >>> 10) + 0xD7C0 ∧ low = (v &&& 0x3FF) + 0xDC00 ∧
        0xD800 ≤ high ∧ high ≤ 0xDBFF ∧ 0xDC00 ≤ low ∧ low ≤ 0xDFFF ∧
        ((high - 0xD7C0) <<< 10) ||| (low &&& 0x3FF) = v) := by
  constructor
  · intro h1 h2
    rw [u32_to_u16_iterator.encode16_extract_current_eq src p v u0 u1 u2 m hread (by omega),
      if_neg (by omega), if_neg (by omega), if_neg h2]
  · intro h1 h2
    refine ⟨(v >>> 10) + 0xD7C0, (v &&& 0x3FF) + 0xDC00, ?_, rfl, rfl, ?_⟩
    · rw [u32_to_u16_iterator.encode16_extract_current_eq src p v u0 u1 u2 m hread (by omega),
        if_neg (by omega), if_pos h1, bits.shr_10, bits.land_3FF]
    · simp only [bits.shr_10, bits.land_3FF, bits.shl_10]
      rw [bits.lor_low10 _ _ (by omega) (by omega)]
      omega

/-- Witness of C3 at U+1F600 and at U+0048. -/
theorem utf16_encoding_shape_witness :
    u32_to_u16_iterator.extract_current [0x48, 0x1F600] ⟨0, [7, 9, 0], 2⟩ =
      .ok ⟨0, [0x48, 0, 0], 0⟩ ∧
    ∃ high low,
      u32_to_u16_iterator.extract_current [0x48, 0x1F600] ⟨1, [7, 9, 0], 2⟩ =
        .ok ⟨1, [high, low, 0], 0⟩ ∧
      high = (0x1F600 >>> 10) + 0xD7C0 ∧ low = (0x1F600 &&& 0x3FF) + 0xDC00 ∧
      0xD800 ≤ high ∧ high ≤ 0xDBFF ∧ 0xDC00 ≤ low ∧ low ≤ 0xDFFF ∧
      ((high - 0xD7C0) <<< 10) ||| (low &&& 0x3FF) = 0x1F600 :=
  ⟨(utf16_encoding_shape [0x48, 0x1F600] 0 0x48 7 9 0 2 rfl).1 (by decide) (by decide),
   (utf16_encoding_shape [0x48, 0x1F600] 1 0x1F600 7 9 0 2 rfl).2 (by decide) (by decide)⟩

/-- C4: the UTF-8 encoding computed by `u32_to_u8_iterator::extract_current` for `v ≤ 0x10FFFF`
is the table of the specification (`spec.utf8_bytes`): 1, 2, 3 or 4 bytes by the ranges
`< 0x80`, `< 0x800`, `< 0x10000`, otherwise; the bytes are stored without truncation (each is
below 256), the slots after them up to slot 3 are 0, every byte after the first is non-zero, so
that a slot `1 ≤ i ≤ 3` is 0 exactly when `i` is at least the byte count. -/
theorem utf8_encoding_table (src : List Nat) (p v u0 u1 u2 u3 u4 m : Nat)
    (hread : src[p]? = some v) (hv : v ≤ 0x10FFFF) :
    u32_to_u8_iterator.extract_current src ⟨p, [u0, u1, u2, u3, u4], m⟩ =
      .ok ⟨p, spec.utf8_bytes v ++ List.replicate (4 - (spec.utf8_bytes v).length) 0 ++ [u4],
        0⟩ ∧
    (spec.utf8_bytes v).length =
      (if v < 0x80 then 1 else if v < 0x800 then 2 else if v < 0x10000 then 3 else 4) ∧
    (∀ b ∈ spec.utf8_bytes v, b < 256) ∧
    (∀ b ∈ (spec.utf8_bytes v).tail, b ≠ 0) ∧
    (∀ i, 1 ≤ i → i ≤ 3 →
      ((spec.utf8_bytes v ++ List.replicate (4 - (spec.utf8_bytes v).length) 0 ++ [u4])[i]? =
          some 0 ↔ (spec.utf8_bytes v).length ≤ i)) := by
  have hx := u32_to_u8_iterator.encode8_extract_current_eq src p v u0 u1 u2 u3 u4 m hread (by omega)
  rw [if_neg (by omega)] at hx
  have hi : ∀ i, 1 ≤ i → i ≤ 3 → i = 1 ∨ i = 2 ∨ i = 3 := by intro i h1 h2; omega
  rw [hx, spec.utf8_bytes_eq]
  by_cases h1 : v < 0x80
  · simp only [if_pos h1]
    refine ⟨by simp, by simp, by simp; omega, by simp, ?_⟩
    intro i hi1 hi3
    rcases hi i hi1 hi3 with h | h | h <;> subst h <;> simp
  · simp only [if_neg h1]
    by_cases h2 : v < 0x800
    · simp only [if_pos h2]
      refine ⟨by simp, by simp, by simp; omega, by simp, ?_⟩
      intro i hi1 hi3
      rcases hi i hi1 hi3 with h | h | h <;> subst h <;> simp
    · simp only [if_neg h2]
      by_cases h3 : v < 0x10000
      · simp only [if_pos h3]
        refine ⟨by simp, by simp, by simp; omega, by simp, ?_⟩
        intro i hi1 hi3
        rcases hi i hi1 hi3 with h | h | h <;> subst h <;> simp
      · simp only [if_neg h3]
        refine ⟨by simp, by simp, by simp; omega, by simp, ?_⟩
        intro i hi1 hi3
        rcases hi i hi1 hi3 with h | h | h <;> subst h <;> simp

/-- Witness of C4 at the boundary values `0x7F/0x80`, `0x7FF/0x800`, `0xFFFF/0x10000`. -/
theorem utf8_encoding_table_witness :
    u32_to_u8_iterator.extract_current [0x7F, 0x80, 0x7FF, 0x800, 0xFFFF, 0x10000]
        ⟨0, [9, 9, 9, 9, 0], 4⟩ = .ok ⟨0, [0x7F, 0, 0, 0, 0], 0⟩ ∧
    u32_to_u8_iterator.extract_current [0x7F, 0x80, 0x7FF, 0x800, 0xFFFF, 0x10000]
        ⟨1, [9, 9, 9, 9, 0], 4⟩ = .ok ⟨1, [0xC2, 0x80, 0, 0, 0], 0⟩ ∧
    u32_to_u8_iterator.extract_current [0x7F, 0x80, 0x7FF, 0x800, 0xFFFF, 0x10000]
        ⟨2, [9, 9, 9, 9, 0], 4⟩ = .ok ⟨2, [0xDF, 0xBF, 0, 0, 0], 0⟩ ∧
    u32_to_u8_iterator.extract_current [0x7F, 0x80, 0x7FF, 0x800, 0xFFFF, 0x10000]
        ⟨3, [9, 9, 9, 9, 0], 4⟩ = .ok ⟨3, [0xE0, 0xA0, 0x80, 0, 0], 0⟩ ∧
    u32_to_u8_iterator.extract_current [0x7F, 0x80, 0x7FF, 0x800, 0xFFFF, 0x10000]
        ⟨4, [9, 9, 9, 9, 0], 4⟩ = .ok ⟨4, [0xEF, 0xBF, 0xBF, 0, 0], 0⟩ ∧
    u32_to_u8_iterator.extract_current [0x7F, 0x80, 0x7FF, 0x800, 0xFFFF, 0x10000]
        ⟨5, [9, 9, 9, 9, 0], 4⟩ = .ok ⟨5, [0xF0, 0x90, 0x80, 0x80, 0], 0⟩ :=
  ⟨(utf8_encoding_table [0x7F, 0x80, 0x7FF, 0x800, 0xFFFF, 0x10000] 0 0x7F 9 9 9 9 0 4 rfl
      (by decide)).1,
   (utf8_encoding_table [0x7F, 0x80, 0x7FF, 0x800, 0xFFFF, 0x10000] 1 0x80 9 9 9 9 0 4 rfl
      (by decide)).1,
   (utf8_encoding_table [0x7F, 0x80, 0x7FF, 0x800, 0xFFFF, 0x10000] 2 0x7FF 9 9 9 9 0 4 rfl
      (by decide)).1,
   (utf8_encoding_table [0x7F, 0x80, 0x7FF, 0x800, 0xFFFF, 0x10000] 3 0x800 9 9 9 9 0 4 rfl
      (by decide)).1,
   (utf8_encoding_table [0x7F, 0x80, 0x7FF, 0x800, 0xFFFF, 0x10000] 4 0xFFFF 9 9 9 9 0 4 rfl
      (by decide)).1,
   (utf8_encoding_table [0x7F, 0x80, 0x7FF, 0x800, 0xFFFF, 0x10000] 5 0x10000 9 9 9 9 0 4 rfl
      (by decide)).1⟩

/-- C5: forward traversal of the two encoders.  For a sequence `cps` of valid code points
(zero included), the loop that starts at a freshly constructed adapter at the first element,
dereferences and increments until the adapter compares equal to a freshly constructed adapter
at the end position, yields the concatenation of the encodings of the elements, for
`u32_to_u16_iterator` and for `u32_to_u8_iterator`; it returns within `fuel` rounds exactly when
`fuel` is at least the number of values produced. -/
theorem encoders_traverse_concat (cps : List Nat)
    (hvalid : ∀ v ∈ cps, spec.valid_code_point v) (fuel : Nat) :
    (∀ u0 u1 e0 e1 : Nat,
      traverse (u32_to_u16_iterator.dereference cps) (u32_to_u16_iterator.increment cps)
          u32_to_u16_iterator.equal (u32_to_u16_iterator.construct cps.length e0 e1) fuel
          (u32_to_u16_iterator.construct 0 u0 u1) =
        if (cps.flatMap spec.utf16_units).length ≤ fuel
        then .ok (some (cps.flatMap spec.utf16_units)) else .ok none) ∧
    (∀ u0 u1 u2 u3 e0 e1 e2 e3 : Nat,
      traverse (u32_to_u8_iterator.dereference cps) (u32_to_u8_iterator.increment cps)
          u32_to_u8_iterator.equal (u32_to_u8_iterator.construct cps.length e0 e1 e2 e3) fuel
          (u32_to_u8_iterator.construct 0 u0 u1 u2 u3) =
        if (cps.flatMap spec.utf8_bytes).length ≤ fuel
        then .ok (some (cps.flatMap spec.utf8_bytes)) else .ok none) := by
  constructor
  · intro u0 u1 e0 e1
    obtain ⟨a1, b1, hr⟩ := u32_to_u16_iterator.encode16_rounds_all cps
      (u32_to_u16_iterator.construct cps.length e0 e1) rfl cps 0 u0 u1 (by omega) rfl hvalid
    exact traverse_of_rounds hr (by simp [u32_to_u16_iterator.equal,
      u32_to_u16_iterator.construct]) fuel
  · intro u0 u1 u2 u3 e0 e1 e2 e3
    obtain ⟨a1, b1, c1, d1, hr⟩ := u32_to_u8_iterator.encode8_rounds_all cps
      (u32_to_u8_iterator.construct cps.length e0 e1 e2 e3) rfl cps 0 u0 u1 u2 u3 (by omega) rfl
      (fun v hv => (hvalid v hv).1)
    exact traverse_of_rounds hr (by simp [u32_to_u8_iterator.equal,
      u32_to_u8_iterator.construct]) fuel

/-- Witness of C5: `[0x48, 0x1F600, 0x21]` is traversed as `[0x48, 0xD83D, 0xDE00, 0x21]` in four
rounds and as `[0x48, 0xF0, 0x9F, 0x98, 0x80, 0x21]` in six rounds. -/
theorem encoders_traverse_concat_witness :
    traverse (u32_to_u16_iterator.dereference [0x48, 0x1F600, 0x21])
        (u32_to_u16_iterator.increment [0x48, 0x1F600, 0x21])
        u32_to_u16_iterator.equal (u32_to_u16_iterator.construct 3 0 0) 4
        (u32_to_u16_iterator.construct 0 0 0) = .ok (some [0x48, 0xD83D, 0xDE00, 0x21]) ∧
    traverse (u32_to_u8_iterator.dereference [0x48, 0x1F600, 0x21])
        (u32_to_u8_iterator.increment [0x48, 0x1F600, 0x21])
        u32_to_u8_iterator.equal (u32_to_u8_iterator.construct 3 0 0 0 0) 6
        (u32_to_u8_iterator.construct 0 0 0 0 0) =
      .ok (some [0x48, 0xF0, 0x9F, 0x98, 0x80, 0x21]) :=
  ⟨(encoders_traverse_concat [0x48, 0x1F600, 0x21] (by decide) 4).1 0 0 0 0,
   (encoders_traverse_concat [0x48, 0x1F600, 0x21] (by decide) 6).2 0 0 0 0 0 0 0 0⟩

/-- C6: list-level UTF-8 decoding.  For a sequence `cps` of valid code points, let `bytes` be
the concatenation of their UTF-8 encodings, which is what traversing the encoder over `cps`
yields.  Traversing `u8_to_u32_iterator` over `bytes`, from the first byte until the adapter
compares equal to the adapter at the end position, raises no failure and yields exactly `cps`;
it returns within `fuel` rounds exactly when `fuel` is at least the length of `cps`. -/
theorem utf8_decode_traverse (cps : List Nat)
    (hvalid : ∀ v ∈ cps, spec.valid_code_point v) (fuel : Nat) :
    traverse (u32_to_u8_iterator.dereference cps) (u32_to_u8_iterator.increment cps)
        u32_to_u8_iterator.equal (u32_to_u8_iterator.construct cps.length 0 0 0 0)
        (cps.flatMap spec.utf8_bytes).length (u32_to_u8_iterator.construct 0 0 0 0 0) =
      .ok (some (cps.flatMap spec.utf8_bytes)) ∧
    traverse (u8_to_u32_iterator.dereference (cps.flatMap spec.utf8_bytes))
        (u8_to_u32_iterator.increment (cps.flatMap spec.utf8_bytes))
        u8_to_u32_iterator.equal
        (u8_to_u32_iterator.construct (cps.flatMap spec.utf8_bytes).length) fuel
        (u8_to_u32_iterator.construct 0) =
      if cps.length ≤ fuel then .ok (some cps) else .ok none := by
  constructor
  · obtain ⟨a1, b1, c1, d1, hr⟩ := u32_to_u8_iterator.encode8_rounds_all cps
      (u32_to_u8_iterator.construct cps.length 0 0 0 0) rfl cps 0 0 0 0 0 (by omega) rfl
      (fun v hv => (hvalid v hv).1)
    have ht := traverse_of_rounds hr (by simp [u32_to_u8_iterator.equal,
      u32_to_u8_iterator.construct]) (cps.flatMap spec.utf8_bytes).length
    rw [if_pos (Nat.le_refl _)] at ht
    exact ht
  · have hr := u8_to_u32_iterator.decode8_rounds_all (cps.flatMap spec.utf8_bytes)
      (u8_to_u32_iterator.construct (cps.flatMap spec.utf8_bytes).length) rfl cps 0
      (by omega) rfl (fun v hv => (hvalid v hv).1)
    exact traverse_of_rounds hr (by simp [u8_to_u32_iterator.equal]) fuel

/-- Witness of C6: the bytes `[0x48, 0xF0, 0x9F, 0x98, 0x80, 0x21]` decode to
`[0x48, 0x1F600, 0x21]` in three rounds. -/
theorem utf8_decode_traverse_witness :
    traverse (u8_to_u32_iterator.dereference [0x48, 0xF0, 0x9F, 0x98, 0x80, 0x21])
        (u8_to_u32_iterator.increment [0x48, 0xF0, 0x9F, 0x98, 0x80, 0x21])
        u8_to_u32_iterator.equal (u8_to_u32_iterator.construct 6) 3
        (u8_to_u32_iterator.construct 0) = .ok (some [0x48, 0x1F600, 0x21]) :=
  (utf8_decode_traverse [0x48, 0x1F600, 0x21] (by decide) 3).2

/-- C7: the UTF-16 encoder fails exactly on invalid code points.  For a 32-bit value `v` at the
base position of a pending `u32_to_u16_iterator`, `dereference` raises `InvalidCodePoint` if and
only if `v > 0x10FFFF` or `v` is in `[0xD800, 0xDFFF]`, the same holds for `increment`, and for
every other `v` both return normally. -/
theorem u32_to_u16_fails_iff_invalid (src : List Nat) (p v u0 u1 u2 : Nat)
    (hread : src[p]? = some v) (h32 : v < 4294967296) :
    (raises (u32_to_u16_iterator.dereference src ⟨p, [u0, u1, u2], 2⟩)
        Failure.InvalidCodePoint = true ↔
      (0x10FFFF < v ∨ (0xD800 ≤ v ∧ v ≤ 0xDFFF))) ∧
    (raises (u32_to_u16_iterator.increment src ⟨p, [u0, u1, u2], 2⟩)
        Failure.InvalidCodePoint = true ↔
      (0x10FFFF < v ∨ (0xD800 ≤ v ∧ v ≤ 0xDFFF))) ∧
    (¬ (0x10FFFF < v ∨ (0xD800 ≤ v ∧ v ≤ 0xDFFF)) →
      succeeds (u32_to_u16_iterator.dereference src ⟨p, [u0, u1, u2], 2⟩) = true ∧
      succeeds (u32_to_u16_iterator.increment src ⟨p, [u0, u1, u2], 2⟩) = true) := by
  have hx := u32_to_u16_iterator.encode16_extract_current_eq src p v u0 u1 u2 2 hread h32
  by_cases h1 : 0x10FFFF < v
  · rw [if_pos h1] at hx
    simp [raises, succeeds, u32_to_u16_iterator.dereference, u32_to_u16_iterator.increment,
      hx, h1]
  · rw [if_neg h1] at hx
    by_cases h2 : 0x10000 ≤ v
    · rw [if_pos h2] at hx
      have h3 : ¬ (0xD800 ≤ v ∧ v ≤ 0xDFFF) := by omega
      simp [raises, succeeds, u32_to_u16_iterator.dereference, u32_to_u16_iterator.increment,
        hx, h1, h3]
    · rw [if_neg h2] at hx
      by_cases h3 : 0xD800 ≤ v ∧ v ≤ 0xDFFF
      · rw [if_pos h3] at hx
        simp [raises, succeeds, u32_to_u16_iterator.dereference,
          u32_to_u16_iterator.increment, hx, h1, h3]
      · rw [if_neg h3] at hx
        simp [raises, succeeds, u32_to_u16_iterator.dereference,
          u32_to_u16_iterator.increment, hx, h1, h3]

/-- Witness of C7 at `0x110000` (rejected) and at `0xFFFF` (accepted). -/
theorem u32_to_u16_fails_iff_invalid_witness :
    raises (u32_to_u16_iterator.dereference [0x110000, 0xFFFF] ⟨0, [0, 0, 0], 2⟩)
      Failure.InvalidCodePoint = true ∧
    succeeds (u32_to_u16_iterator.increment [0x110000, 0xFFFF] ⟨1, [0, 0, 0], 2⟩) = true :=
  ⟨(u32_to_u16_fails_iff_invalid [0x110000, 0xFFFF] 0 0x110000 0 0 0 rfl (by decide)).1.mpr
      (Or.inl (by decide)),
   ((u32_to_u16_fails_iff_invalid [0x110000, 0xFFFF] 1 0xFFFF 0 0 0 rfl (by decide)).2.2
      (by decide)).2⟩

/-- C8 as stated fails: the surrogate `0xD800` is accepted by the UTF-8 encoder, which returns
its first byte `0xED` and fills the buffer with the three bytes `0xED 0xA0 0x80`. -/
theorem u32_to_u8_accepts_surrogate :
    (0xD800 ≤ 0xD800 ∧ 0xD800 ≤ 0xDFFF) ∧
    u32_to_u8_iterator.dereference [0xD800] (u32_to_u8_iterator.construct 0 0 0 0 0) =
      .ok (0xED, ⟨0, [0xED, 0xA0, 0x80, 0, 0], 0⟩) ∧
    u32_to_u8_iterator.increment [0xD800] (u32_to_u8_iterator.construct 0 0 0 0 0) =
      .ok ⟨0, [0xED, 0xA0, 0x80, 0, 0], 1⟩ ∧
    raises (u32_to_u8_iterator.dereference [0xD800] (u32_to_u8_iterator.construct 0 0 0 0 0))
      Failure.InvalidCodePoint = false ∧
    raises (u32_to_u8_iterator.increment [0xD800] (u32_to_u8_iterator.construct 0 0 0 0 0))
      Failure.InvalidCodePoint = false :=
  ⟨by decide, rfl, rfl, rfl, rfl⟩

/-- C8, amended: for a 32-bit value `v > 0x10FFFF` at the base position of a pending
`u32_to_u8_iterator`, `dereference` and `increment` raise `InvalidCodePoint` and leave the
adapter as it was (no byte is stored); a value in the surrogate range `[0xD800, 0xDFFF]` is not
rejected: both operations return normally and the buffer holds its three-byte encoding. -/
theorem u32_to_u8_rejects_out_of_range (src : List Nat) (p v u0 u1 u2 u3 u4 : Nat)
    (hread : src[p]? = some v) (h32 : v < 4294967296) :
    (0x10FFFF < v →
      u32_to_u8_iterator.dereference src ⟨p, [u0, u1, u2, u3, u4], 4⟩ =
        .error (Failure.InvalidCodePoint, ⟨p, [u0, u1, u2, u3, u4], 4⟩) ∧
      u32_to_u8_iterator.increment src ⟨p, [u0, u1, u2, u3, u4], 4⟩ =
        .error (Failure.InvalidCodePoint, ⟨p, [u0, u1, u2, u3, u4], 4⟩)) ∧
    (0xD800 ≤ v ∧ v ≤ 0xDFFF →
      u32_to_u8_iterator.dereference src ⟨p, [u0, u1, u2, u3, u4], 4⟩ =
        .ok (0xE0 + (v >>> 12),
          ⟨p, [0xE0 + (v >>> 12), 0x80 + ((v >>> 6) &&& 0x3F), 0x80 + (v &&& 0x3F), 0, u4], 0⟩) ∧
      u32_to_u8_iterator.increment src ⟨p, [u0, u1, u2, u3, u4], 4⟩ =
        .ok ⟨p, [0xE0 + (v >>> 12), 0x80 + ((v >>> 6) &&& 0x3F), 0x80 + (v &&& 0x3F), 0, u4],
          1⟩) := by
  have hx := u32_to_u8_iterator.encode8_extract_current_eq src p v u0 u1 u2 u3 u4 4 hread h32
  constructor
  · intro h1
    rw [if_pos h1] at hx
    simp [u32_to_u8_iterator.dereference, u32_to_u8_iterator.increment, hx]
  · intro h1
    rw [if_neg (by omega), if_neg (by omega), if_neg (by omega), if_pos (by omega)] at hx
    simp [u32_to_u8_iterator.dereference, u32_to_u8_iterator.increment, hx, bits.shr_12,
      bits.shr_6, bits.land_3F]

/-- Witness of the amended C8 at `0x110000` and at `0xDFFF`. -/
theorem u32_to_u8_rejects_out_of_range_witness :
    u32_to_u8_iterator.dereference [0x110000, 0xDFFF] ⟨0, [1, 2, 3, 4, 0], 4⟩ =
      .error (Failure.InvalidCodePoint, ⟨0, [1, 2, 3, 4, 0], 4⟩) ∧
    u32_to_u8_iterator.dereference [0x110000, 0xDFFF] ⟨1, [1, 2, 3, 4, 0], 4⟩ =
      .ok (0xED, ⟨1, [0xED, 0xBF, 0xBF, 0, 0], 0⟩) :=
  ⟨((u32_to_u8_rejects_out_of_range [0x110000, 0xDFFF] 0 0x110000 1 2 3 4 0 rfl
      (by decide)).1 (by decide)).1,
   ((u32_to_u8_rejects_out_of_range [0x110000, 0xDFFF] 1 0xDFFF 1 2 3 4 0 rfl
      (by decide)).2 (by decide)).1⟩

/-- C9: the UTF-16 decoder rejects unpaired surrogates.  Dereferencing a pending
`u16_to_u32_iterator` raises `MisplacedSurrogate` when the unit at the base position is a low
surrogate, and when it is a high surrogate followed by a unit that is not a low surrogate. -/
theorem u16_to_u32_rejects_unpaired (src : List Nat) (p u : Nat) (hread : src[p]? = some u) :
    (0xDC00 ≤ u ∧ u ≤ 0xDFFF →
      u16_to_u32_iterator.dereference src (u16_to_u32_iterator.construct p) =
        .error (Failure.MisplacedSurrogate, ⟨p, u⟩)) ∧
    (0xD800 ≤ u ∧ u ≤ 0xDBFF →
      ∀ t, src[p + 1]? = some t → t < 65536 → ¬ (0xDC00 ≤ t ∧ t ≤ 0xDFFF) →
        u16_to_u32_iterator.dereference src (u16_to_u32_iterator.construct p) =
          .error (Failure.MisplacedSurrogate, ⟨p, u⟩)) := by
  constructor
  · intro h
    have hx := u16_to_u32_iterator.decode16_extract_current_eq src p u
      u16_to_u32_iterator.pending_read hread (by omega)
    rw [if_neg (by omega), if_pos h] at hx
    rw [u16_to_u32_iterator.decode16_dereference_of_pending _ _ rfl]
    simp only [u16_to_u32_iterator.construct, hx]
  · intro h t ht ht16 hnl
    have hx := u16_to_u32_iterator.decode16_extract_current_eq src p u
      u16_to_u32_iterator.pending_read hread (by omega)
    rw [if_pos h] at hx
    simp only [ht] at hx
    rw [if_neg (by omega)] at hx
    rw [u16_to_u32_iterator.decode16_dereference_of_pending _ _ rfl]
    simp only [u16_to_u32_iterator.construct, hx]

/-- Witness of C9: `0xD800` followed by `0x0041`, and a leading `0xDC00`. -/
theorem u16_to_u32_rejects_unpaired_witness :
    u16_to_u32_iterator.dereference [0xD800, 0x0041] (u16_to_u32_iterator.construct 0) =
      .error (Failure.MisplacedSurrogate, ⟨0, 0xD800⟩) ∧
    u16_to_u32_iterator.dereference [0xDC00, 0x0041] (u16_to_u32_iterator.construct 0) =
      .error (Failure.MisplacedSurrogate, ⟨0, 0xDC00⟩) :=
  ⟨(u16_to_u32_rejects_unpaired [0xD800, 0x0041] 0 0xD800 rfl).2 (by decide) 0x0041 rfl
      (by decide) (by decide),
   (u16_to_u32_rejects_unpaired [0xDC00, 0x0041] 0 0xDC00 rfl).1 (by decide)⟩

/-- C10: the UTF-8 decoder rejects a continuation byte at the start of a sequence.
Dereferencing a pending `u8_to_u32_iterator` whose byte at the base position is in
`[0x80, 0xBF]` (top two bits `10`) raises `InvalidUtf8Sequence`, whatever bytes follow. -/
theorem u8_to_u32_rejects_leading_continuation (src : List Nat) (p b : Nat)
    (hread : src[p]? = some b) (hb : 0x80 ≤ b ∧ b ≤ 0xBF) :
    (b &&& 0xC0 = 0x80) ∧
    u8_to_u32_iterator.dereference src (u8_to_u32_iterator.construct p) =
      .error (Failure.InvalidUtf8Sequence, ⟨p, b⟩) := by
  have hm : b % 256 = b := by omega
  have hx := u8_to_u32_iterator.decode8_extract_current_continuation src p b
    u8_to_u32_iterator.pending_read hread (by omega)
  rw [hm] at hx
  refine ⟨by rw [bits.land_C0]; omega, ?_⟩
  rw [u8_to_u32_iterator.decode8_dereference_of_pending _ _ rfl]
  simp only [u8_to_u32_iterator.construct, hx]

/-- Witness of C10: a stream beginning with `0x80`. -/
theorem u8_to_u32_rejects_leading_continuation_witness :
    (0x80 &&& 0xC0 = 0x80) ∧
    u8_to_u32_iterator.dereference [0x80, 0x41] (u8_to_u32_iterator.construct 0) =
      .error (Failure.InvalidUtf8Sequence, ⟨0, 0x80⟩) :=
  u8_to_u32_rejects_leading_continuation [0x80, 0x41] 0 0x80 rfl (by decide)

/-- C11, evaluated at the failing input `[0xC3, 0x41]`: the leading byte `0xC3` announces one
continuation byte, the next byte `0x41` is not one, and dereferencing a pending
`u8_to_u32_iterator` returns `0xC1` instead of raising `InvalidUtf8Sequence`: the loop of
`extract_current` takes the low six bits of each following byte without looking at its top two
bits. -/
theorem u8_to_u32_accepts_missing_continuation :
    detail.utf8_trailing_byte_count 0xC3 = 1 ∧ (0x41 &&& 0xC0) ≠ 0x80 ∧
    u8_to_u32_iterator.dereference [0xC3, 0x41] (u8_to_u32_iterator.construct 0) =
      .ok (0xC1, ⟨0, 0xC1⟩) ∧
    raises (u8_to_u32_iterator.dereference [0xC3, 0x41] (u8_to_u32_iterator.construct 0))
      Failure.InvalidUtf8Sequence = false :=
  ⟨by decide, by decide, rfl, rfl⟩

/-- C12 as stated fails twice.  The bytes `0xED 0xA0 0x80` are decoded to the surrogate
`0xD800`, which is returned, not reported as a failure.  And a dereference need not decode at
all: over `0xF4 0x90 0x80 0x80` the first dereference raises `InvalidUtf8Sequence` and leaves
`0x110000` in `m_value`; as that is not the pending marker, dereferencing the adapter left
behind succeeds and returns `0x110000`, which exceeds `0x10FFFF`. -/
theorem u8_to_u32_emits_invalid_scalar :
    (u8_to_u32_iterator.dereference [0xED, 0xA0, 0x80] (u8_to_u32_iterator.construct 0) =
        .ok (0xD800, ⟨0, 0xD800⟩) ∧
      ¬ spec.valid_code_point 0xD800) ∧
    (u8_to_u32_iterator.dereference [0xF4, 0x90, 0x80, 0x80] (u8_to_u32_iterator.construct 0) =
        .error (Failure.InvalidUtf8Sequence, ⟨0, 0x110000⟩) ∧
      u8_to_u32_iterator.dereference [0xF4, 0x90, 0x80, 0x80] ⟨0, 0x110000⟩ =
        .ok (0x110000, ⟨0, 0x110000⟩) ∧
      ¬ spec.valid_code_point 0x110000) :=
  ⟨⟨rfl, by decide⟩, rfl, rfl, by decide⟩

/-- C12, amended, for a pending `u8_to_u32_iterator` at offset `p` of any byte sequence.
First, whenever its dereference succeeds, the returned value is at most `0x10FFFF`, it is the
value left in the cache, and the base position is untouched.  Second, when the byte `b` at `p`
is not a continuation byte and is followed by the further bytes `ys` it announces, and the
specification decodes them to `d` (accumulate six bits per further byte, then mask), the
dereference raises `InvalidUtf8Sequence` if `d` exceeds `0x10FFFF` and returns exactly `d`
otherwise: an out-of-range value is reported, never clamped or replaced. -/
theorem u8_to_u32_emits_at_most_10FFFF (src : List Nat) (p : Nat) :
    (∀ (v : Nat) (it1 : u8_to_u32_iterator),
      u8_to_u32_iterator.dereference src (u8_to_u32_iterator.construct p) = .ok (v, it1) →
      v ≤ 0x10FFFF ∧ it1.m_value = v ∧ it1.m_position = p) ∧
    (∀ (b d : Nat) (ys rest : List Nat),
      src.drop p = b :: (ys ++ rest) → b < 256 → b &&& 0xC0 ≠ 0x80 →
      detail.utf8_trailing_byte_count b = ys.length →
      spec.utf8_decoded b ys = some d →
      u8_to_u32_iterator.dereference src (u8_to_u32_iterator.construct p) =
        if 0x10FFFF < d then .error (Failure.InvalidUtf8Sequence, ⟨p, d⟩)
        else .ok (d, ⟨p, d⟩)) := by
  constructor
  · intro v it1 h
    rw [u8_to_u32_iterator.decode8_dereference_of_pending _ _ rfl] at h
    split at h
    · cases h
    · rename_i r hr
      cases h
      have hk := u8_to_u32_iterator.decode8_extract_current_ok src _ _ hr
      exact ⟨hk.2, rfl, hk.1⟩
  · intro b d ys rest hsrc hb hlead hex hd
    have hx := u8_to_u32_iterator.decode8_extract_current_decoded src p
      u8_to_u32_iterator.pending_read b d ys rest hsrc hb hlead hex hd
    rw [u8_to_u32_iterator.decode8_dereference_of_pending _ _ rfl]
    by_cases hgt : 0x10FFFF < d
    · rw [if_pos hgt] at hx
      simp only [u8_to_u32_iterator.construct, hx, if_pos hgt]
    · rw [if_neg hgt] at hx
      simp only [u8_to_u32_iterator.construct, hx, if_neg hgt]

/-- Witness of the amended C12 on both sides of the bound: the four bytes of U+10FFFF are
decoded to `0x10FFFF`, and `0xF4 0x90 0x80 0x80`, which the specification decodes to
`0x110000`, raises `InvalidUtf8Sequence`. -/
theorem u8_to_u32_emits_at_most_10FFFF_witness :
    (0x10FFFF ≤ 0x10FFFF ∧
      (⟨0, 0x10FFFF⟩ : u8_to_u32_iterator).m_value = 0x10FFFF ∧
      (⟨0, 0x10FFFF⟩ : u8_to_u32_iterator).m_position = 0) ∧
    (spec.utf8_decoded 0xF4 [0x8F, 0xBF, 0xBF] = some 0x10FFFF ∧
      u8_to_u32_iterator.dereference [0xF4, 0x8F, 0xBF, 0xBF] (u8_to_u32_iterator.construct 0) =
        .ok (0x10FFFF, ⟨0, 0x10FFFF⟩)) ∧
    (spec.utf8_decoded 0xF4 [0x90, 0x80, 0x80] = some 0x110000 ∧
      u8_to_u32_iterator.dereference [0xF4, 0x90, 0x80, 0x80] (u8_to_u32_iterator.construct 0) =
        .error (Failure.InvalidUtf8Sequence, ⟨0, 0x110000⟩)) :=
  ⟨(u8_to_u32_emits_at_most_10FFFF [0xF4, 0x8F, 0xBF, 0xBF] 0).1 0x10FFFF ⟨0, 0x10FFFF⟩ rfl,
   ⟨rfl, (u8_to_u32_emits_at_most_10FFFF [0xF4, 0x8F, 0xBF, 0xBF] 0).2 0xF4 0x10FFFF
      [0x8F, 0xBF, 0xBF] [] rfl (by decide) (by decide) (by decide) rfl⟩,
   ⟨rfl, (u8_to_u32_emits_at_most_10FFFF [0xF4, 0x90, 0x80, 0x80] 0).2 0xF4 0x110000
      [0x90, 0x80, 0x80] [] rfl (by decide) (by decide) (by decide) rfl⟩⟩

/-- C14: the symmetry law of the encoders.  For `u32_to_u16_iterator` and for
`u32_to_u8_iterator`, every source sequence, every start position `p` and every `n`: if `n`
increments from a freshly constructed adapter at `p` complete without failure (in particular
without reading outside the sequence), then the `n` decrements that follow complete without
failure as well, and the resulting adapter compares equal to the original one and has
`base()` equal to `p`. -/
theorem encoders_symmetry (src : List Nat) (p n : Nat) :
    (∀ (u0 u1 : Nat) (a : u32_to_u16_iterator),
      repeat_op (u32_to_u16_iterator.increment src) n (u32_to_u16_iterator.construct p u0 u1) =
        .ok a →
      ∃ b, repeat_op (u32_to_u16_iterator.decrement src) n a = .ok b ∧
        u32_to_u16_iterator.equal b (u32_to_u16_iterator.construct p u0 u1) = true ∧
        u32_to_u16_iterator.base b = p) ∧
    (∀ (u0 u1 u2 u3 : Nat) (a : u32_to_u8_iterator),
      repeat_op (u32_to_u8_iterator.increment src) n
          (u32_to_u8_iterator.construct p u0 u1 u2 u3) = .ok a →
      ∃ b, repeat_op (u32_to_u8_iterator.decrement src) n a = .ok b ∧
        u32_to_u8_iterator.equal b (u32_to_u8_iterator.construct p u0 u1 u2 u3) = true ∧
        u32_to_u8_iterator.base b = p) := by
  constructor
  · intro u0 u1 a h
    obtain ⟨b, hb, hcase⟩ := u32_to_u16_iterator.encode16_symmetry src n
      (u32_to_u16_iterator.construct p u0 u1) a ⟨u0, u1, rfl, Or.inl rfl⟩ h
    refine ⟨b, hb, ?_⟩
    rcases hcase with hb1 | ⟨_, hx⟩
    · subst hb1
      exact ⟨by simp [u32_to_u16_iterator.equal, u32_to_u16_iterator.construct], rfl⟩
    · obtain ⟨x, y, hr, _⟩ :=
        u32_to_u16_iterator.encode16_extract_current_form src p u0 u1 0 2 b hx
      subst hr
      exact ⟨by simp [u32_to_u16_iterator.equal, u32_to_u16_iterator.construct], rfl⟩
  · intro u0 u1 u2 u3 a h
    obtain ⟨b, hb, hcase⟩ := u32_to_u8_iterator.encode8_symmetry src n
      (u32_to_u8_iterator.construct p u0 u1 u2 u3) a ⟨u0, u1, u2, u3, rfl, Or.inl rfl⟩ h
    refine ⟨b, hb, ?_⟩
    rcases hcase with hb1 | ⟨_, hx⟩
    · subst hb1
      exact ⟨by simp [u32_to_u8_iterator.equal, u32_to_u8_iterator.construct], rfl⟩
    · obtain ⟨x0, x1, x2, x3, hr, _⟩ :=
        u32_to_u8_iterator.encode8_extract_current_form src p u0 u1 u2 u3 0 4 b hx
      subst hr
      exact ⟨by simp [u32_to_u8_iterator.equal, u32_to_u8_iterator.construct,
        bits.land_3], rfl⟩

/-- Witness of C14 over `[0x48, 0x1F600, 0x21]`: three increments of the UTF-16 encoder from
offset 0 end pending at offset 2, five increments of the UTF-8 encoder end pending at offset 2;
as many decrements come back to offset 0. -/
theorem encoders_symmetry_witness :
    (∃ b, repeat_op (u32_to_u16_iterator.decrement [0x48, 0x1F600, 0x21]) 3
          ⟨2, [0xD83D, 0xDE00, 0], 2⟩ = .ok b ∧
      u32_to_u16_iterator.equal b (u32_to_u16_iterator.construct 0 7 9) = true ∧
      u32_to_u16_iterator.base b = 0) ∧
    (∃ b, repeat_op (u32_to_u8_iterator.decrement [0x48, 0x1F600, 0x21]) 5
          ⟨2, [0xF0, 0x9F, 0x98, 0x80, 0], 4⟩ = .ok b ∧
      u32_to_u8_iterator.equal b (u32_to_u8_iterator.construct 0 1 2 3 4) = true ∧
      u32_to_u8_iterator.base b = 0) :=
  ⟨(encoders_symmetry [0x48, 0x1F600, 0x21] 0 3).1 7 9 ⟨2, [0xD83D, 0xDE00, 0], 2⟩ rfl,
   (encoders_symmetry [0x48, 0x1F600, 0x21] 0 5).2 1 2 3 4 ⟨2, [0xF0, 0x9F, 0x98, 0x80, 0], 4⟩
     rfl⟩

/-- C15 as stated fails on sequences that are not well formed, without any failure being
raised.  UTF-16: over `[0xD800, 0x41, 0x42]` one increment from offset 0 skips the unpaired high
surrogate and the unit after it (offset 2), one decrement comes back to offset 1.  UTF-8: over
`[0xC3, 0x41, 0x42]` one increment from offset 0 reaches offset 2, one decrement comes back to
offset 1. -/
theorem decoders_symmetry_fails_on_malformed :
    repeat_op (u16_to_u32_iterator.increment [0xD800, 0x41, 0x42]) 1
        (u16_to_u32_iterator.construct 0) = .ok ⟨2, u16_to_u32_iterator.pending_read⟩ ∧
    repeat_op (u16_to_u32_iterator.decrement [0xD800, 0x41, 0x42]) 1
        ⟨2, u16_to_u32_iterator.pending_read⟩ = .ok ⟨1, u16_to_u32_iterator.pending_read⟩ ∧
    u16_to_u32_iterator.base ⟨1, u16_to_u32_iterator.pending_read⟩ ≠ 0 ∧
    u16_to_u32_iterator.equal ⟨1, u16_to_u32_iterator.pending_read⟩
        (u16_to_u32_iterator.construct 0) = false ∧
    repeat_op (u8_to_u32_iterator.increment [0xC3, 0x41, 0x42]) 1
        (u8_to_u32_iterator.construct 0) = .ok ⟨2, u8_to_u32_iterator.pending_read⟩ ∧
    repeat_op (u8_to_u32_iterator.decrement [0xC3, 0x41, 0x42]) 1
        ⟨2, u8_to_u32_iterator.pending_read⟩ = .ok ⟨1, u8_to_u32_iterator.pending_read⟩ ∧
    u8_to_u32_iterator.base ⟨1, u8_to_u32_iterator.pending_read⟩ ≠ 0 ∧
    u8_to_u32_iterator.equal ⟨1, u8_to_u32_iterator.pending_read⟩
        (u8_to_u32_iterator.construct 0) = false :=
  ⟨rfl, rfl, by decide, rfl, rfl, rfl, by decide, rfl⟩

/-- C15, amended: the symmetry law of the decoders over well-formed elements.  If each of the
`n` increments from the start position `p` starts on a well-formed element (UTF-16: a unit that
is not a low surrogate and, when it is a high surrogate, is followed by a low surrogate;
UTF-8: a byte that is not a continuation byte, followed by as many continuation bytes as its
high-bit run announces), then the `n` increments and the `n` decrements that follow complete
without failure, `base()` is `p` again and the adapter compares equal to the original. -/
theorem decoders_symmetry (src : List Nat) (p n : Nat) :
    (spec.well_paired_steps src n p = true →
      ∃ a b, repeat_op (u16_to_u32_iterator.increment src) n
            (u16_to_u32_iterator.construct p) = .ok a ∧
        repeat_op (u16_to_u32_iterator.decrement src) n a = .ok b ∧
        u16_to_u32_iterator.base b = p ∧
        u16_to_u32_iterator.equal b (u16_to_u32_iterator.construct p) = true) ∧
    (spec.well_led_steps src n p = true →
      ∃ a b, repeat_op (u8_to_u32_iterator.increment src) n
            (u8_to_u32_iterator.construct p) = .ok a ∧
        repeat_op (u8_to_u32_iterator.decrement src) n a = .ok b ∧
        u8_to_u32_iterator.base b = p ∧
        u8_to_u32_iterator.equal b (u8_to_u32_iterator.construct p) = true) := by
  constructor
  · intro h
    obtain ⟨q, h1, h2⟩ := u16_to_u32_iterator.decode16_symmetry src n p h
    exact ⟨_, _, h1, h2, rfl, by simp [u16_to_u32_iterator.equal,
      u16_to_u32_iterator.construct]⟩
  · intro h
    obtain ⟨q, h1, h2⟩ := u8_to_u32_iterator.decode8_symmetry src n p h
    exact ⟨_, _, h1, h2, rfl, by simp [u8_to_u32_iterator.equal,
      u8_to_u32_iterator.construct]⟩

/-- Witness of the amended C15: two steps forward and back over `[0x48, 0xD83D, 0xDE00, 0x21]`
from offset 0, and over `[0x48, 0xF0, 0x9F, 0x98, 0x80, 0x21]` from offset 0. -/
theorem decoders_symmetry_witness :
    (∃ a b, repeat_op (u16_to_u32_iterator.increment [0x48, 0xD83D, 0xDE00, 0x21]) 2
          (u16_to_u32_iterator.construct 0) = .ok a ∧
      repeat_op (u16_to_u32_iterator.decrement [0x48, 0xD83D, 0xDE00, 0x21]) 2 a = .ok b ∧
      u16_to_u32_iterator.base b = 0 ∧
      u16_to_u32_iterator.equal b (u16_to_u32_iterator.construct 0) = true) ∧
    (∃ a b, repeat_op (u8_to_u32_iterator.increment [0x48, 0xF0, 0x9F, 0x98, 0x80, 0x21]) 2
          (u8_to_u32_iterator.construct 0) = .ok a ∧
      repeat_op (u8_to_u32_iterator.decrement [0x48, 0xF0, 0x9F, 0x98, 0x80, 0x21]) 2 a =
        .ok b ∧
      u8_to_u32_iterator.base b = 0 ∧
      u8_to_u32_iterator.equal b (u8_to_u32_iterator.construct 0) = true) :=
  ⟨(decoders_symmetry [0x48, 0xD83D, 0xDE00, 0x21] 0 2).1 (by decide),
   (decoders_symmetry [0x48, 0xF0, 0x9F, 0x98, 0x80, 0x21] 0 2).2 (by decide)⟩

/-- C16: equality of the UTF-16 encoder.  For markers in `{0, 1, 2}`, `equal` is true exactly
when the base positions are equal and the sum of the markers is even; pending (2) and index 0
at the same base are equal, index 1 is equal only to index 1; `equal` is reflexive, symmetric
and transitive; its result is a function of the two (base position, marker) pairs alone (it has
no access to the source and ignores the cached units); and two freshly constructed adapters at
the same base are equal, `equal` being a total function that decodes nothing. -/
theorem encode16_equal_law :
    (∀ a b : u32_to_u16_iterator, a.m_current ≤ 2 → b.m_current ≤ 2 →
      (u32_to_u16_iterator.equal a b = true ↔
        a.m_position = b.m_position ∧ (a.m_current + b.m_current) % 2 = 0)) ∧
    (∀ (p : Nat) (va vb : List Nat),
      u32_to_u16_iterator.equal ⟨p, va, 2⟩ ⟨p, vb, 0⟩ = true ∧
      u32_to_u16_iterator.equal ⟨p, va, 0⟩ ⟨p, vb, 2⟩ = true) ∧
    (∀ (p q k : Nat) (va vb : List Nat), k ≤ 2 →
      (u32_to_u16_iterator.equal ⟨p, va, 1⟩ ⟨q, vb, k⟩ = true ↔ p = q ∧ k = 1)) ∧
    (∀ a : u32_to_u16_iterator, u32_to_u16_iterator.equal a a = true) ∧
    (∀ a b : u32_to_u16_iterator,
      u32_to_u16_iterator.equal a b = u32_to_u16_iterator.equal b a) ∧
    (∀ a b c : u32_to_u16_iterator, u32_to_u16_iterator.equal a b = true →
      u32_to_u16_iterator.equal b c = true → u32_to_u16_iterator.equal a c = true) ∧
    (∀ a b a1 b1 : u32_to_u16_iterator,
      a.m_position = a1.m_position → a.m_current = a1.m_current →
      b.m_position = b1.m_position → b.m_current = b1.m_current →
      u32_to_u16_iterator.equal a b = u32_to_u16_iterator.equal a1 b1) ∧
    (∀ p u0 u1 e0 e1 : Nat,
      u32_to_u16_iterator.equal (u32_to_u16_iterator.construct p u0 u1)
        (u32_to_u16_iterator.construct p e0 e1) = true) := by
  have key : ∀ a b : u32_to_u16_iterator, u32_to_u16_iterator.equal a b = true ↔
      a.m_position = b.m_position ∧ (a.m_current + b.m_current) % 2 = 0 := by
    intro a b
    simp only [u32_to_u16_iterator.equal, bits.land_1]
    by_cases hp : a.m_position = b.m_position
    · by_cases hc : (a.m_current + b.m_current) % 2 = 0
      · simp [hp, hc]
      · simp [hp, hc]
    · simp [hp]
  have beq : ∀ x y : Bool, (x = true ↔ y = true) → x = y := by
    intro x y h
    cases x <;> cases y <;> simp_all
  refine ⟨fun a b _ _ => key a b, ?_, ?_, ?_, ?_, ?_, ?_, ?_⟩
  · intro p va vb
    exact ⟨(key _ _).mpr ⟨rfl, by simp⟩, (key _ _).mpr ⟨rfl, by simp⟩⟩
  · intro p q k va vb hk
    rw [key]
    simp only
    constructor
    · rintro ⟨h1, h2⟩
      exact ⟨h1, by omega⟩
    · rintro ⟨h1, h2⟩
      exact ⟨h1, by omega⟩
  · intro a
    exact (key a a).mpr ⟨rfl, by omega⟩
  · intro a b
    apply beq
    rw [key, key]
    constructor
    · rintro ⟨h1, h2⟩
      exact ⟨h1.symm, by omega⟩
    · rintro ⟨h1, h2⟩
      exact ⟨h1.symm, by omega⟩
  · intro a b c hab hbc
    rw [key] at hab hbc ⊢
    exact ⟨hab.1.trans hbc.1, by omega⟩
  · intro a b a1 b1 h1 h2 h3 h4
    apply beq
    rw [key, key, h1, h2, h3, h4]
  · intro p u0 u1 e0 e1
    exact (key _ _).mpr ⟨rfl, by simp [u32_to_u16_iterator.construct]⟩

/-- Witness of C16 on concrete adapters. -/
theorem encode16_equal_law_witness :
    (u32_to_u16_iterator.equal ⟨3, [0xD83D, 0xDE00, 0], 1⟩ ⟨3, [7, 9, 0], 2⟩ = true ↔
      (3 : Nat) = 3 ∧ (1 + 2) % 2 = 0) ∧
    u32_to_u16_iterator.equal ⟨3, [7, 9, 0], 2⟩ ⟨3, [0x48, 0, 0], 0⟩ = true :=
  ⟨encode16_equal_law.1 ⟨3, [0xD83D, 0xDE00, 0], 1⟩ ⟨3, [7, 9, 0], 2⟩ (by decide) (by decide),
   encode16_equal_law.2.2.2.2.2.1 ⟨3, [7, 9, 0], 2⟩ ⟨3, [1, 2, 0], 2⟩ ⟨3, [0x48, 0, 0], 0⟩
     rfl rfl⟩

/-- C17: equality of the UTF-8 encoder.  `equal` is true exactly when the base positions are
equal and the markers are identical or both have their low two bits zero; index 0 and pending
(4) at the same base are equal, each of the indices 1, 2, 3 is equal only to itself among the
markers `0..4`; `equal` is reflexive, symmetric and transitive. -/
theorem encode8_equal_law :
    (∀ a b : u32_to_u8_iterator, a.m_current ≤ 4 → b.m_current ≤ 4 →
      (u32_to_u8_iterator.equal a b = true ↔
        a.m_position = b.m_position ∧
          (a.m_current = b.m_current ∨ (a.m_current &&& 3 = 0 ∧ b.m_current &&& 3 = 0)))) ∧
    (∀ (p : Nat) (va vb : List Nat),
      u32_to_u8_iterator.equal ⟨p, va, 0⟩ ⟨p, vb, 4⟩ = true ∧
      u32_to_u8_iterator.equal ⟨p, va, 4⟩ ⟨p, vb, 0⟩ = true) ∧
    (∀ (p q j k : Nat) (va vb : List Nat), 1 ≤ j → j ≤ 3 → k ≤ 4 →
      (u32_to_u8_iterator.equal ⟨p, va, j⟩ ⟨q, vb, k⟩ = true ↔ p = q ∧ k = j)) ∧
    (∀ a : u32_to_u8_iterator, u32_to_u8_iterator.equal a a = true) ∧
    (∀ a b : u32_to_u8_iterator,
      u32_to_u8_iterator.equal a b = u32_to_u8_iterator.equal b a) ∧
    (∀ a b c : u32_to_u8_iterator, u32_to_u8_iterator.equal a b = true →
      u32_to_u8_iterator.equal b c = true → u32_to_u8_iterator.equal a c = true) := by
  have key : ∀ a b : u32_to_u8_iterator, u32_to_u8_iterator.equal a b = true ↔
      a.m_position = b.m_position ∧
        (a.m_current = b.m_current ∨ (a.m_current % 4 = 0 ∧ b.m_current % 4 = 0)) := by
    intro a b
    simp only [u32_to_u8_iterator.equal]
    by_cases hp : a.m_position = b.m_position
    · simp only [hp, if_true, Bool.or_eq_true, beq_iff_eq, bits.lor_land_3_eq_zero, true_and]
    · simp [hp]
  have beq : ∀ x y : Bool, (x = true ↔ y = true) → x = y := by
    intro x y h
    cases x <;> cases y <;> simp_all
  refine ⟨?_, ?_, ?_, ?_, ?_, ?_⟩
  · intro a b _ _
    rw [key, bits.land_3, bits.land_3]
  · intro p va vb
    exact ⟨(key _ _).mpr ⟨rfl, Or.inr ⟨by simp, by simp⟩⟩,
      (key _ _).mpr ⟨rfl, Or.inr ⟨by simp, by simp⟩⟩⟩
  · intro p q j k va vb hj1 hj3 hk
    rw [key]
    simp only
    constructor
    · rintro ⟨h1, h2⟩
      exact ⟨h1, by omega⟩
    · rintro ⟨h1, h2⟩
      exact ⟨h1, Or.inl h2.symm⟩
  · intro a
    exact (key a a).mpr ⟨rfl, Or.inl rfl⟩
  · intro a b
    apply beq
    rw [key, key]
    constructor
    · rintro ⟨h1, h2⟩
      exact ⟨h1.symm, by omega⟩
    · rintro ⟨h1, h2⟩
      exact ⟨h1.symm, by omega⟩
  · intro a b c hab hbc
    rw [key] at hab hbc ⊢
    exact ⟨hab.1.trans hbc.1, by omega⟩

/-- Witness of C17 on concrete adapters. -/
theorem encode8_equal_law_witness :
    (u32_to_u8_iterator.equal ⟨3, [0xF0, 0x9F, 0x98, 0x80, 0], 2⟩ ⟨3, [1, 2, 3, 4, 0], 4⟩ = true ↔
      (3 : Nat) = 3 ∧ ((2 : Nat) = 4 ∨ ((2 : Nat) &&& 3 = 0 ∧ (4 : Nat) &&& 3 = 0))) ∧
    u32_to_u8_iterator.equal ⟨3, [1, 2, 3, 4, 0], 4⟩ ⟨3, [0x48, 0, 0, 0, 0], 0⟩ = true :=
  ⟨encode8_equal_law.1 ⟨3, [0xF0, 0x9F, 0x98, 0x80, 0], 2⟩ ⟨3, [1, 2, 3, 4, 0], 4⟩
     (by decide) (by decide),
   encode8_equal_law.2.2.2.2.2 ⟨3, [1, 2, 3, 4, 0], 4⟩ ⟨3, [5, 6, 7, 8, 0], 4⟩
     ⟨3, [0x48, 0, 0, 0, 0], 0⟩ rfl rfl⟩

/-- C18, evaluated at the failing input: `0xF8` is not a continuation byte, its trailing-byte
count is 4 (5 to 7 for `0xFC`, `0xFE`, `0xFF`), there is no entry 4 in the table `masks`, and
`extract_current` reads four further bytes before it indexes the table. -/
theorem utf8_trailing_byte_count_exceeds_table :
    (0xF8 &&& 0xC0) ≠ 0x80 ∧
    detail.utf8_trailing_byte_count 0xF8 = 4 ∧
    detail.utf8_trailing_byte_count 0xFC = 5 ∧
    detail.utf8_trailing_byte_count 0xFE = 6 ∧
    detail.utf8_trailing_byte_count 0xFF = 7 ∧
    u8_to_u32_iterator.masks.length = 4 ∧
    u8_to_u32_iterator.masks[detail.utf8_trailing_byte_count 0xF8]? = none ∧
    u8_to_u32_iterator.dereference [0xF8, 0x80, 0x80, 0x80] (u8_to_u32_iterator.construct 0) =
      .error (Failure.Undefined, ⟨0, 0xF8000000⟩) ∧
    u8_to_u32_iterator.dereference [0xF8, 0x80, 0x80, 0x80, 0x80]
        (u8_to_u32_iterator.construct 0) = .error (Failure.Undefined, ⟨0, 0xF8000000⟩) :=
  ⟨by decide, by decide, by decide, by decide, by decide, rfl, rfl, rfl, rfl⟩

/-- C19: backward traversal of the UTF-8 decoder over well-formed input.  Over the concatenated
UTF-8 encodings of a sequence `cps` of valid code points, starting at the end position and
repeating (decrement, then dereference) `cps.length` times raises no failure, yields the
elements of `cps` in reverse order and leaves `base()` at offset 0; each decrement from the
start offset of a code point's successor (or from the end) lands on the leading byte of that
code point, and the number of continuation bytes skipped is the trailing-byte count of that
leading byte. -/
theorem utf8_backward_traversal (cps : List Nat)
    (hvalid : ∀ v ∈ cps, spec.valid_code_point v) :
    (∃ it3, traverse_backward (u8_to_u32_iterator.decrement (cps.flatMap spec.utf8_bytes))
        (u8_to_u32_iterator.dereference (cps.flatMap spec.utf8_bytes)) cps.length
        (u8_to_u32_iterator.construct (cps.flatMap spec.utf8_bytes).length) =
          .ok (cps.reverse, it3) ∧
      u8_to_u32_iterator.base it3 = 0) ∧
    (∀ i v m : Nat, cps[i]? = some v →
      u8_to_u32_iterator.decrement (cps.flatMap spec.utf8_bytes)
          ⟨spec.utf8_offset cps (i + 1), m⟩ =
        .ok ⟨spec.utf8_offset cps i, u8_to_u32_iterator.pending_read⟩ ∧
      ∃ b, (cps.flatMap spec.utf8_bytes)[spec.utf8_offset cps i]? = some b ∧
        u8_to_u32_iterator.backtrack (cps.flatMap spec.utf8_bytes)
            (spec.utf8_offset cps (i + 1)) 0 =
          .ok (spec.utf8_offset cps i, detail.utf8_trailing_byte_count b) ∧
        spec.utf8_offset cps (i + 1) =
          spec.utf8_offset cps i + 1 + detail.utf8_trailing_byte_count b) := by
  constructor
  · have h := u8_to_u32_iterator.decode8_traverse_backward cps []
      u8_to_u32_iterator.pending_read (fun v hv => (hvalid v hv).1)
    rw [List.append_nil] at h
    exact h
  · intro i v m h
    obtain ⟨hs, ho⟩ := spec.utf8_split h
    have hv := (hvalid v (List.getElem?_mem h)).1
    obtain ⟨h1, h2, b, h3, h4⟩ := u8_to_u32_iterator.decode8_decrement_encoded
      ((cps.take i).flatMap spec.utf8_bytes) ((cps.drop (i + 1)).flatMap spec.utf8_bytes)
      v m hv
    rw [← hs] at h1 h2 h3
    obtain ⟨b0, tail, hb, _⟩ := spec.utf8_bytes_shape v hv
    have hpos : 1 ≤ (spec.utf8_bytes v).length := by rw [hb]; simp
    rw [ho]
    refine ⟨h2, b, h3, ?_, ?_⟩
    · rw [h4]
      exact h1
    · rw [h4]
      simp only [spec.utf8_offset]
      omega

/-- Witness of C19: from the end of `[0x48, 0xF0, 0x9F, 0x98, 0x80, 0x21]` three rounds of
(decrement, dereference) yield `[0x21, 0x1F600, 0x48]`. -/
theorem utf8_backward_traversal_witness :
    ∃ it3, traverse_backward (u8_to_u32_iterator.decrement [0x48, 0xF0, 0x9F, 0x98, 0x80, 0x21])
        (u8_to_u32_iterator.dereference [0x48, 0xF0, 0x9F, 0x98, 0x80, 0x21]) 3
        (u8_to_u32_iterator.construct 6) = .ok ([0x21, 0x1F600, 0x48], it3) ∧
      u8_to_u32_iterator.base it3 = 0 :=
  (utf8_backward_traversal [0x48, 0x1F600, 0x21] (by decide)).1

/-- C20: step alignment of the UTF-16 decoder over well-formed input.  Over the concatenated
UTF-16 encodings of a sequence `cps` of valid code points: `increment` at the start offset of
the `i`-th code point moves `base()` to the start offset of the next one, which is 2 further
for a code point `≥ 0x10000` and 1 further otherwise; `decrement` from there moves it back;
the unit at the start offset of a code point is never a low surrogate; the end offset is
reached by exactly `cps.length` increments from offset 0, and by no fewer. -/
theorem utf16_step_alignment (cps : List Nat)
    (hvalid : ∀ v ∈ cps, spec.valid_code_point v) :
    (∀ i v m : Nat, cps[i]? = some v →
      u16_to_u32_iterator.increment (cps.flatMap spec.utf16_units)
          ⟨spec.utf16_offset cps i, m⟩ =
        .ok ⟨spec.utf16_offset cps (i + 1), u16_to_u32_iterator.pending_read⟩ ∧
      spec.utf16_offset cps (i + 1) =
        spec.utf16_offset cps i + (if 0x10000 ≤ v then 2 else 1) ∧
      u16_to_u32_iterator.decrement (cps.flatMap spec.utf16_units)
          ⟨spec.utf16_offset cps (i + 1), m⟩ =
        .ok ⟨spec.utf16_offset cps i, u16_to_u32_iterator.pending_read⟩ ∧
      ∃ u, (cps.flatMap spec.utf16_units)[spec.utf16_offset cps i]? = some u ∧
        detail.is_low_surrogate u = false) ∧
    spec.utf16_offset cps cps.length = (cps.flatMap spec.utf16_units).length ∧
    (∀ k, k ≤ cps.length →
      repeat_op (u16_to_u32_iterator.increment (cps.flatMap spec.utf16_units)) k
          (u16_to_u32_iterator.construct 0) =
        .ok ⟨spec.utf16_offset cps k, u16_to_u32_iterator.pending_read⟩) ∧
    (∀ k, k < cps.length →
      spec.utf16_offset cps k < (cps.flatMap spec.utf16_units).length) := by
  have step : ∀ i v m : Nat, cps[i]? = some v →
      u16_to_u32_iterator.increment (cps.flatMap spec.utf16_units)
          ⟨spec.utf16_offset cps i, m⟩ =
        .ok ⟨spec.utf16_offset cps (i + 1), u16_to_u32_iterator.pending_read⟩ ∧
      spec.utf16_offset cps (i + 1) =
        spec.utf16_offset cps i + (if 0x10000 ≤ v then 2 else 1) ∧
      u16_to_u32_iterator.decrement (cps.flatMap spec.utf16_units)
          ⟨spec.utf16_offset cps (i + 1), m⟩ =
        .ok ⟨spec.utf16_offset cps i, u16_to_u32_iterator.pending_read⟩ ∧
      ∃ u, (cps.flatMap spec.utf16_units)[spec.utf16_offset cps i]? = some u ∧
        detail.is_low_surrogate u = false := by
    intro i v m h
    obtain ⟨hs, ho⟩ := spec.utf16_split h
    have hv := hvalid v (List.getElem?_mem h)
    obtain ⟨h1, h2, h3, h4⟩ := u16_to_u32_iterator.decode16_step_encoded
      ((cps.take i).flatMap spec.utf16_units) ((cps.drop (i + 1)).flatMap spec.utf16_units)
      v m hv
    rw [← hs] at h1 h2 h4
    rw [ho]
    exact ⟨h1, by rw [h3], h2, h4⟩
  refine ⟨step, spec.utf16_offset_length cps, ?_, ?_⟩
  · intro k
    induction k with
    | zero =>
      intro _
      rw [spec.utf16_offset_zero]
      rfl
    | succ k ih =>
      intro hk
      obtain ⟨v, hv⟩ : ∃ v, cps[k]? = some v :=
        ⟨cps[k], List.getElem?_eq_getElem (by omega)⟩
      exact repeat_op_succ_last _ k _ _ _ (ih (by omega))
        (step k v u16_to_u32_iterator.pending_read hv).1
  · intro k hk
    obtain ⟨v, hv⟩ : ∃ v, cps[k]? = some v :=
      ⟨cps[k], List.getElem?_eq_getElem (by omega)⟩
    obtain ⟨hs, _⟩ := spec.utf16_split hv
    have hlen := congrArg List.length hs
    simp only [List.length_append] at hlen
    have hpos := spec.utf16_units_length_pos v
    simp only [spec.utf16_offset]
    omega

/-- Witness of C20 over `[0x48, 0x1F600, 0x21]`, whose units are
`[0x48, 0xD83D, 0xDE00, 0x21]`: three increments reach the end offset 4, and the step over
U+1F600 goes from offset 1 to offset 3 and back. -/
theorem utf16_step_alignment_witness :
    repeat_op (u16_to_u32_iterator.increment [0x48, 0xD83D, 0xDE00, 0x21]) 3
        (u16_to_u32_iterator.construct 0) = .ok ⟨4, u16_to_u32_iterator.pending_read⟩ ∧
    u16_to_u32_iterator.increment [0x48, 0xD83D, 0xDE00, 0x21] ⟨1, 7⟩ =
        .ok ⟨3, u16_to_u32_iterator.pending_read⟩ ∧
    u16_to_u32_iterator.decrement [0x48, 0xD83D, 0xDE00, 0x21] ⟨3, 7⟩ =
        .ok ⟨1, u16_to_u32_iterator.pending_read⟩ :=
  ⟨(utf16_step_alignment [0x48, 0x1F600, 0x21] (by decide)).2.2.1 3 (by decide),
   ((utf16_step_alignment [0x48, 0x1F600, 0x21] (by decide)).1 1 0x1F600 7 rfl).1,
   ((utf16_step_alignment [0x48, 0x1F600, 0x21] (by decide)).1 1 0x1F600 7 rfl).2.2.1⟩

end boost
